import Mathlib

/-
Verification of the faculty-page HTML sanitization engine
(src/tools/faculty-cleaner/src/pushDir.ts, the cleanFacultyHtml /
cleanFacultyText engine and its helpers).

The engine is embedded shallowly: the document is a tree of nodes
(element / text / comment), and every pipeline stage of the source is
translated into a total, executable Lean function over that tree.
External collaborators that the source calls but that are not part of the
repository -- the HTML parser (cheerio / parse5), its serializer, and the
WHATWG URL resolver (new URL) -- are modelled explicitly; each such model
carries a comment saying so.  JavaScript string semantics (whitespace
classes, trim, case folding, regexes) are translated into explicit
character scans; lengths are counted in characters (identical to the
source's UTF-16 units for all strings appearing here, which stay in the
Basic Multilingual Plane).
-/

set_option maxRecDepth 16384

namespace FacultyCleaner

/-! ## JavaScript string primitives -/

/-- Whitespace as matched by the JavaScript regex class for whitespace and
by String.prototype.trim: tab, LF, VT, FF, CR, space, NBSP, ogham space,
the U+2000..U+200A range, LS, PS, NNBSP, MMSP, ideographic space U+3000,
and the BOM. -/
def jsWhitespace (c : Char) : Bool :=
  c = ' ' || c = '\t' || c = '\n' || c = '\u000B' || c = '\u000C' ||
  c = '\u000D' || c = '\u00A0' || c = '\u1680' ||
  (0x2000 ≤ c.toNat && c.toNat ≤ 0x200A) ||
  c = '\u2028' || c = '\u2029' || c = '\u202F' || c = '\u205F' ||
  c = '\u3000' || c = '\uFEFF'

/-- JavaScript toLowerCase restricted to ASCII (all case-carrying
characters appearing in the engine's word lists and inputs are ASCII;
CJK characters are unaffected by case folding). -/
def lowerChar (c : Char) : Char :=
  if 'A' ≤ c && c ≤ 'Z' then Char.ofNat (c.toNat + 32) else c

def lowerList (cs : List Char) : List Char := cs.map lowerChar

def strLower (s : String) : String := ⟨lowerList s.data⟩

/-- Does the pattern occur at the head of the character list? -/
def headMatches : List Char → List Char → Bool
  | [], _ => true
  | _ :: _, [] => false
  | p :: ps, c :: cs => p = c && headMatches ps cs

/-- Substring containment on character lists (JavaScript includes). -/
def listContains (cs pat : List Char) : Bool :=
  match cs with
  | [] => headMatches pat []
  | _ :: rest => headMatches pat cs || listContains rest pat

def strContains (s pat : String) : Bool := listContains s.data pat.data

/-- Case-insensitive containment (a regex of alternated literals with the
i flag, as used for the role-word test). -/
def strContainsCI (s pat : String) : Bool :=
  listContains (lowerList s.data) (lowerList pat.data)

def strStarts (s pat : String) : Bool := headMatches pat.data s.data

def dropWhileWs (cs : List Char) : List Char := cs.dropWhile (fun c => jsWhitespace c)

/-- JavaScript String.prototype.trim. -/
def jsTrim (s : String) : String :=
  ⟨((dropWhileWs s.data).reverse |> dropWhileWs).reverse⟩

/-- JavaScript String.prototype.trimEnd. -/
def jsTrimEnd (s : String) : String :=
  ⟨(dropWhileWs s.data.reverse).reverse⟩

/-- Split on runs of JavaScript whitespace, dropping empty pieces (used to
read a regex of the form caret-or-space, word, space-or-dollar as
membership of the word among the whitespace-delimited tokens). -/
def wsTokens (cs : List Char) : List (List Char) :=
  go cs []
where
  go : List Char → List Char → List (List Char)
    | [], acc => if acc.isEmpty then [] else [acc.reverse]
    | c :: rest, acc =>
      if jsWhitespace c then
        if acc.isEmpty then go rest [] else acc.reverse :: go rest []
      else go rest (c :: acc)

/-! ## Unicode script classes

The source tests CJK name shapes with Unicode-script regex classes.  The
classes are modelled by their code-point ranges. -/

/-- Unicode script Han (the regex class p sc=Han): kanji ideographs.
Covers the CJK radicals and Kangxi radicals, the iteration/zero marks
U+3005/U+3007/U+3021-3029/U+3038-303B, CJK extension A, the unified
ideographs block, the compatibility ideographs, and the supplementary
planes. -/
def isHan (c : Char) : Bool :=
  let n := c.toNat
  (0x2E80 ≤ n && n ≤ 0x2EF3) || (0x2F00 ≤ n && n ≤ 0x2FD5) ||
  n = 0x3005 || n = 0x3007 || (0x3021 ≤ n && n ≤ 0x3029) ||
  (0x3038 ≤ n && n ≤ 0x303B) ||
  (0x3400 ≤ n && n ≤ 0x4DBF) || (0x4E00 ≤ n && n ≤ 0x9FFF) ||
  (0xF900 ≤ n && n ≤ 0xFA6D) || (0xFA70 ≤ n && n ≤ 0xFAD9) ||
  (0x20000 ≤ n && n ≤ 0x2A6DF) || (0x2A700 ≤ n && n ≤ 0x2EBE0) ||
  (0x2F800 ≤ n && n ≤ 0x2FA1D) || (0x30000 ≤ n && n ≤ 0x3134A)

/-- The katakana character class of the source's name regex: Unicode
script Katakana plus the two explicit characters, the middle dot U+30FB
and the prolonged sound mark U+30FC. -/
def isKataClass (c : Char) : Bool :=
  let n := c.toNat
  (0x30A1 ≤ n && n ≤ 0x30FA) || n = 0x30FB || n = 0x30FC ||
  (0x30FD ≤ n && n ≤ 0x30FF) || (0x31F0 ≤ n && n ≤ 0x31FF) ||
  (0xFF66 ≤ n && n ≤ 0xFF9D)

/-! ## Static heuristic word lists (pushDir.ts lines 253-279) -/

/-- Tag names matched outright by NOISE_SELECTOR_LIST (header, nav,
footer, aside, form; the entry form with role search is subsumed by the
bare form entry). -/
def NOISE_SELECTOR_TAGS : List String := ["header", "nav", "footer", "aside", "form"]

/-- Class names matched by the class selectors of NOISE_SELECTOR_LIST
(.global-nav, .site-header, ... .quick-search).  A class selector matches
when the token appears verbatim (case-sensitively) among the
whitespace-separated tokens of the class attribute. -/
def NOISE_SELECTOR_CLASSES : List String :=
  ["global-nav", "site-header", "site-footer", "breadcrumb", "breadcrumbs",
   "pager", "pagination", "sns", "share", "social", "skip-link", "cookie",
   "consent", "gdpr", "banner", "ads", "advertisement", "newsletter",
   "modal", "popup", "drawer", "offcanvas", "side", "sidenav",
   "search", "detailSearch", "detail-search", "global-search",
   "site-search", "quick-search"]

/-- Substrings matched by the attribute-substring selectors of
NOISE_SELECTOR_LIST: class or id containing side-nav, and id or class
containing search (case-sensitive attribute matching). -/
def NOISE_SELECTOR_ATTR_SUBSTRINGS : List String := ["side-nav", "search"]

/-- NOISE_CLASS_SUBSTR: lower-cased substrings looked for inside the
class attribute (and, in a third pass, the id attribute). -/
def NOISE_CLASS_SUBSTR : List String :=
  ["global-nav", "site-header", "site-footer", "breadcrumb", "breadcrumbs",
   "pager", "pagination", "sns", "share", "social", "skip-link", "cookie",
   "consent", "gdpr", "banner", "ads", "advert", "newsletter", "modal",
   "popup", "drawer", "offcanvas", "side", "sidenav", "side-nav",
   "search", "detailsearch", "quick-search", "global-search", "selectbox",
   "select-box", "filter", "filters", "facet", "refine", "toolbar",
   "controls", "autocomplete", "suggest"]

/-- FORCE_REMOVE_TAGS. -/
def FORCE_REMOVE_TAGS : List String := ["script", "style", "noscript", "template", "iframe"]

/-- ROLE_WORDS_JA. -/
def ROLE_WORDS_JA : List String :=
  ["教授", "准教授", "助教", "講師", "特任教授", "客員教授", "名誉教授",
   "非常勤講師", "招聘教授", "招へい教員"]

/-- ROLE_WORDS_EN. -/
def ROLE_WORDS_EN : List String :=
  ["Professor", "Associate Professor", "Assistant Professor",
   "Adjunct Professor", "Visiting Professor", "Professor Emeritus",
   "Lecturer", "Research Fellow", "Researcher", "Senior Researcher",
   "Postdoctoral"]

/-- PERSON_LINK_HINTS. -/
def PERSON_LINK_HINTS : List String :=
  ["/faculty-member/", "/faculty/", "/people/", "/person/", "/profile",
   "/profiles", "/researcher", "/researchers", "/staff/", "/r/lab/"]

/-- LABEL_WORDS. -/
def LABEL_WORDS : List String :=
  ["氏名", "名前", "専門", "研究分野", "Research field", "Field(s)", "Fields"]

/-- BLOCK_TAGS. -/
def BLOCK_TAGS : List String :=
  ["section", "article", "ul", "ol", "li", "table", "thead", "tbody",
   "tr", "td", "th", "div", "p", "h1", "h2", "h3", "h4", "h5", "h6",
   "dl", "dt", "dd", "hr"]

/-- Words of the anchor-label regex in hasDescendantAnchorWithProfile:
caret-or-whitespace, one of these alternatives, whitespace-or-dollar,
applied case-insensitively to the anchor's trimmed lower-cased text.  The
optional plural letters of the regex are expanded into explicit
alternatives. -/
def ANCHOR_LABEL_WORDS : List String :=
  ["hp", "ホームページ", "研究者総覧", "総覧", "profile", "profiles",
   "people", "researcher", "researchers", "staff"]

/-! ## The document tree

The data model of the engine: an ordered tree of element, text and
comment nodes.  Attributes are an ordered association list, as in the
attribs object of the underlying parser (first entry wins on lookup,
setting an existing name updates it in place, setting a new name appends,
matching parse5/cheerio). -/

inductive Node where
  | elem (tag : String) (attrs : List (String × String)) (children : List Node) : Node
  | text (data : String) : Node
  | comment (data : String) : Node

mutual
def nodeBEq : Node → Node → Bool
  | .elem t1 a1 c1, .elem t2 a2 c2 => t1 == t2 && a1 == a2 && nodesBEq c1 c2
  | .text s1, .text s2 => s1 == s2
  | .comment s1, .comment s2 => s1 == s2
  | _, _ => false
def nodesBEq : List Node → List Node → Bool
  | [], [] => true
  | x :: xs, y :: ys => nodeBEq x y && nodesBEq xs ys
  | _, _ => false
end

mutual
def nodeBEq_iff : ∀ a b : Node, nodeBEq a b = true ↔ a = b
  | .elem t1 a1 c1, .elem t2 a2 c2 => by
    simp only [nodeBEq, Bool.and_eq_true, beq_iff_eq, nodesBEq_iff c1 c2, Node.elem.injEq]
    tauto
  | .elem _ _ _, .text _ => by simp [nodeBEq]
  | .elem _ _ _, .comment _ => by simp [nodeBEq]
  | .text _, .elem _ _ _ => by simp [nodeBEq]
  | .text s1, .text s2 => by simp [nodeBEq]
  | .text _, .comment _ => by simp [nodeBEq]
  | .comment _, .elem _ _ _ => by simp [nodeBEq]
  | .comment _, .text _ => by simp [nodeBEq]
  | .comment s1, .comment s2 => by simp [nodeBEq]
def nodesBEq_iff : ∀ a b : List Node, nodesBEq a b = true ↔ a = b
  | [], [] => by simp [nodesBEq]
  | [], _ :: _ => by simp [nodesBEq]
  | _ :: _, [] => by simp [nodesBEq]
  | x :: xs, y :: ys => by
    simp only [nodesBEq, Bool.and_eq_true, nodeBEq_iff x y, nodesBEq_iff xs ys, List.cons.injEq]
end

instance : DecidableEq Node := fun a b => decidable_of_iff _ (nodeBEq_iff a b)

/-- Attribute lookup (attribs object: first binding of the name). -/
def getAttr (attrs : List (String × String)) (name : String) : Option String :=
  match attrs.find? (fun p => p.1 = name) with
  | some p => some p.2
  | none => none

/-- Attribute lookup with the empty string as the JavaScript
or-empty default. -/
def getAttrD (attrs : List (String × String)) (name : String) : String :=
  (getAttr attrs name).getD ""

/-- Attribute update: replaces the first binding in place, appends when
absent (cheerio attr setter). -/
def setAttr (attrs : List (String × String)) (name value : String) : List (String × String) :=
  match attrs with
  | [] => [(name, value)]
  | (n, v) :: rest =>
    if n = name then (n, value) :: rest else (n, v) :: setAttr rest name value

mutual
/-- Concatenated text of a node's subtree (cheerio text(): the data of
every descendant text node in order, comments skipped; the contents of
script and style elements are included, since the library does not render). -/
def textContent : Node → String
  | .elem _ _ ch => textContentL ch
  | .text s => s
  | .comment _ => ""
def textContentL : List Node → String
  | [] => ""
  | n :: l => textContent n ++ textContentL l
end

/-! ## Keep guards (pushDir.ts lines 281-301) -/

/-- Does the lower-cased href contain one of PERSON_LINK_HINTS? -/
def anchorHintHref (href : String) : Bool :=
  PERSON_LINK_HINTS.any (fun h => strContains (strLower href) h)

/-- Does the anchor's trimmed lower-cased text match the label regex
(caret-or-whitespace, one of ANCHOR_LABEL_WORDS, whitespace-or-dollar,
case-insensitive)?  Equivalent to membership of a word among the
whitespace-delimited tokens. -/
def anchorLabelMatch (txt : String) : Bool :=
  (wsTokens (jsTrim (strLower txt)).data).any
    (fun tok => ANCHOR_LABEL_WORDS.any (fun w => tok == w.data))

mutual
/-- Scan of a forest for an anchor (at any depth) whose href carries a
person-link hint or whose text matches a profile label.  This scans the
nodes of the forest themselves as well as their descendants; the source's
find of anchors below a node is the application to the node's children. -/
def anchorProfNode : Node → Bool
  | .elem t a ch =>
    (t == "a" && (anchorHintHref (getAttrD a "href") || anchorLabelMatch (textContentL ch)))
    || anchorProfL ch
  | _ => false
def anchorProfL : List Node → Bool
  | [] => false
  | n :: l => anchorProfNode n || anchorProfL l
end

/-- hasDescendantAnchorWithProfile: some strict-descendant anchor has a
person-link href or a profile/homepage label text. -/
def hasDescendantAnchorWithProfile : Node → Bool
  | .elem _ _ ch => anchorProfL ch
  | _ => false

/-- Length and remainder of the leading run of characters satisfying the
class. -/
def spanRun (p : Char → Bool) : List Char → Nat × List Char
  | [] => (0, [])
  | c :: cs => if p c then let r := spanRun p cs; (r.1 + 1, r.2) else (0, c :: cs)

/-- Match at the head: two or more Han characters, one or more whitespace
characters, then a Han character (the kanji personal-name regex).  The
character classes are disjoint, so the greedy scan is complete. -/
def kanjiNameAt (cs : List Char) : Bool :=
  let r1 := spanRun isHan cs
  if r1.1 < 2 then false
  else
    let r2 := spanRun jsWhitespace r1.2
    if r2.1 < 1 then false
    else
      match r2.2 with
      | c :: _ => isHan c
      | [] => false

/-- Match at the head: two consecutive characters of the katakana class
(the katakana-run regex; its optional second group does not affect
whether a match exists). -/
def kataNameAt : List Char → Bool
  | c1 :: c2 :: _ => isKataClass c1 && isKataClass c2
  | _ => false

/-- Does the pattern match at some position of the list? -/
def scanAny (p : List Char → Bool) : List Char → Bool
  | [] => p []
  | c :: cs => p (c :: cs) || scanAny p cs

/-- hasNameOrRoleClues: the subtree's concatenated text contains a kanji
name shape, a katakana run, or (case-insensitively) one of the role
words. -/
def hasNameOrRoleClues (n : Node) : Bool :=
  let text := textContent n
  scanAny kanjiNameAt text.data || scanAny kataNameAt text.data ||
  (ROLE_WORDS_JA ++ ROLE_WORDS_EN).any (fun w => strContainsCI text w)

/-- The keep guard of removeOrUnwrapNoise (line 389, 392, 398):
profile-link guard or name/role guard. -/
def noiseKeepGuard (n : Node) : Bool :=
  hasDescendantAnchorWithProfile n || hasNameOrRoleClues n

/-! ## Noise matching (NOISE_SELECTOR_LIST and the class/id substring
passes) -/

/-- Whitespace-separated tokens of the class attribute. -/
def classTokens (attrs : List (String × String)) : List (List Char) :=
  wsTokens (getAttrD attrs "class").data

/-- Does the element match NOISE_SELECTOR_LIST?  Tag selectors, class
selectors (token membership, case-sensitive), and the attribute-substring
selectors on class and id (case-sensitive). -/
def matchesNoiseSelector (tag : String) (attrs : List (String × String)) : Bool :=
  NOISE_SELECTOR_TAGS.contains tag
  || (classTokens attrs).any (fun tok => NOISE_SELECTOR_CLASSES.any (fun c => tok == c.data))
  || NOISE_SELECTOR_ATTR_SUBSTRINGS.any (fun sub =>
       strContains (getAttrD attrs "class") sub || strContains (getAttrD attrs "id") sub)

/-- Does the element match the class-substring pass (lines 390-393): the
class attribute is present, lower-cases to a non-empty string, and
contains one of NOISE_CLASS_SUBSTR? -/
def matchesClassSubstr (_tag : String) (attrs : List (String × String)) : Bool :=
  match getAttr attrs "class" with
  | none => false
  | some cv =>
    let cls := strLower cv
    cls ≠ "" && NOISE_CLASS_SUBSTR.any (fun key => strContains cls key)

/-- Does the element match the id-substring pass (lines 395-399)? -/
def matchesIdSubstr (_tag : String) (attrs : List (String × String)) : Bool :=
  match getAttr attrs "id" with
  | none => false
  | some iv =>
    let idv := strLower iv
    idv ≠ "" && NOISE_CLASS_SUBSTR.any (fun key => strContains idv key)

mutual
/-- One pass of removeOrUnwrapNoise (lines 387-400) for a given match
predicate: a matched element is unwrapped (dropped, its children kept in
place and processed by the same pass -- the pre-order snapshot of find
lists descendants after ancestors, and earlier decisions do not change a
later candidate's subtree, so the snapshot semantics coincide with this
top-down recursion) when the keep guard holds on its current subtree, and
removed with its whole subtree otherwise. -/
def noisePass (m : String → List (String × String) → Bool) : Node → List Node
  | .elem t a ch =>
    if m t a then
      if noiseKeepGuard (.elem t a ch) then noisePassL m ch else []
    else [.elem t a (noisePassL m ch)]
  | n => [n]
def noisePassL (m : String → List (String × String) → Bool) : List Node → List Node
  | [] => []
  | n :: l => noisePass m n ++ noisePassL m l
end

/-- removeOrUnwrapNoise on the scope's children: the exact-selector pass,
then the class-substring pass, then the id-substring pass, each a fresh
query over the tree left by the previous pass (lines 387-400). -/
def removeOrUnwrapNoiseL (l : List Node) : List Node :=
  noisePassL matchesIdSubstr (noisePassL matchesClassSubstr (noisePassL matchesNoiseSelector l))

/-! ## Forced-tag stripper (line 386) -/

mutual
def removeForcedNode : Node → List Node
  | .elem t a ch =>
    if FORCE_REMOVE_TAGS.contains t then [] else [.elem t a (removeForcedL ch)]
  | n => [n]
def removeForcedL : List Node → List Node
  | [] => []
  | n :: l => removeForcedNode n ++ removeForcedL l
end

/-! ## URL resolution (lines 304-316)

The WHATWG URL resolver itself (the platform's new URL) is external to
the repository and is modelled here. -/

def isAlphaChar (c : Char) : Bool := ('a' ≤ c && c ≤ 'z') || ('A' ≤ c && c ≤ 'Z')

def isSchemeChar (c : Char) : Bool :=
  isAlphaChar c || ('0' ≤ c && c ≤ '9') || c = '+' || c = '-' || c = '.'

/-- Split a leading URL scheme: scheme characters up to a colon.  Returns
the scheme (without the colon) and the remainder.  The caller checks that
the first character is a letter. -/
def splitSchemeAux : List Char → Option (List Char × List Char)
  | [] => none
  | c :: cs =>
    if c = ':' then some ([], cs)
    else if isSchemeChar c then
      match splitSchemeAux cs with
      | some r => some (c :: r.1, r.2)
      | none => none
    else none

def splitScheme (cs : List Char) : Option (List Char × List Char) :=
  match cs with
  | c :: _ => if isAlphaChar c then splitSchemeAux cs else none
  | [] => none

/-- Split an authority: characters up to the first slash, and the
remainder starting with that slash. -/
def splitHost : List Char → List Char × List Char
  | [] => ([], [])
  | c :: cs =>
    if c = '/' then ([], c :: cs)
    else let r := splitHost cs; (c :: r.1, r.2)

/-- Modelled from the spec (§4.5): a parsed absolute URL of the
scheme://host/path shape used as the resolution base.  Query and fragment
text is carried inside the path component; percent-encoding and ports are
not modelled. -/
structure UrlAbs where
  scheme : String
  host : String
  path : String
  deriving DecidableEq

def parseUrlAbs (s : String) : Option UrlAbs :=
  match splitScheme s.data with
  | none => none
  | some r =>
    match r.2 with
    | '/' :: '/' :: r2 =>
      let hp := splitHost r2
      if hp.1.isEmpty then none
      else some { scheme := ⟨lowerList r.1⟩, host := ⟨lowerList hp.1⟩,
                  path := if hp.2.isEmpty then "/" else ⟨hp.2⟩ }
    | _ => none

/-- Split a path body (after the leading slash) into slash-separated
segments; a trailing slash yields a trailing empty segment. -/
def splitSegsAux : List Char → List Char → List (List Char)
  | [], acc => [acc.reverse]
  | c :: cs, acc =>
    if c = '/' then acc.reverse :: splitSegsAux cs []
    else splitSegsAux cs (c :: acc)

/-- Dot-segment removal over the segment list, with an accumulator held
in reverse.  A double dot pops (never above the root, as in the WHATWG
algorithm); trailing single or double dots leave a trailing empty
segment (a directory path). -/
def normSegsAux : List (List Char) → List (List Char) → List (List Char)
  | acc, [] => acc.reverse
  | acc, seg :: rest =>
    if seg == ['.'] then
      match rest with
      | [] => (([] : List Char) :: acc).reverse
      | _ => normSegsAux acc rest
    else if seg == ['.', '.'] then
      match rest with
      | [] => (([] : List Char) :: acc.tail).reverse
      | _ => normSegsAux acc.tail rest
    else normSegsAux (seg :: acc) rest

def joinSegs (segs : List (List Char)) : String :=
  ⟨'/' :: List.intercalate ['/'] segs⟩

/-- Normalize a path: split into segments (tolerating a missing leading
slash), remove dot segments, rejoin with a leading slash. -/
def normalizePath (p : List Char) : String :=
  let body := match p with
    | '/' :: r => r
    | r => r
  joinSegs (normSegsAux [] (splitSegsAux body []))

/-- RFC merge of a relative reference with the base path: everything up
to and including the last slash of the base path, then the reference. -/
def mergePathRel (basePath rel : List Char) : List Char :=
  ((basePath.reverse.dropWhile (fun c => c ≠ '/')).reverse) ++ rel

def serializeUrl (scheme host path : String) : String :=
  scheme ++ "://" ++ host ++ path

/-- Strip of leading/trailing C0 controls and spaces, and removal of
embedded tabs and newlines, as the WHATWG parser does to its input. -/
def urlStrip (s : String) : List Char :=
  let p := fun c : Char => c.toNat ≤ 0x20
  (((s.data.dropWhile p).reverse.dropWhile p).reverse).filter
    (fun c => c ≠ '\t' && c ≠ '\n' && c ≠ '\u000D')

/-- Modelled from the spec (§4.5, §7): the WHATWG URL resolver, the
platform's new URL(url, base).toString(), which is external to the
repository.  The base is parsed first and an unparseable base fails the
whole call, as in the platform.  Covered reference forms: absolute
(scheme://...), opaque with scheme (kept verbatim), network-path (//...),
absolute-path (/...), fragment (#...), empty, and relative-path
references; dot segments are removed and scheme and host are
lower-cased.  Percent-encoding, ports and separate query handling are
not modelled, and no theorem depends on them. -/
def urlResolve (url base : String) : Option String :=
  match parseUrlAbs base with
  | none => none
  | some b =>
    let u := urlStrip url
    match splitScheme u with
    | some r =>
      match r.2 with
      | '/' :: '/' :: r2 =>
        let hp := splitHost r2
        if hp.1.isEmpty then none
        else some (serializeUrl ⟨lowerList r.1⟩ ⟨lowerList hp.1⟩ (normalizePath hp.2))
      | _ => some ⟨u⟩
    | none =>
      match u with
      | '/' :: '/' :: r2 =>
        let hp := splitHost r2
        if hp.1.isEmpty then none
        else some (serializeUrl b.scheme ⟨lowerList hp.1⟩ (normalizePath hp.2))
      | '/' :: _ => some (serializeUrl b.scheme b.host (normalizePath u))
      | '#' :: _ => some (serializeUrl b.scheme b.host (b.path ++ ⟨u⟩))
      | [] => some (serializeUrl b.scheme b.host (normalizePath b.path.data))
      | _ => some (serializeUrl b.scheme b.host (normalizePath (mergePathRel b.path.data u)))

/-- isFragmentOnly (line 304): starts with a hash. -/
def isFragmentOnly (u : String) : Bool := strStarts u "#"

/-- isSpecialScheme (line 305): mailto:, tel: or javascript:,
case-insensitive. -/
def isSpecialScheme (u : String) : Bool :=
  strStarts (strLower u) "mailto:" || strStarts (strLower u) "tel:" ||
  strStarts (strLower u) "javascript:"

/-- absolutizeUrl (lines 306-310): empty, fragment-only and
special-scheme values are returned untouched; otherwise the value is
resolved against the base, and a resolution failure returns the original
value (the catch branch). -/
def absolutizeUrl (url base : String) : String :=
  if url = "" then url
  else if isFragmentOnly url || isSpecialScheme url then url
  else
    match urlResolve url base with
    | some s => s
    | none => url

/-- takeFirstFromSrcset (lines 311-316): the first comma-separated entry,
trimmed, and of that the first whitespace-separated token; none when the
input is missing or the first entry trims to nothing. -/
def takeFirstFromSrcset (srcset : Option String) : Option String :=
  match srcset with
  | none => none
  | some s =>
    let first := jsTrim ⟨s.data.takeWhile (fun c => c ≠ ',')⟩
    if first = "" then none
    else some ⟨first.data.takeWhile (fun c => !jsWhitespace c)⟩

/-! ## URL resolver stage (lines 401-411) -/

/-- JavaScript or-chain on strings: the first operand unless it is the
empty string. -/
def jsOrStr (x y : String) : String := if x = "" then y else x

/-- The lazy-load candidate of absolutizeLinksAndImages (line 406): the
JavaScript or-chain over data-src, data-original, data-lazy, the first
entry of data-srcset and the first entry of srcset, with the empty
string as the final fallback. -/
def lazyCandidate (a : List (String × String)) : String :=
  jsOrStr (getAttrD a "data-src")
    (jsOrStr (getAttrD a "data-original")
      (jsOrStr (getAttrD a "data-lazy")
        (jsOrStr ((takeFirstFromSrcset (getAttr a "data-srcset")).getD "")
          ((takeFirstFromSrcset (getAttr a "srcset")).getD ""))))

/-- The img branch of absolutizeLinksAndImages (lines 403-410): when src
is missing or blank, promote the first truthy candidate of data-src,
data-original, data-lazy, first entry of data-srcset, first entry of
srcset; then absolutize a non-empty src. -/
def imgAttrs (base : String) (a : List (String × String)) : List (String × String) :=
  let src0 := getAttrD a "src"
  let promoted :=
    if src0 = "" || jsTrim src0 = "" then
      let cand := lazyCandidate a
      if cand ≠ "" then (setAttr a "src" cand, cand) else (a, src0)
    else (a, src0)
  if promoted.2 ≠ "" then setAttr promoted.1 "src" (absolutizeUrl promoted.2 base)
  else promoted.1

mutual
/-- absolutizeLinksAndImages (lines 401-411): every anchor with a
non-empty href gets it absolutized in place; every img gets the
lazy-candidate promotion and absolutization of its src.  Structure and
other attributes are untouched. -/
def absolutizeNode (base : String) : Node → Node
  | .elem t a ch =>
    let a1 :=
      if t = "a" then
        match getAttr a "href" with
        | some href => if href = "" then a else setAttr a "href" (absolutizeUrl href base)
        | none => a
      else a
    let a2 := if t = "img" then imgAttrs base a1 else a1
    .elem t a2 (absolutizeLinksAndImagesL base ch)
  | n => n
def absolutizeLinksAndImagesL (base : String) : List Node → List Node
  | [] => []
  | n :: l => absolutizeNode base n :: absolutizeLinksAndImagesL base l
end

/-! ## Form-control simplifier (lines 413-434) -/

def isSelLike (t : String) : Bool := t = "select" || t = "datalist"

mutual
/-- Number of option elements in a forest, at any depth (the find of
option descendants). -/
def countOptionsNode : Node → Nat
  | .elem t _ ch => (if t = "option" then 1 else 0) + countOptionsL ch
  | _ => 0
def countOptionsL : List Node → Nat
  | [] => 0
  | n :: l => countOptionsNode n + countOptionsL l
end

mutual
/-- Sum over all option descendants of the trimmed length of their
subtree text (line 419); nested options are counted by the find as well. -/
def optionsTextLenNode : Node → Nat
  | .elem t _ ch => (if t = "option" then (jsTrim (textContentL ch)).length else 0) + optionsTextLenL ch
  | _ => 0
def optionsTextLenL : List Node → Nat
  | [] => 0
  | n :: l => optionsTextLenNode n + optionsTextLenL l
end

mutual
/-- Replacement of every option (at any depth) by its trimmed subtree
text, dropped when empty (lines 422-425; the source's replaceWith of a
plain string yields a text node for the markup-free option texts
handled here). -/
def replaceOptionsNode : Node → List Node
  | .elem t a ch =>
    if t = "option" then
      let txt := jsTrim (textContentL ch)
      if txt = "" then [] else [.text txt]
    else [.elem t a (replaceOptionsL ch)]
  | n => [n]
def replaceOptionsL : List Node → List Node
  | [] => []
  | n :: l => replaceOptionsNode n ++ replaceOptionsL l
end

mutual
/-- Unwrap of every select/datalist in a forest (used for controls nested
inside an unwrapped control, whose options have already been replaced;
the snapshot of find still visits them and unwraps them). -/
def unwrapSelLikeNode : Node → List Node
  | .elem t a ch =>
    if isSelLike t then unwrapSelLikeL ch else [.elem t a (unwrapSelLikeL ch)]
  | n => [n]
def unwrapSelLikeL : List Node → List Node
  | [] => []
  | n :: l => unwrapSelLikeNode n ++ unwrapSelLikeL l
end

mutual
/-- The select/datalist pass of simplifyFormControls (lines 415-427): a
control with at least 20 option descendants or at least 200 characters of
concatenated trimmed option text is removed whole; otherwise its options
are replaced by their bare text, and the control (and any select-like
descendants, left optionless by the replacement) is unwrapped. -/
def selectPassNode : Node → List Node
  | .elem t a ch =>
    if isSelLike t then
      if 20 ≤ countOptionsL ch || 200 ≤ optionsTextLenL ch then []
      else unwrapSelLikeL (replaceOptionsL ch)
    else [.elem t a (selectPassL ch)]
  | n => [n]
def selectPassL : List Node → List Node
  | [] => []
  | n :: l => selectPassNode n ++ selectPassL l
end

def isCtlTag (t : String) : Bool :=
  t = "input" || t = "textarea" || t = "button" || t = "label"

mutual
/-- The input/textarea/button/label pass of simplifyFormControls (lines
429-433): removed when the or-chain of subtree text and value attribute
trims to the empty string. -/
def controlsPassNode : Node → List Node
  | .elem t a ch =>
    if isCtlTag t then
      let txt := jsTrim (jsOrStr (textContentL ch) (getAttrD a "value"))
      if txt = "" then [] else [.elem t a (controlsPassL ch)]
    else [.elem t a (controlsPassL ch)]
  | n => [n]
def controlsPassL : List Node → List Node
  | [] => []
  | n :: l => controlsPassNode n ++ controlsPassL l
end

def simplifyFormControlsL (l : List Node) : List Node :=
  controlsPassL (selectPassL l)

/-! ## Attribute sanitizer (lines 326-334, 412) -/

/-- Keep an attribute unless its lower-cased name is style or starts with
on (cleanAttributes, lines 326-334). -/
def keepAttr (p : String × String) : Bool :=
  let lower := strLower p.1
  !(lower == "style" || strStarts lower "on")

mutual
/-- cleanAttributes applied to a forest: strips style and on-prefixed
attributes from every element of the forest and below.  The source
applies it to the find of all elements below the scope root, i.e. to the
root's strict descendants only: the list version is applied to the
scope's children. -/
def cleanAttributesNode : Node → Node
  | .elem t a ch => .elem t (a.filter keepAttr) (cleanAttributesL ch)
  | n => n
def cleanAttributesL : List Node → List Node
  | [] => []
  | n :: l => cleanAttributesNode n :: cleanAttributesL l
end

/-! ## Empty-block pruner (lines 439-448) -/

def REMOVABLE_TAGS : List String := ["div", "section", "article", "p", "span", "li"]

def USEFUL_TAGS : List String :=
  ["a", "img", "table", "thead", "tbody", "tr", "td", "th", "dl", "dt",
   "dd", "ul", "ol", "h1", "h2", "h3", "h4", "h5", "h6"]

mutual
/-- Is there an element with a useful tag in the forest (the hasUsefulDesc
find, line 441)? -/
def hasUsefulNode : Node → Bool
  | .elem t _ ch => USEFUL_TAGS.contains t || hasUsefulL ch
  | _ => false
def hasUsefulL : List Node → Bool
  | [] => false
  | n :: l => hasUsefulNode n || hasUsefulL l
end

/-- Replacement of the NBSP character and the literal entity by a space
(the replace on line 445 and, over text-node data, line 345). -/
def nbspEntityToSpace : List Char → List Char
  | [] => []
  | '\u00A0' :: rest => ' ' :: nbspEntityToSpace rest
  | '&' :: 'n' :: 'b' :: 's' :: 'p' :: ';' :: rest => ' ' :: nbspEntityToSpace rest
  | c :: rest => c :: nbspEntityToSpace rest

def isTabSp (c : Char) : Bool := c = '\t' || c = ' '

/-- Replacement of every maximal run (of length one or more) of matching
characters by the replacement character (a regex of the form class-plus
to one character). -/
def collapseRunsPlus (p : Char → Bool) (repl : Char) : Bool → List Char → List Char
  | _, [] => []
  | true, c :: rest =>
    if p c then collapseRunsPlus p repl true rest
    else c :: collapseRunsPlus p repl false rest
  | false, c :: rest =>
    if p c then repl :: collapseRunsPlus p repl true rest
    else c :: collapseRunsPlus p repl false rest

/-- Replacement of every maximal run of length at least two of matching
characters by the replacement character; runs of length one are kept as
they are (a regex of the form class-two-or-more to one character). -/
def collapseRuns2 (p : Char → Bool) (repl : Char) : Bool → List Char → List Char
  | _, [] => []
  | true, c :: rest =>
    if p c then collapseRuns2 p repl true rest
    else c :: collapseRuns2 p repl false rest
  | false, c :: rest =>
    if p c then
      match rest with
      | [] => [c]
      | c2 :: _ =>
        if p c2 then repl :: collapseRuns2 p repl true rest
        else c :: collapseRuns2 p repl false rest
    else c :: collapseRuns2 p repl false rest

/-- The emptiness test of removeEmptyBlocks (line 445): NBSP and its
entity to spaces, runs of tabs/spaces to one space, trim, empty. -/
def collapsedTextEmpty (s : String) : Bool :=
  jsTrim ⟨collapseRunsPlus isTabSp ' ' false (nbspEntityToSpace s.data)⟩ = ""

mutual
/-- removeEmptyBlocks (lines 439-448) over a forest: a removable-tag
element with no useful descendant and collapsed-empty subtree text is
removed; the snapshot semantics again coincide with top-down recursion,
since removed subtrees contribute neither useful descendants nor
non-empty text to an ancestor's test. -/
def removeEmptyBlocksNode : Node → List Node
  | .elem t a ch =>
    if REMOVABLE_TAGS.contains t && !hasUsefulL ch && collapsedTextEmpty (textContentL ch) then []
    else [.elem t a (removeEmptyBlocksL ch)]
  | n => [n]
def removeEmptyBlocksL : List Node → List Node
  | [] => []
  | n :: l => removeEmptyBlocksNode n ++ removeEmptyBlocksL l
end

/-! ## Text normalizer tree stages (lines 335-358, 436) -/

def isBrElem : Node → Bool
  | .elem t _ _ => t = "br"
  | _ => false

mutual
/-- compressBrRuns (lines 335-339) over a sibling list: a br element
whose immediately preceding sibling (after earlier removals) is a br is
removed; the flag records whether the previous kept sibling is a br.
Any other node, a text node included, breaks the run. -/
def compressBrNode : Node → Node
  | .elem t a ch => .elem t a (compressBrL false ch)
  | n => n
def compressBrL : Bool → List Node → List Node
  | _, [] => []
  | prevBr, n :: l =>
    if isBrElem n then
      if prevBr then compressBrL true l
      else compressBrNode n :: compressBrL true l
    else compressBrNode n :: compressBrL false l
end

/-- One label replacement with a following colon (line 350): label, a
fullwidth or ASCII colon, negative lookahead for a newline; a newline is
inserted after the colon.  The fuel is an upper bound on the remaining
length; a failed position advances by one character, a match continues
after the colon, as the global regex does. -/
def labelColonAux (label : List Char) : Nat → List Char → List Char
  | _, [] => []
  | 0, cs => cs
  | f + 1, c :: rest =>
    if headMatches label (c :: rest) then
      match (c :: rest).drop label.length with
      | colon :: rest2 =>
        if colon = '：' || colon = ':' then
          match rest2 with
          | '\n' :: _ => c :: labelColonAux label f rest
          | _ => label ++ colon :: '\n' :: labelColonAux label f rest2
        else c :: labelColonAux label f rest
      | [] => c :: labelColonAux label f rest
    else c :: labelColonAux label f rest

/-- One label replacement without a colon (line 351): label, negative
lookahead for newline or either colon; a newline is inserted after the
label. -/
def labelPlainAux (label : List Char) : Nat → List Char → List Char
  | _, [] => []
  | 0, cs => cs
  | f + 1, c :: rest =>
    if headMatches label (c :: rest) then
      match (c :: rest).drop label.length with
      | x :: rest2 =>
        if x = '\n' || x = '：' || x = ':' then c :: labelPlainAux label f rest
        else label ++ '\n' :: labelPlainAux label f (x :: rest2)
      | [] => label ++ ['\n']
    else c :: labelPlainAux label f rest

/-- normalizeTextWhitespace on one text node's data (lines 343-353):
NBSP and its entity to spaces, tab/space runs of length at least two to
one space, newline runs of length at least two to one newline, then for
each label word the colon rule followed by the plain rule. -/
def normalizeData (s : String) : String :=
  let d1 := nbspEntityToSpace s.data
  let d2 := collapseRuns2 isTabSp ' ' false d1
  let d3 := collapseRuns2 (fun c => c = '\n') '\n' false d2
  ⟨LABEL_WORDS.foldl
    (fun acc label =>
      labelPlainAux label.data acc.length (labelColonAux label.data acc.length acc))
    d3⟩

mutual
/-- normalizeTextWhitespace (lines 340-358) over the tree: every text
node's data is rewritten; elements and comments keep their structure. -/
def normalizeTextNode : Node → Node
  | .elem t a ch => .elem t a (normalizeTextL ch)
  | .text s => .text (normalizeData s)
  | .comment s => .comment s
def normalizeTextL : List Node → List Node
  | [] => []
  | n :: l => normalizeTextNode n :: normalizeTextL l
end

mutual
/-- removeCommentsDeep (lines 318-325) over a forest. -/
def removeCommentsNode : Node → List Node
  | .elem t a ch => [.elem t a (removeCommentsL ch)]
  | .comment _ => []
  | n => [n]
def removeCommentsL : List Node → List Node
  | [] => []
  | n :: l => removeCommentsNode n ++ removeCommentsL l
end

/-! ## Serializer (modelled external) -/

/-- The HTML void elements, serialized without children or closing tag
and never given children by the tree builder. -/
def VOID_TAGS : List String :=
  ["area", "base", "basefont", "bgsound", "br", "col", "embed", "frame",
   "hr", "img", "input", "keygen", "link", "meta", "param", "source",
   "track", "wbr"]

/-- Modelled from the spec (§4.9): text escaping of the external
serializer (parse5): ampersand, NBSP, and the angle brackets. -/
def escapeTextData : List Char → List Char
  | [] => []
  | '&' :: r => '&' :: 'a' :: 'm' :: 'p' :: ';' :: escapeTextData r
  | '\u00A0' :: r => '&' :: 'n' :: 'b' :: 's' :: 'p' :: ';' :: escapeTextData r
  | '<' :: r => '&' :: 'l' :: 't' :: ';' :: escapeTextData r
  | '>' :: r => '&' :: 'g' :: 't' :: ';' :: escapeTextData r
  | c :: r => c :: escapeTextData r

/-- Modelled from the spec (§4.9): attribute-value escaping of the
external serializer: ampersand, NBSP, and the double quote. -/
def escapeAttrData : List Char → List Char
  | [] => []
  | '&' :: r => '&' :: 'a' :: 'm' :: 'p' :: ';' :: escapeAttrData r
  | '\u00A0' :: r => '&' :: 'n' :: 'b' :: 's' :: 'p' :: ';' :: escapeAttrData r
  | '"' :: r => '&' :: 'q' :: 'u' :: 'o' :: 't' :: ';' :: escapeAttrData r
  | c :: r => c :: escapeAttrData r

def serializeAttrs : List (String × String) → String
  | [] => ""
  | p :: rest => " " ++ p.1 ++ "=\"" ++ ⟨escapeAttrData p.2.data⟩ ++ "\"" ++ serializeAttrs rest

mutual
/-- Modelled from the spec (§4.9): the external serializer (the html
rendering of cheerio/parse5): start tag with double-quoted attributes,
children and end tag for non-void elements, start tag only for void
elements, escaped text, comments verbatim. -/
def serializeNode : Node → String
  | .elem t a ch =>
    if VOID_TAGS.contains t then "<" ++ t ++ serializeAttrs a ++ ">"
    else "<" ++ t ++ serializeAttrs a ++ ">" ++ serializeL ch ++ "</" ++ t ++ ">"
  | .text s => ⟨escapeTextData s.data⟩
  | .comment s => "<!--" ++ s ++ "-->"
def serializeL : List Node → String
  | [] => ""
  | n :: l => serializeNode n ++ serializeL l
end

/-! ## ensureNewlinesBetweenBlocks (lines 359-363)

The regex of the source is built in a template literal in which the
backslash-s escapes cook to the plain letter s, so the pattern is: a
closing block tag, a run of the letter s (case-insensitively), with a
lookahead for an opening block tag name followed by the letter s or a
closing angle bracket; the replacement appends a newline to the match
exactly when the match ends with the closing bracket, i.e. when the
s-run is empty. -/

/-- Case-insensitive head match of a lower-case pattern. -/
def ciHeadMatches : List Char → List Char → Bool
  | [], _ => true
  | _ :: _, [] => false
  | p :: ps, c :: cs => p = lowerChar c && ciHeadMatches ps cs

/-- Length of a closing block tag at the head of the list, trying the
alternatives of BLOCK_TAGS in order, each required to be followed by the
closing bracket. -/
def tryCloseBlock : List Char → Option Nat
  | '<' :: '/' :: r =>
    BLOCK_TAGS.findSome? (fun tag =>
      let td := tag.data
      if ciHeadMatches td r && (r.drop td.length).head? = some '>' then
        some (td.length + 3)
      else none)
  | _ => none

def isSLetter (c : Char) : Bool := c = 's' || c = 'S'

/-- Does an opening block tag name followed by the letter s or a closing
bracket start here (the lookahead)? -/
def openBlockAhead : List Char → Bool
  | '<' :: r =>
    BLOCK_TAGS.any (fun tag =>
      let td := tag.data
      ciHeadMatches td r &&
        match (r.drop td.length).head? with
        | some c => isSLetter c || c = '>'
        | none => false)
  | _ => false

def ensureAux : Nat → List Char → List Char
  | _, [] => []
  | 0, cs => cs
  | f + 1, c :: rest =>
    match tryCloseBlock (c :: rest) with
    | some n =>
      let afterClose := (c :: rest).drop n
      let srun := afterClose.takeWhile isSLetter
      let afterS := afterClose.dropWhile isSLetter
      if openBlockAhead afterS then
        ((c :: rest).take n ++ srun ++ (if srun.isEmpty then ['\n'] else []))
          ++ ensureAux f afterS
      else c :: ensureAux f rest
    | none => c :: ensureAux f rest

def ensureNewlinesBetweenBlocks (s : String) : String :=
  ⟨ensureAux s.data.length s.data⟩

/-! ## Size bounder (lines 364-380) -/

mutual
/-- One backward pass of the trimming loop of clipToLimit: text nodes are
visited from the last to the first while the needed amount is positive;
a non-empty text node is cut by the minimum of its length and the larger
of 16 and half the need (rounded up), the cut tail is dropped and the
remainder right-trimmed, and the need decreases by the cut. -/
def clipNode : Node → Nat → Node × Nat
  | .elem t a ch, need =>
    let r := clipList ch need
    (.elem t a r.1, r.2)
  | .text s, need =>
    if need = 0 then (.text s, 0)
    else if s = "" then (.text s, need)
    else
      let cut := min s.length (max 16 ((need + 1) / 2))
      (.text (jsTrimEnd ⟨s.data.take (s.length - cut)⟩), need - cut)
  | n, need => (n, need)
def clipList : List Node → Nat → List Node × Nat
  | [], need => ([], need)
  | n :: l, need =>
    let r := clipList l need
    let r2 := clipNode n r.2
    (r2.1 :: r.1, r2.2)
end

mutual
/-- Number of text nodes below a node (the collect of clipToLimit, which
fixes the iteration cap). -/
def countTextsNode : Node → Nat
  | .elem _ _ ch => countTextsL ch
  | .text _ => 1
  | .comment _ => 0
def countTextsL : List Node → Nat
  | [] => 0
  | n :: l => countTextsNode n + countTextsL l
end

/-- The while loop of clipToLimit: while the serialization exceeds the
limit and iterations remain, run one backward trimming pass with the
current overage and re-serialize. -/
def clipLoop : Nat → Node → Nat → Node
  | 0, t, _ => t
  | f + 1, t, limit =>
    let out := serializeNode t
    if out.length ≤ limit then t
    else clipLoop f (clipNode t (out.length - limit)).1 limit

/-- clipToLimit (lines 364-380): the loop runs at most the number of text
nodes plus five iterations. -/
def clipToLimit (t : Node) (limit : Nat) : Node :=
  clipLoop (countTextsNode t + 5) t limit

/-- Mirror of the loop that reports whether it stopped because the
iteration cap ran out while the serialization still exceeded the limit. -/
def clipLoopRanOut : Nat → Node → Nat → Bool
  | 0, t, limit => limit < (serializeNode t).length
  | f + 1, t, limit =>
    let out := serializeNode t
    if out.length ≤ limit then false
    else clipLoopRanOut f (clipNode t (out.length - limit)).1 limit

def clipBudgetMissed (t : Node) (limit : Nat) : Bool :=
  clipLoopRanOut (countTextsNode t + 5) t limit

mutual
/-- The tag-and-attribute skeleton of a tree, text-node data erased:
the part of the markup that trimming text nodes must not change. -/
def shapeNode : Node → Node
  | .elem t a ch => .elem t a (shapeL ch)
  | .text _ => .text ""
  | .comment s => .comment s
def shapeL : List Node → List Node
  | [] => []
  | n :: l => shapeNode n :: shapeL l
end

/-! ## Scope selector (lines 381-385) -/

mutual
/-- First element with the given tag, in document (pre-)order. -/
def findTagNode (tag : String) : Node → Option Node
  | .elem t a ch => if t = tag then some (.elem t a ch) else findTagL tag ch
  | _ => none
def findTagL (tag : String) : List Node → Option Node
  | [] => none
  | n :: l =>
    match findTagNode tag n with
    | some x => some x
    | none => findTagL tag l
end

def isElemNode : Node → Bool
  | .elem _ _ _ => true
  | _ => false

/-- selectScope (lines 381-385): the first main element, else the first
body element, else a synthesized main wrapper adopting the top-level
element children (the children call of cheerio yields elements only). -/
def selectScope (doc : List Node) : Node :=
  match findTagL "main" doc with
  | some n => n
  | none =>
    match findTagL "body" doc with
    | some n => n
    | none => .elem "main" [] (doc.filter isElemNode)

/-! ## Scope-level stage wrappers

Every source stage queries with find below the scope root, so each
wrapper keeps the root element and its attributes and rewrites the
children forest. -/

def removeOrUnwrapNoise : Node → Node
  | .elem t a ch => .elem t a (removeOrUnwrapNoiseL ch)
  | n => n

def removeForcedTags : Node → Node
  | .elem t a ch => .elem t a (removeForcedL ch)
  | n => n

def absolutizeLinksAndImages (scope : Node) (base : String) : Node :=
  match scope with
  | .elem t a ch => .elem t a (absolutizeLinksAndImagesL base ch)
  | n => n

def simplifyFormControls : Node → Node
  | .elem t a ch => .elem t a (simplifyFormControlsL ch)
  | n => n

/-- pruneEventAndStyle (line 412) is cleanAttributes on the scope, whose
find of all elements covers exactly the strict descendants: the root's
own attributes are untouched. -/
def pruneEventAndStyle : Node → Node
  | .elem t a ch => .elem t a (cleanAttributesL ch)
  | n => n

def removeEmptyBlocks : Node → Node
  | .elem t a ch => .elem t a (removeEmptyBlocksL ch)
  | n => n

def compressBrRuns : Node → Node
  | .elem t a ch => .elem t a (compressBrL false ch)
  | n => n

def normalizeTextWhitespace : Node → Node
  | .elem t a ch => .elem t a (normalizeTextL ch)
  | n => n

def removeCommentsDeep : Node → Node
  | .elem t a ch => .elem t a (removeCommentsL ch)
  | n => n

/-- The in-tree stages of the markup pipeline in source order
(line 453). -/
def pipelineStagesHtml (scope : Node) (sourceUrl : String) : Node :=
  removeEmptyBlocks (pruneEventAndStyle (simplifyFormControls
    (absolutizeLinksAndImages (removeForcedTags (removeOrUnwrapNoise scope)) sourceUrl)))

/-- The tree part of finalizeFormatting (line 436): br-run compression,
text normalization, comment removal. -/
def finalizeTree (scope : Node) : Node :=
  removeCommentsDeep (normalizeTextWhitespace (compressBrRuns scope))

/-- finalizeFormatting (lines 435-437): the tree stages, serialization,
and the newline insertion between adjacent block tags. -/
def finalizeFormatting (scope : Node) : String :=
  ensureNewlinesBetweenBlocks (serializeNode (finalizeTree scope))

/-! ## HTML parser (modelled external)

Modelled from the spec (§4.1, §7): the load of cheerio (parse5), the
external HTML parser the engine delegates parsing to.  The model covers
the constructs the engine's own outputs and the documents used here
consist of: tags with double- or single-quoted, unquoted or valueless
attributes, text with character references, comments, void elements,
mismatched or stray close tags (popped to the matching open tag, or
ignored), and unclosed elements at the end of input.  Implied html/head/
body insertion, raw-text elements and foster parenting are not modelled;
every document handled in the theorems below carries an explicit main
element, on which scope selection agrees with the full parser. -/

def isDigitChar (c : Char) : Bool := '0' ≤ c && c ≤ '9'

def isTagNameChar (c : Char) : Bool := isAlphaChar c || isDigitChar c

def natOfDecDigits (ds : List Char) : Nat :=
  ds.foldl (fun acc c => acc * 10 + (c.toNat - '0'.toNat)) 0

def hexDigitVal (c : Char) : Nat :=
  if isDigitChar c then c.toNat - '0'.toNat
  else if 'a' ≤ c && c ≤ 'f' then c.toNat - 'a'.toNat + 10
  else if 'A' ≤ c && c ≤ 'F' then c.toNat - 'A'.toNat + 10
  else 0

def isHexDigitChar (c : Char) : Bool :=
  isDigitChar c || ('a' ≤ c && c ≤ 'f') || ('A' ≤ c && c ≤ 'F')

def natOfHexDigits (ds : List Char) : Nat :=
  ds.foldl (fun acc c => acc * 16 + hexDigitVal c) 0

/-- One character reference at the head: the named references used here
and numeric references; returns the decoded character and the consumed
length. -/
def tryEntity (cs : List Char) : Option (Char × Nat) :=
  if headMatches "&amp;".data cs then some ('&', 5)
  else if headMatches "&lt;".data cs then some ('<', 4)
  else if headMatches "&gt;".data cs then some ('>', 4)
  else if headMatches "&quot;".data cs then some ('"', 6)
  else if headMatches "&apos;".data cs then some ('\'', 6)
  else if headMatches "&nbsp;".data cs then some ('\u00A0', 6)
  else
    match cs with
    | '&' :: '#' :: 'x' :: r =>
      let ds := r.takeWhile isHexDigitChar
      if !ds.isEmpty && (r.drop ds.length).head? = some ';' then
        some (Char.ofNat (natOfHexDigits ds), ds.length + 4)
      else none
    | '&' :: '#' :: r =>
      let ds := r.takeWhile isDigitChar
      if !ds.isEmpty && (r.drop ds.length).head? = some ';' then
        some (Char.ofNat (natOfDecDigits ds), ds.length + 3)
      else none
    | _ => none

/-- Character-reference decoding of a text or attribute-value slice. -/
def entDecodeAux : Nat → List Char → List Char
  | _, [] => []
  | 0, cs => cs
  | f + 1, c :: rest =>
    if c = '&' then
      match tryEntity (c :: rest) with
      | some r => r.1 :: entDecodeAux f ((c :: rest).drop r.2)
      | none => c :: entDecodeAux f rest
    else c :: entDecodeAux f rest

def entDecode (cs : List Char) : List Char := entDecodeAux cs.length cs

inductive Tok where
  | openTag (tag : String) (attrs : List (String × String)) : Tok
  | closeTag (tag : String) : Tok
  | textTok (s : String) : Tok
  | commentTok (s : String) : Tok

def isAttrNameChar (c : Char) : Bool :=
  !(jsWhitespace c || c = '>' || c = '/' || c = '=')

/-- Keep only the first binding of every attribute name, as the parser's
attribs object does. -/
def dedupAttrsAux (seen : List String) : List (String × String) → List (String × String)
  | [] => []
  | p :: rest =>
    if seen.contains p.1 then dedupAttrsAux seen rest
    else p :: dedupAttrsAux (p.1 :: seen) rest

def dedupAttrs (l : List (String × String)) : List (String × String) :=
  dedupAttrsAux [] l

/-- Attribute lexer: attribute list of a start tag and the remainder of
the input after the closing bracket. -/
def lexAttrs : Nat → List Char → List (String × String) × List Char
  | 0, cs => ([], cs)
  | f + 1, cs =>
    let cs1 := cs.dropWhile jsWhitespace
    match cs1 with
    | [] => ([], [])
    | '>' :: r => ([], r)
    | '/' :: r => lexAttrs f r
    | _ :: _ =>
      let name := cs1.takeWhile isAttrNameChar
      if name.isEmpty then lexAttrs f cs1.tail
      else
        let afterName := cs1.drop name.length
        match afterName with
        | '=' :: r2 =>
          match r2 with
          | '"' :: r3 =>
            let v := r3.takeWhile (fun c => c ≠ '"')
            let r := lexAttrs f ((r3.drop v.length).drop 1)
            ((⟨lowerList name⟩, ⟨entDecode v⟩) :: r.1, r.2)
          | '\'' :: r3 =>
            let v := r3.takeWhile (fun c => c ≠ '\'')
            let r := lexAttrs f ((r3.drop v.length).drop 1)
            ((⟨lowerList name⟩, ⟨entDecode v⟩) :: r.1, r.2)
          | _ =>
            let v := r2.takeWhile (fun c => !(jsWhitespace c || c = '>'))
            let r := lexAttrs f (r2.drop v.length)
            ((⟨lowerList name⟩, ⟨entDecode v⟩) :: r.1, r.2)
        | _ =>
          let r := lexAttrs f afterName
          ((⟨lowerList name⟩, "") :: r.1, r.2)

/-- Comment contents: data up to the comment close, and the remainder. -/
def commentSplit : List Char → List Char × List Char
  | [] => ([], [])
  | '-' :: '-' :: '>' :: r => ([], r)
  | c :: r =>
    let p := commentSplit r
    (c :: p.1, p.2)

def tokenizeAux : Nat → List Char → List Tok
  | 0, _ => []
  | _, [] => []
  | f + 1, '<' :: rest =>
    match rest with
    | '!' :: '-' :: '-' :: r =>
      let p := commentSplit r
      Tok.commentTok ⟨p.1⟩ :: tokenizeAux f p.2
    | '!' :: r =>
      let skip := r.takeWhile (fun c => c ≠ '>')
      tokenizeAux f ((r.drop skip.length).drop 1)
    | '/' :: r =>
      match r with
      | c :: _ =>
        if isAlphaChar c then
          let name := r.takeWhile isTagNameChar
          let afterName := r.drop name.length
          let skip := afterName.takeWhile (fun x => x ≠ '>')
          Tok.closeTag ⟨lowerList name⟩ ::
            tokenizeAux f ((afterName.drop skip.length).drop 1)
        else Tok.textTok "<" :: tokenizeAux f r
      | [] => [Tok.textTok "<"]
    | c :: _ =>
      if isAlphaChar c then
        let name := rest.takeWhile isTagNameChar
        let afterName := rest.drop name.length
        let ar := lexAttrs (afterName.length + 1) afterName
        Tok.openTag ⟨lowerList name⟩ (dedupAttrs ar.1) :: tokenizeAux f ar.2
      else Tok.textTok "<" :: tokenizeAux f rest
    | [] => [Tok.textTok "<"]
  | f + 1, cs =>
    let run := cs.takeWhile (fun c => c ≠ '<')
    Tok.textTok ⟨entDecode run⟩ :: tokenizeAux f (cs.drop run.length)

/-- An open element on the tree builder's stack: tag, attributes, and the
children collected so far, in reverse. -/
structure Frame where
  tag : String
  attrs : List (String × String)
  rev : List Node

def closeFrame (fr : Frame) : Node := .elem fr.tag fr.attrs fr.rev.reverse

/-- Push a node as the next child, merging adjacent text nodes as the
parser does. -/
def pushNode (n : Node) (rev : List Node) : List Node :=
  match n, rev with
  | .text s2, .text s1 :: rest => .text (s1 ++ s2) :: rest
  | _, _ => n :: rev

/-- Fold a run of implicitly closed frames (innermost first) into the
frame carrying the matching tag, and close it. -/
def closeUpToAux (n : Node) : List Frame → Frame → Node
  | [], t => closeFrame { t with rev := pushNode n t.rev }
  | fr :: fs, t => closeUpToAux (closeFrame { fr with rev := pushNode n fr.rev }) fs t

def closeUpTo (pre : List Frame) (target : Frame) : Node :=
  match pre with
  | [] => closeFrame target
  | fr :: fs => closeUpToAux (closeFrame fr) fs target

/-- End of input: every open frame is closed into its parent; the
outermost joins the top-level nodes. -/
def eofCloseAux (n : Node) : List Frame → Node
  | [] => n
  | fr :: fs => eofCloseAux (closeFrame { fr with rev := pushNode n fr.rev }) fs

def eofClose : List Frame → List Node → List Node
  | [], topRev => topRev.reverse
  | fr :: fs, topRev => (pushNode (eofCloseAux (closeFrame fr) fs) topRev).reverse

/-- The tree builder: a start tag of a void element is a complete child;
any other start tag opens a frame; a close tag pops to the matching open
frame (stray close tags are ignored); text and comments attach to the
innermost frame or the top level. -/
def buildTokens : List Tok → List Frame → List Node → List Node
  | [], stack, topRev => eofClose stack topRev
  | tok :: rest, stack, topRev =>
    match tok with
    | .textTok s =>
      match stack with
      | fr :: fs => buildTokens rest ({ fr with rev := pushNode (.text s) fr.rev } :: fs) topRev
      | [] => buildTokens rest [] (pushNode (.text s) topRev)
    | .commentTok s =>
      match stack with
      | fr :: fs => buildTokens rest ({ fr with rev := pushNode (.comment s) fr.rev } :: fs) topRev
      | [] => buildTokens rest [] (pushNode (.comment s) topRev)
    | .openTag tag attrs =>
      if VOID_TAGS.contains tag then
        match stack with
        | fr :: fs =>
          buildTokens rest ({ fr with rev := pushNode (.elem tag attrs []) fr.rev } :: fs) topRev
        | [] => buildTokens rest [] (pushNode (.elem tag attrs []) topRev)
      else buildTokens rest ({ tag := tag, attrs := attrs, rev := [] } :: stack) topRev
    | .closeTag tag =>
      if stack.any (fun fr => fr.tag = tag) then
        let pre := stack.takeWhile (fun fr => fr.tag ≠ tag)
        match stack.dropWhile (fun fr => fr.tag ≠ tag) with
        | target :: below =>
          let n := closeUpTo pre target
          match below with
          | fr :: fs => buildTokens rest ({ fr with rev := pushNode n fr.rev } :: fs) topRev
          | [] => buildTokens rest [] (pushNode n topRev)
        | [] => buildTokens rest stack topRev
      else buildTokens rest stack topRev

def parseHtml (s : String) : List Node :=
  buildTokens (tokenizeAux (s.data.length + 1) s.data) [] []

/-! ## The markup-mode entry point (lines 450-457) -/

/-- cleanFacultyHtml (lines 450-457): parse, select the scope, run the
in-tree stages, finalize to a string; when the result exceeds 30000
units, reload it, select the scope again, trim text nodes with
clipToLimit and re-serialize with the block-newline pass. -/
def cleanFacultyHtml (html sourceUrl : String) : String :=
  let doc := parseHtml html
  let scope := selectScope doc
  let t := pipelineStagesHtml scope sourceUrl
  let out := finalizeFormatting t
  if 30000 < out.length then
    let doc2 := parseHtml out
    let scope2 := selectScope doc2
    let t2 := clipToLimit scope2 30000
    ensureNewlinesBetweenBlocks (serializeNode t2)
  else out

/-! ## Plain-text mode (lines 459-493) -/

def replaceNbspEnt : List Char → List Char
  | '&' :: 'n' :: 'b' :: 's' :: 'p' :: ';' :: r => ' ' :: replaceNbspEnt r
  | c :: r => c :: replaceNbspEnt r
  | [] => []

def replaceAmpEnt : List Char → List Char
  | '&' :: 'a' :: 'm' :: 'p' :: ';' :: r => '&' :: replaceAmpEnt r
  | c :: r => c :: replaceAmpEnt r
  | [] => []

def replaceLtEnt : List Char → List Char
  | '&' :: 'l' :: 't' :: ';' :: r => '<' :: replaceLtEnt r
  | c :: r => c :: replaceLtEnt r
  | [] => []

def replaceGtEnt : List Char → List Char
  | '&' :: 'g' :: 't' :: ';' :: r => '>' :: replaceGtEnt r
  | c :: r => c :: replaceGtEnt r
  | [] => []

def replaceQuotEnt : List Char → List Char
  | '&' :: 'q' :: 'u' :: 'o' :: 't' :: ';' :: r => '"' :: replaceQuotEnt r
  | c :: r => c :: replaceQuotEnt r
  | [] => []

def replaceAposEnt : List Char → List Char
  | '&' :: '#' :: '3' :: '9' :: ';' :: r => '\'' :: replaceAposEnt r
  | c :: r => c :: replaceAposEnt r
  | [] => []

/-- Decimal numeric references, decoded with fromCharCode (modelled on
the valid code points the engine meets). -/
def replaceDecEnt : Nat → List Char → List Char
  | _, [] => []
  | 0, cs => cs
  | f + 1, c :: rest =>
    match c :: rest with
    | '&' :: '#' :: r =>
      let ds := r.takeWhile isDigitChar
      if !ds.isEmpty && (r.drop ds.length).head? = some ';' then
        Char.ofNat (natOfDecDigits ds) :: replaceDecEnt f (r.drop (ds.length + 1))
      else c :: replaceDecEnt f rest
    | _ => c :: replaceDecEnt f rest

/-- Hexadecimal numeric references. -/
def replaceHexEnt : Nat → List Char → List Char
  | _, [] => []
  | 0, cs => cs
  | f + 1, c :: rest =>
    match c :: rest with
    | '&' :: '#' :: 'x' :: r =>
      let ds := r.takeWhile isHexDigitChar
      if !ds.isEmpty && (r.drop ds.length).head? = some ';' then
        Char.ofNat (natOfHexDigits ds) :: replaceHexEnt f (r.drop (ds.length + 1))
      else c :: replaceHexEnt f rest
    | '&' :: '#' :: 'X' :: r =>
      let ds := r.takeWhile isHexDigitChar
      if !ds.isEmpty && (r.drop ds.length).head? = some ';' then
        Char.ofNat (natOfHexDigits ds) :: replaceHexEnt f (r.drop (ds.length + 1))
      else c :: replaceHexEnt f rest
    | _ => c :: replaceHexEnt f rest

/-- decodeEntities (lines 459-469): the source's fixed sequence of
global replaces, applied one after the other. -/
def decodeEntities (s : String) : String :=
  let d1 := replaceNbspEnt s.data
  let d2 := replaceAmpEnt d1
  let d3 := replaceLtEnt d2
  let d4 := replaceGtEnt d3
  let d5 := replaceQuotEnt d4
  let d6 := replaceAposEnt d5
  let d7 := replaceDecEnt d6.length d6
  let d8 := replaceHexEnt d7.length d7
  ⟨d8⟩

/-- The br-to-newline replace of cleanFacultyText (line 479): the
pattern -- open bracket, the letters b and r (case-insensitively), a
whitespace run, an optional solidus -- notably does not consume the
closing bracket of the tag. -/
def brToNlAux : Nat → List Char → List Char
  | _, [] => []
  | 0, cs => cs
  | f + 1, c :: rest =>
    if c = '<' then
      match rest with
      | b :: r2 =>
        if b = 'b' || b = 'B' then
          match r2 with
          | rr :: r3 =>
            if rr = 'r' || rr = 'R' then
              let afterWs := r3.dropWhile jsWhitespace
              let afterSl :=
                match afterWs with
                | '/' :: q => q
                | q => q
              '\n' :: brToNlAux f afterSl
            else c :: brToNlAux f rest
          | [] => c :: brToNlAux f rest
        else c :: brToNlAux f rest
      | [] => [c]
    else c :: brToNlAux f rest

/-- The block-closing-to-newline replace of cleanFacultyText (lines
480-482): a closing block tag and its trailing whitespace become one
newline. -/
def closeBlocksToNlAux : Nat → List Char → List Char
  | _, [] => []
  | 0, cs => cs
  | f + 1, c :: rest =>
    match tryCloseBlock (c :: rest) with
    | some n =>
      let after := ((c :: rest).drop n).dropWhile jsWhitespace
      '\n' :: closeBlocksToNlAux f after
    | none => c :: closeBlocksToNlAux f rest

/-- The tag-stripping replace of cleanFacultyText (line 484): a bracketed
run of one or more non-bracket characters becomes one space. -/
def stripTagsAux : Nat → List Char → List Char
  | _, [] => []
  | 0, cs => cs
  | f + 1, c :: rest =>
    if c = '<' then
      let inner := rest.takeWhile (fun x => x ≠ '>')
      if inner.isEmpty then c :: stripTagsAux f rest
      else
        match rest.drop inner.length with
        | '>' :: r2 => ' ' :: stripTagsAux f r2
        | _ => c :: stripTagsAux f rest
    else c :: stripTagsAux f rest

/-- CR and CRLF to LF (line 487). -/
def crToLf : List Char → List Char
  | [] => []
  | '\u000D' :: '\n' :: r => '\n' :: crToLf r
  | '\u000D' :: r => '\n' :: crToLf r
  | c :: r => c :: crToLf r

/-- The space-newline-space collapse of cleanFacultyText (line 489): a
run of spaces, one or more newlines, a run of spaces become one
newline. -/
def spacesNlAux : Nat → List Char → List Char
  | _, [] => []
  | 0, cs => cs
  | f + 1, c :: rest =>
    let sp := (c :: rest).takeWhile (fun x => x = ' ')
    let after := (c :: rest).drop sp.length
    match after with
    | '\n' :: _ =>
      let nl := after.takeWhile (fun x => x = '\n')
      let after2 := after.drop nl.length
      let sp2 := after2.takeWhile (fun x => x = ' ')
      '\n' :: spacesNlAux f (after2.drop sp2.length)
    | _ => c :: spacesNlAux f rest

/-- Newline runs of three or more become two (line 490). -/
def collapseNl3Aux : Nat → List Char → List Char
  | _, [] => []
  | 0, cs => cs
  | f + 1, c :: rest =>
    if c = '\n' then
      let nl := (c :: rest).takeWhile (fun x => x = '\n')
      if 3 ≤ nl.length then
        '\n' :: '\n' :: collapseNl3Aux f ((c :: rest).drop nl.length)
      else c :: collapseNl3Aux f rest
    else c :: collapseNl3Aux f rest

/-- cleanFacultyText (lines 471-493): scope selection, the noise,
forced-tag and form-control stages, then serialization to a string,
br and block-closing conversion to newlines, tag stripping, entity
decoding and whitespace normalization.  The source URL parameter is
taken and never used, as in the source. -/
def cleanFacultyText (html _sourceUrl : String) : String :=
  let doc := parseHtml html
  let scope := selectScope doc
  let scope2 := simplifyFormControls (removeForcedTags (removeOrUnwrapNoise scope))
  let h0 := (serializeNode scope2).data
  let h1 := brToNlAux h0.length h0
  let h2 := closeBlocksToNlAux h1.length h1
  let h3 := stripTagsAux h2.length h2
  let h4 := (decodeEntities ⟨h3⟩).data
  let h5 := crToLf h4
  let h6 := collapseRunsPlus
    (fun c => c = '\t' || c = '\u000B' || c = '\u000C' || c = '\u00A0') ' ' false h5
  let h7 := spacesNlAux h6.length h6
  let h8 := collapseNl3Aux h7.length h7
  let h9 := collapseRuns2 (fun c => c = ' ') ' ' false h8
  jsTrim ⟨h9⟩

/-! ## Tree predicates used by the invariant theorems -/

mutual
/-- No script, style, noscript, template or iframe element anywhere in
the subtree. -/
def noForcedNode : Node → Bool
  | .elem t _ ch => !FORCE_REMOVE_TAGS.contains t && noForcedL ch
  | _ => true
def noForcedL : List Node → Bool
  | [] => true
  | n :: l => noForcedNode n && noForcedL l
end

mutual
/-- Every element of the forest carries neither a style attribute nor an
attribute whose lower-cased name starts with on. -/
def attrsCleanNode : Node → Bool
  | .elem _ a ch => a.all keepAttr && attrsCleanL ch
  | _ => true
def attrsCleanL : List Node → Bool
  | [] => true
  | n :: l => attrsCleanNode n && attrsCleanL l
end

/-! ## Stage compositions named by the entry points -/

/-- The stages shared verbatim by both entry points (lines 453 and 475):
scope selection on the parsed document, then noise pruning and
forced-tag stripping. -/
def noiseForcedStages (html : String) : Node :=
  removeForcedTags (removeOrUnwrapNoise (selectScope (parseHtml html)))

/-- The textual serialization tail of cleanFacultyText (lines 477-492):
br and block-closing conversion to newlines, tag stripping, entity
decoding and whitespace normalization. -/
def textModeSerialize (scope2 : Node) : String :=
  let h0 := (serializeNode scope2).data
  let h1 := brToNlAux h0.length h0
  let h2 := closeBlocksToNlAux h1.length h1
  let h3 := stripTagsAux h2.length h2
  let h4 := (decodeEntities ⟨h3⟩).data
  let h5 := crToLf h4
  let h6 := collapseRunsPlus
    (fun c => c = '\t' || c = '\u000B' || c = '\u000C' || c = '\u00A0') ' ' false h5
  let h7 := spacesNlAux h6.length h6
  let h8 := collapseNl3Aux h7.length h7
  let h9 := collapseRuns2 (fun c => c = ' ') ' ' false h8
  jsTrim ⟨h9⟩

/-- The markup-only tail of cleanFacultyHtml (lines 453-456) after the
form-control stage: attribute sanitization, empty-block pruning,
finalization and the size-bounding branch. -/
def markupModeFinish (t2 : Node) : String :=
  let out := finalizeFormatting (removeEmptyBlocks (pruneEventAndStyle t2))
  if 30000 < out.length then
    let doc2 := parseHtml out
    let scope2 := selectScope doc2
    let t3 := clipToLimit scope2 30000
    ensureNewlinesBetweenBlocks (serializeNode t3)
  else out

/-! ## Invariant predicates of the cleaned tree (claim C4) -/

/-- No ampersand among the characters. -/
def ampFree (cs : List Char) : Bool := cs.all (fun c => !(c = '&'))

/-- Every character is JavaScript whitespace. -/
def allWs (cs : List Char) : Bool := cs.all jsWhitespace

mutual
/-- Well-formedness that every tree parsed from ampersand-free markup
enjoys and every stage preserves: no text node contains an ampersand
(so the entity test of the emptiness check never fires across text
boundaries) and every void-tag element is childless. -/
def tameNode : Node → Bool
  | .elem t _ ch => (!VOID_TAGS.contains t || ch.isEmpty) && tameL ch
  | .text s => ampFree s.data
  | .comment _ => true
def tameL : List Node → Bool
  | [] => true
  | n :: l => tameNode n && tameL l
end

/-- Does the value carry an explicit scheme prefix? -/
def hasSchemeB (v : String) : Bool := (splitScheme v.data).isSome

/-- The shapes an anchor href or image src can have after the resolver
stage: empty (the stage skips it), a bare fragment, a special scheme, a
value whose resolution against the source URL fails (kept verbatim by
the catch branch), or a scheme-carrying value (a resolved absolute URL,
or a scheme-carrying reference returned verbatim). -/
def urlValOk (u v : String) : Bool :=
  v = "" || isFragmentOnly v || isSpecialScheme v || (urlResolve v u).isNone || hasSchemeB v

mutual
/-- Every anchor href and every image src in the subtree satisfies
urlValOk (the attributes the resolver stage actually visits). -/
def urlsOkNode (u : String) : Node → Bool
  | .elem t a ch =>
    (if t = "a" then
       match getAttr a "href" with
       | some v => urlValOk u v
       | none => true
     else true) &&
    ((if t = "img" then
        match getAttr a "src" with
        | some v => urlValOk u v
        | none => true
      else true) &&
     urlsOkL u ch)
  | _ => true
def urlsOkL (u : String) : List Node → Bool
  | [] => true
  | n :: l => urlsOkNode u n && urlsOkL u l
end

/-- The claim's reading of an allowed URL value: an absolute
(scheme-carrying) URL, a fragment reference, or a special non-HTTP
scheme. -/
def urlValClaim (v : String) : Bool :=
  hasSchemeB v || isFragmentOnly v || isSpecialScheme v

mutual
/-- The claim's reading of the URL invariant: every href and every src
attribute value on every element has a claimed shape. -/
def urlsClaimNode : Node → Bool
  | .elem _ a ch =>
    (match getAttr a "href" with
     | some v => urlValClaim v
     | none => true) &&
    ((match getAttr a "src" with
      | some v => urlValClaim v
      | none => true) &&
     urlsClaimL ch)
  | _ => true
def urlsClaimL : List Node → Bool
  | [] => true
  | n :: l => urlsClaimNode n && urlsClaimL l
end

mutual
/-- No empty structural container in the subtree: no removable-tag
element with neither a useful descendant nor non-empty collapsed
subtree text (the test of removeEmptyBlocks, line 445). -/
def noEmptyBlocksNode : Node → Bool
  | .elem t _ ch =>
    !(REMOVABLE_TAGS.contains t && !hasUsefulL ch && collapsedTextEmpty (textContentL ch)) &&
    noEmptyBlocksL ch
  | _ => true
def noEmptyBlocksL : List Node → Bool
  | [] => true
  | n :: l => noEmptyBlocksNode n && noEmptyBlocksL l
end

/-- A non-empty scheme string: leading letter, scheme characters
throughout (the shape parseUrlAbs and urlResolve produce). -/
def schemeOkB (s : String) : Bool :=
  match s.data with
  | c :: _ => isAlphaChar c && s.data.all isSchemeChar
  | [] => false

/-! ## Predicates for the noise-pass survival claim (C3) -/

/-- The name/role hit of hasNameOrRoleClues, over a plain string: a kanji
name shape, a katakana run, or a role word, anywhere in the string. -/
def nameRoleHit (s : String) : Bool :=
  scanAny kanjiNameAt s.data || scanAny kataNameAt s.data ||
  (ROLE_WORDS_JA ++ ROLE_WORDS_EN).any (fun w => strContainsCI s w)

mutual
/-- Some text node of the subtree carries a name or role hit within its
own data (not split across node boundaries). -/
def hasNameTextNode : Node → Bool
  | .elem _ _ ch => hasNameTextL ch
  | .text s => nameRoleHit s
  | .comment _ => false
def hasNameTextL : List Node → Bool
  | [] => false
  | n :: l => hasNameTextNode n || hasNameTextL l
end

mutual
/-- Some anchor of the forest carries a person-link href and is itself
matched by none of the three noise predicates. -/
def hasSafeHintAnchorNode : Node → Bool
  | .elem t a ch =>
    (t == "a" && anchorHintHref (getAttrD a "href") &&
      !(matchesNoiseSelector t a || matchesClassSubstr t a || matchesIdSubstr t a)) ||
    hasSafeHintAnchorL ch
  | _ => false
def hasSafeHintAnchorL : List Node → Bool
  | [] => false
  | n :: l => hasSafeHintAnchorNode n || hasSafeHintAnchorL l
end

/-! ## Inputs and fixtures used by the claim theorems -/

/-- Counterexample input to C1: a paragraph whose two text chunks are
separated by a comment, each ending/starting with a space. -/
def c1Input : String := "<main><p>a <!--c--> b</p></main>"

def c1Url : String := "https://example.com/"

/-- The idempotence fixture the spec cites: a banner div wrapping a
profile anchor, plus a lazy image and a labelled text line. -/
def c1Fixture : String :=
  "<main><div class=\"banner\"><a href=\"/people/t\">Profile</a></div><img data-src=\"/i.jpg\"><p>氏名: 山 田</p></main>"

/-- Counterexample input to C2: a paragraph of 33000 letters, whose
markup-mode serialization (33020 units) exceeds the budget by more than
the trimming loop can recover in its capped number of iterations. -/
def c2Chars (k : Nat) : List Char :=
  '<' :: 'm' :: 'a' :: 'i' :: 'n' :: '>' :: '<' :: 'p' :: '>' ::
    (List.replicate k 'b' ++ ('<' :: '/' :: 'p' :: '>' :: '<' :: '/' :: 'm' :: 'a' :: 'i' :: 'n' :: '>' ::[]))

def c2Tree (k : Nat) : Node :=
  .elem "main" [] [.elem "p" [] [.text ⟨List.replicate k 'b'⟩]]

def c2Body : String := ⟨List.replicate 33000 'b'⟩
def c2Input : String := "<main><p>" ++ c2Body ++ "</p></main>"
def c2Url : String := "https://example.com/"

/-- Counterexample scope to C3: a banner div kept for its profile anchor,
whose anchor itself carries a noise class and no inner guard. -/
def c3Doc : Node :=
  .elem "main" []
    [.elem "div" [("class", "banner")]
      [.elem "a" [("class", "search"), ("href", "/people/x")] [.text "Profile"]]]

/-- A single option whose trimmed text is exactly 200 characters. -/
def c7Option200 : Node := .elem "option" [] [.text ⟨List.replicate 200 'x'⟩]

/-- Counterexample document to C8: a cookie-classed div whose only
name/role evidence sits inside a script element. -/
def c8Doc : Node :=
  .elem "main" []
    [.elem "div" [("class", "cookie")]
      [.elem "script" [] [.text "教授"], .elem "p" [] [.text "x"]]]

/-- Modelled from the spec (§2, §6): the plain-text entry point as the
spec describes it, sharing stages 1 through 7 with markup mode -- scope
selection, noise pruning, forced-tag stripping, form-control
simplification, URL resolution, attribute sanitization and empty-block
pruning -- and diverging only at serialization, where it applies the
same tag-stripping textual pipeline as the source's text mode.  Used to
compare the claimed shape with the source's cleanFacultyText. -/
def cleanFacultyTextSpecModel (html sourceUrl : String) : String :=
  let doc := parseHtml html
  let scope := selectScope doc
  let scope2 := pipelineStagesHtml scope sourceUrl
  let h0 := (serializeNode scope2).data
  let h1 := brToNlAux h0.length h0
  let h2 := closeBlocksToNlAux h1.length h1
  let h3 := stripTagsAux h2.length h2
  let h4 := (decodeEntities ⟨h3⟩).data
  let h5 := crToLf h4
  let h6 := collapseRunsPlus
    (fun c => c = '\t' || c = '\u000B' || c = '\u000C' || c = '\u00A0') ' ' false h5
  let h7 := spacesNlAux h6.length h6
  let h8 := collapseNl3Aux h7.length h7
  let h9 := collapseRuns2 (fun c => c = ' ') ' ' false h8
  jsTrim ⟨h9⟩

/-! ## Claim C1: idempotence of the markup-mode cleaner -/

/-- C1 (counterexample): the markup-mode cleaner is not idempotent.
Comment removal leaves two adjacent text nodes whose serialization
carries a double space; re-parsing merges them into one text node, and
the second pass's whitespace collapsing shortens it, so clean(clean(h,u),
u) differs from clean(h,u). -/
theorem c1_counterexample :
    cleanFacultyHtml c1Input c1Url = "<main><p>a  b</p></main>" ∧
    cleanFacultyHtml (cleanFacultyHtml c1Input c1Url) c1Url = "<main><p>a b</p></main>" ∧
    cleanFacultyHtml (cleanFacultyHtml c1Input c1Url) c1Url ≠ cleanFacultyHtml c1Input c1Url := by
  decide

set_option maxHeartbeats 4000000 in
/-- C1 (amended): cleaning stabilizes after one pass on the suite's
idempotence fixture (a banner div wrapping a profile anchor, plus a lazy
image and a labelled text line); full idempotence fails because comment
removal (and unwrapping) can merge adjacent text nodes at serialization,
which a second pass normalizes further. -/
theorem c1_theorem :
    cleanFacultyHtml (cleanFacultyHtml c1Fixture c1Url) c1Url = cleanFacultyHtml c1Fixture c1Url := by
  decide

/-! ## Claim C5: anchor href resolution and error absorption -/

/-- C5 (counterexample): an anchor carrying an href attribute whose value
is the empty string is not a fragment and not a special scheme, and the
standard resolution of the empty reference against the base succeeds
(yielding the base); the claim therefore predicts the href becomes that
absolute URL, but the stage skips empty hrefs and leaves the anchor
byte-for-byte unchanged. -/
theorem c5_counterexample :
    isFragmentOnly "" = false ∧ isSpecialScheme "" = false ∧
    urlResolve "" "https://example.com/dir" = some "https://example.com/dir" ∧
    absolutizeNode "https://example.com/dir" (.elem "a" [("href", "")] []) =
      .elem "a" [("href", "")] [] := by
  decide

/-- C5 (amended): for every anchor href, an empty value, a bare fragment
and a special scheme are left untouched; any other value is rewritten to
the resolver's result when resolution succeeds and kept unchanged when
it fails (no exception leaves absolutizeUrl, which is total); and the
stage rewrites a non-empty anchor href in place to absolutizeUrl of it,
processing the children the same way. -/
theorem c5_theorem (href base : String) :
    (href = "" → absolutizeUrl href base = href) ∧
    (isFragmentOnly href = true → absolutizeUrl href base = href) ∧
    (isSpecialScheme href = true → absolutizeUrl href base = href) ∧
    (href ≠ "" → isFragmentOnly href = false → isSpecialScheme href = false →
      urlResolve href base = none → absolutizeUrl href base = href) ∧
    (∀ abs, href ≠ "" → isFragmentOnly href = false → isSpecialScheme href = false →
      urlResolve href base = some abs → absolutizeUrl href base = abs) ∧
    (∀ attrs ch, getAttr attrs "href" = some href → href ≠ "" →
      absolutizeNode base (.elem "a" attrs ch) =
        .elem "a" (setAttr attrs "href" (absolutizeUrl href base))
          (absolutizeLinksAndImagesL base ch)) := by
  refine ⟨?_, ?_, ?_, ?_, ?_, ?_⟩
  · intro h; simp [absolutizeUrl, h]
  · intro h; simp [absolutizeUrl, h]
  · intro h; simp [absolutizeUrl, h]
  · intro h1 h2 h3 h4; simp [absolutizeUrl, h1, h2, h3, h4]
  · intro abs h1 h2 h3 h4; simp [absolutizeUrl, h1, h2, h3, h4]
  · intro attrs ch hget hne
    simp only [absolutizeNode, hget, if_pos rfl]
    simp [hne]

/-- Witness for C5: the spec's own example resolves as claimed. -/
theorem c5_witness :
    absolutizeUrl "./person/a" "https://example.com/base/dir/" =
      "https://example.com/base/dir/person/a" :=
  ( c5_theorem "./person/a" "https://example.com/base/dir/").2.2.2.2.1
    "https://example.com/base/dir/person/a" (by decide) (by decide) (by decide) (by decide)

/-! ## Claim C7: form-control simplification thresholds -/

/-- C7 (counterexample): the claim's removal condition says at least 20
options or text exceeding 200 characters; a select with one option of
exactly 200 characters, which the claim keeps, is removed whole by the
code (the threshold is at-least-200).  And a label carrying a non-empty
value attribute but whitespace subtree text, which the claim keeps, is
removed: the or-chain takes the non-empty whitespace text and never
consults the value. -/
theorem c7_counterexample :
    countOptionsL [c7Option200] = 1 ∧
    optionsTextLenL [c7Option200] = 200 ∧
    selectPassNode (.elem "select" [] [c7Option200]) = [] ∧
    controlsPassNode (.elem "label" [("value", "go")] [.text " "]) = [] := by
  decide

/-- C7 (amended): a select or datalist is removed whole exactly when it
has at least 20 option descendants or at least 200 characters of
concatenated trimmed option text; otherwise every option (at any depth)
is replaced by its trimmed text when non-empty and dropped when empty,
and the control is unwrapped; and an input, textarea, button or label is
removed exactly when its subtree text -- or, only when that text is the
empty string, its value attribute -- trims to the empty string. -/
theorem c7_theorem (t : String) (a : List (String × String)) (ch : List Node) :
    (isSelLike t = true →
      selectPassNode (.elem t a ch) =
        if 20 ≤ countOptionsL ch || 200 ≤ optionsTextLenL ch then []
        else unwrapSelLikeL (replaceOptionsL ch)) ∧
    (∀ ch2 a2, replaceOptionsNode (.elem "option" a2 ch2) =
      if jsTrim (textContentL ch2) = "" then [] else [.text (jsTrim (textContentL ch2))]) ∧
    (isCtlTag t = true →
      controlsPassNode (.elem t a ch) =
        if jsTrim (jsOrStr (textContentL ch) (getAttrD a "value")) = "" then []
        else [.elem t a (controlsPassL ch)]) ∧
    simplifyFormControlsL ch = controlsPassL (selectPassL ch) := by
  refine ⟨?_, ?_, ?_, rfl⟩
  · intro h
    simp [selectPassNode, h]
  · intro ch2 a2
    simp [replaceOptionsNode]
  · intro h
    simp [controlsPassNode, h]

/-- Witness for C7: a select with a single short option is kept and
unwrapped to its option's bare text. -/
theorem c7_witness :
    selectPassNode (.elem "select" [] [.elem "option" [] [.text "Tokyo"]]) =
      (if 20 ≤ countOptionsL [Node.elem "option" [] [.text "Tokyo"]]
          || 200 ≤ optionsTextLenL [Node.elem "option" [] [.text "Tokyo"]] then []
       else unwrapSelLikeL (replaceOptionsL [Node.elem "option" [] [.text "Tokyo"]])) :=
  ( c7_theorem "select" [] [Node.elem "option" [] [.text "Tokyo"]]).1 (by decide)

/-! ## Claim C8: order of the forced-tag stripper and the noise pass -/

/-- C8 (counterexample): the two stage orders differ.  Run as the code
does (noise first), the guard sees the role word inside the script, the
div is unwrapped and the paragraph survives; stripping scripts first
erases the evidence and the whole div is removed. -/
theorem c8_counterexample :
    removeForcedTags (removeOrUnwrapNoise c8Doc) =
      .elem "main" [] [.elem "p" [] [.text "x"]] ∧
    removeOrUnwrapNoise (removeForcedTags c8Doc) = .elem "main" [] [] ∧
    removeForcedTags (removeOrUnwrapNoise c8Doc) ≠
      removeOrUnwrapNoise (removeForcedTags c8Doc) := by
  decide

/-! ## Claim C9: the two entry points -/

/-- C9 (counterexample): the entry points do not share stages 1-7.  On a
document with a whitespace-only div, the spec-shaped pipeline (which
includes stage 7, empty-block pruning) yields one line, while the
source's text mode keeps the empty div and its block closing becomes a
newline. -/
theorem c9_counterexample :
    cleanFacultyText "<main>a<div> </div>b</main>" "https://example.com/" = "a\nb" ∧
    cleanFacultyTextSpecModel "<main>a<div> </div>b</main>" "https://example.com/" = "ab" ∧
    cleanFacultyText "<main>a<div> </div>b</main>" "https://example.com/" ≠
      cleanFacultyTextSpecModel "<main>a<div> </div>b</main>" "https://example.com/" := by
  decide

/-! ## Claim C6: lazy-image promotion -/

/-- C6: for every img whose src attribute is missing or blank, the first
non-empty candidate in the priority order data-src, data-original,
data-lazy, first entry of data-srcset, first entry of srcset is promoted
into src (in place when src existed, appended when it did not), and the
resulting src is absolutized against the source URL exactly like anchor
hrefs; in particular the spec's example, a root-relative data-src with a
directory base, resolves against the host root. -/
theorem c6_theorem (base : String) (a : List (String × String)) (ch : List Node) :
    (getAttrD a "src" = "" ∨ jsTrim (getAttrD a "src") = "" →
      lazyCandidate a ≠ "" →
      absolutizeNode base (.elem "img" a ch) =
        .elem "img"
          (setAttr (setAttr a "src" (lazyCandidate a)) "src"
            (absolutizeUrl (lazyCandidate a) base))
          (absolutizeLinksAndImagesL base ch)) ∧
    absolutizeNode "https://example.com/base/dir/" (.elem "img" [("data-src", "/x.jpg")] []) =
      .elem "img" [("data-src", "/x.jpg"), ("src", "https://example.com/x.jpg")] [] := by
  constructor
  · intro h1 h2
    have hcond : (getAttrD a "src" = "" || jsTrim (getAttrD a "src") = "") = true := by
      rcases h1 with h | h <;> simp [h]
    simp [absolutizeNode, imgAttrs, hcond, h2]
  · decide

/-- Witness for C6: the spec's lazy-image example, via the theorem. -/
theorem c6_witness :
    absolutizeNode "https://example.com/base/dir/" (.elem "img" [("data-src", "/x.jpg")] []) =
      .elem "img"
        (setAttr (setAttr [("data-src", "/x.jpg")] "src" (lazyCandidate [("data-src", "/x.jpg")]))
          "src" (absolutizeUrl (lazyCandidate [("data-src", "/x.jpg")]) "https://example.com/base/dir/"))
        (absolutizeLinksAndImagesL "https://example.com/base/dir/" []) :=
  ( c6_theorem "https://example.com/base/dir/" [("data-src", "/x.jpg")] []).1
    (Or.inl (by decide)) (by decide)

/-! ## Claim C8 (amended): commutation in the absence of forced tags -/

theorem noForcedL_append (a b : List Node) :
    noForcedL (a ++ b) = (noForcedL a && noForcedL b) := by
  induction a with
  | nil => simp [noForcedL]
  | cons n l ih => simp [noForcedL, ih, Bool.and_assoc]

mutual
theorem removeForcedNode_id : ∀ n : Node, noForcedNode n = true → removeForcedNode n = [n]
  | .elem t a ch => by
    intro h
    simp only [noForcedNode, Bool.and_eq_true, Bool.not_eq_eq_eq_not, Bool.not_true] at h
    have h1 : t ∉ FORCE_REMOVE_TAGS := by simpa using h.1
    simp [removeForcedNode, h1, removeForcedL_id ch h.2]
  | .text s => by intro _; rfl
  | .comment s => by intro _; rfl
theorem removeForcedL_id : ∀ l : List Node, noForcedL l = true → removeForcedL l = l
  | [] => by intro _; rfl
  | n :: l => by
    intro h
    simp only [noForcedL, Bool.and_eq_true] at h
    simp [removeForcedL, removeForcedNode_id n h.1, removeForcedL_id l h.2]
end

mutual
theorem noisePass_noForced (m : String → List (String × String) → Bool) :
    ∀ n : Node, noForcedNode n = true → noForcedL (noisePass m n) = true
  | .elem t a ch => by
    intro h
    simp only [noForcedNode, Bool.and_eq_true, Bool.not_eq_eq_eq_not, Bool.not_true] at h
    simp only [noisePass]
    split
    · split
      · exact noisePassL_noForced m ch h.2
      · rfl
    · have h1 : t ∉ FORCE_REMOVE_TAGS := by simpa using h.1
      simp [noForcedL, noForcedNode, h1, noisePassL_noForced m ch h.2]
  | .text s => by intro _; simp [noisePass, noForcedL, noForcedNode]
  | .comment s => by intro _; simp [noisePass, noForcedL, noForcedNode]
theorem noisePassL_noForced (m : String → List (String × String) → Bool) :
    ∀ l : List Node, noForcedL l = true → noForcedL (noisePassL m l) = true
  | [] => by intro _; rfl
  | n :: l => by
    intro h
    simp only [noForcedL, Bool.and_eq_true] at h
    simp [noisePassL, noForcedL_append, noisePass_noForced m n h.1,
      noisePassL_noForced m l h.2]
end

theorem removeOrUnwrapNoiseL_noForced (l : List Node) (h : noForcedL l = true) :
    noForcedL (removeOrUnwrapNoiseL l) = true := by
  unfold removeOrUnwrapNoiseL
  exact noisePassL_noForced _ _ (noisePassL_noForced _ _ (noisePassL_noForced _ _ h))

/-- C8 (amended): the forced-tag stripper and the noise pass commute on
every document that contains no script, style, noscript, template or
iframe element; in general the order matters, because the keep guards
read text inside forced-tag subtrees (the code runs the noise pass
first). -/
theorem c8_theorem (scope : Node) (h : noForcedNode scope = true) :
    removeForcedTags (removeOrUnwrapNoise scope) = removeOrUnwrapNoise (removeForcedTags scope) := by
  cases scope with
  | elem t a ch =>
    simp only [noForcedNode, Bool.and_eq_true] at h
    simp only [removeForcedTags, removeOrUnwrapNoise]
    rw [removeForcedL_id ch h.2, removeForcedL_id _ (removeOrUnwrapNoiseL_noForced ch h.2)]
  | text s => rfl
  | comment s => rfl

/-- Witness for C8: a script-free document commutes. -/
theorem c8_witness :
    noForcedNode (.elem "main" [] [.elem "div" [("class", "cookie")] [.elem "p" [] [.text "教授"]]]) = true ∧
    removeForcedTags (removeOrUnwrapNoise
        (.elem "main" [] [.elem "div" [("class", "cookie")] [.elem "p" [] [.text "教授"]]])) =
      removeOrUnwrapNoise (removeForcedTags
        (.elem "main" [] [.elem "div" [("class", "cookie")] [.elem "p" [] [.text "教授"]]])) :=
  ⟨by decide,
   c8_theorem (.elem "main" [] [.elem "div" [("class", "cookie")] [.elem "p" [] [.text "教授"]]])
     (by decide)⟩

/-! ## Claim C9 (amended): what the two entry points actually share -/

/-- C9 (amended): both entry points factor through the same leading
stages -- scope selection on the parsed document, noise pruning,
forced-tag stripping -- and both then apply form-control simplification
(markup mode after URL resolution); plain-text mode proceeds directly to
its textual serialization, skipping URL resolution, attribute
sanitization and empty-block pruning, so the modes diverge from the URL
stage onward, not only at serialization. -/
theorem c9_theorem (html u : String) :
    cleanFacultyText html u = textModeSerialize (simplifyFormControls (noiseForcedStages html)) ∧
    cleanFacultyHtml html u =
      markupModeFinish (simplifyFormControls
        (absolutizeLinksAndImages (noiseForcedStages html) u)) :=
  ⟨rfl, rfl⟩

/-! ## Claim C10: the attribute sanitizer and the scope root -/

mutual
theorem cleanAttributesNode_clean : ∀ n : Node, attrsCleanNode (cleanAttributesNode n) = true
  | .elem t a ch => by
    simp only [cleanAttributesNode, attrsCleanNode, Bool.and_eq_true]
    constructor
    · simp only [List.all_eq_true]
      intro p hp
      exact List.of_mem_filter hp
    · exact cleanAttributesL_clean ch
  | .text s => rfl
  | .comment s => rfl
theorem cleanAttributesL_clean : ∀ l : List Node, attrsCleanL (cleanAttributesL l) = true
  | [] => rfl
  | n :: l => by
    simp [cleanAttributesL, attrsCleanL, cleanAttributesNode_clean n, cleanAttributesL_clean l]
end

theorem attrsCleanL_append (a b : List Node) :
    attrsCleanL (a ++ b) = (attrsCleanL a && attrsCleanL b) := by
  induction a with
  | nil => simp [attrsCleanL]
  | cons n l ih => simp [attrsCleanL, ih, Bool.and_assoc]

mutual
theorem removeEmptyBlocksNode_attrsClean :
    ∀ n : Node, attrsCleanNode n = true → attrsCleanL (removeEmptyBlocksNode n) = true
  | .elem t a ch => by
    intro h
    simp only [attrsCleanNode, Bool.and_eq_true] at h
    simp only [removeEmptyBlocksNode]
    split
    · rfl
    · simp [attrsCleanL, attrsCleanNode, h.1, removeEmptyBlocksL_attrsClean ch h.2]
  | .text s => by intro _; simp [removeEmptyBlocksNode, attrsCleanL, attrsCleanNode]
  | .comment s => by intro _; simp [removeEmptyBlocksNode, attrsCleanL, attrsCleanNode]
theorem removeEmptyBlocksL_attrsClean :
    ∀ l : List Node, attrsCleanL l = true → attrsCleanL (removeEmptyBlocksL l) = true
  | [] => by intro _; rfl
  | n :: l => by
    intro h
    simp only [attrsCleanL, Bool.and_eq_true] at h
    simp [removeEmptyBlocksL, attrsCleanL_append, removeEmptyBlocksNode_attrsClean n h.1,
      removeEmptyBlocksL_attrsClean l h.2]
end

mutual
theorem compressBrNode_attrsClean :
    ∀ n : Node, attrsCleanNode n = true → attrsCleanNode (compressBrNode n) = true
  | .elem t a ch => by
    intro h
    simp only [attrsCleanNode, Bool.and_eq_true] at h
    simp [compressBrNode, attrsCleanNode, h.1, compressBrL_attrsClean false ch h.2]
  | .text s => by intro h; exact h
  | .comment s => by intro h; exact h
theorem compressBrL_attrsClean :
    ∀ (b : Bool) (l : List Node), attrsCleanL l = true → attrsCleanL (compressBrL b l) = true
  | _, [] => by intro _; rfl
  | b, n :: l => by
    intro h
    simp only [attrsCleanL, Bool.and_eq_true] at h
    simp only [compressBrL]
    split
    · split
      · exact compressBrL_attrsClean true l h.2
      · simp [attrsCleanL, compressBrNode_attrsClean n h.1, compressBrL_attrsClean true l h.2]
    · simp [attrsCleanL, compressBrNode_attrsClean n h.1, compressBrL_attrsClean false l h.2]
end

mutual
theorem normalizeTextNode_attrsClean :
    ∀ n : Node, attrsCleanNode n = true → attrsCleanNode (normalizeTextNode n) = true
  | .elem t a ch => by
    intro h
    simp only [attrsCleanNode, Bool.and_eq_true] at h
    simp [normalizeTextNode, attrsCleanNode, h.1, normalizeTextL_attrsClean ch h.2]
  | .text s => by intro _; rfl
  | .comment s => by intro _; rfl
theorem normalizeTextL_attrsClean :
    ∀ l : List Node, attrsCleanL l = true → attrsCleanL (normalizeTextL l) = true
  | [] => by intro _; rfl
  | n :: l => by
    intro h
    simp only [attrsCleanL, Bool.and_eq_true] at h
    simp [normalizeTextL, attrsCleanL, normalizeTextNode_attrsClean n h.1,
      normalizeTextL_attrsClean l h.2]
end

mutual
theorem removeCommentsNode_attrsClean :
    ∀ n : Node, attrsCleanNode n = true → attrsCleanL (removeCommentsNode n) = true
  | .elem t a ch => by
    intro h
    simp only [attrsCleanNode, Bool.and_eq_true] at h
    simp [removeCommentsNode, attrsCleanL, attrsCleanNode, h.1, removeCommentsL_attrsClean ch h.2]
  | .text s => by intro _; simp [removeCommentsNode, attrsCleanL, attrsCleanNode]
  | .comment s => by intro _; simp [removeCommentsNode, attrsCleanL]
theorem removeCommentsL_attrsClean :
    ∀ l : List Node, attrsCleanL l = true → attrsCleanL (removeCommentsL l) = true
  | [] => by intro _; rfl
  | n :: l => by
    intro h
    simp only [attrsCleanL, Bool.and_eq_true] at h
    simp [removeCommentsL, attrsCleanL_append, removeCommentsNode_attrsClean n h.1,
      removeCommentsL_attrsClean l h.2]
end

/-- C10: the attribute sanitizer touches only strict descendants of the
selected scope root: on every run, the pipeline tree that markup mode
serializes keeps the scope root's tag and attribute list byte-for-byte
(style and on-prefixed attributes of the root included), while every
element strictly below it carries no style attribute and no attribute
whose lower-cased name starts with on. -/
theorem c10_theorem (html u : String) (t : String) (a : List (String × String)) (ch : List Node)
    (h : selectScope (parseHtml html) = .elem t a ch) :
    ∃ ch2, finalizeTree (pipelineStagesHtml (selectScope (parseHtml html)) u) = .elem t a ch2 ∧
      attrsCleanL ch2 = true := by
  rw [h]
  simp only [pipelineStagesHtml, removeOrUnwrapNoise, removeForcedTags, absolutizeLinksAndImages,
    simplifyFormControls, pruneEventAndStyle, removeEmptyBlocks, finalizeTree, compressBrRuns,
    normalizeTextWhitespace, removeCommentsDeep]
  refine ⟨_, rfl, ?_⟩
  exact removeCommentsL_attrsClean _ (normalizeTextL_attrsClean _ (compressBrL_attrsClean _ _
    (removeEmptyBlocksL_attrsClean _ (cleanAttributesL_clean _))))

/-- Witness for C10: a main element carrying style and onclick keeps
both; its paragraph loses its style attribute. -/
theorem c10_witness :
    selectScope (parseHtml "<main style=\"color:red\" onclick=\"f()\"><p style=\"x\">hi</p></main>") =
      .elem "main" [("style", "color:red"), ("onclick", "f()")] [.elem "p" [("style", "x")] [.text "hi"]] ∧
    ∃ ch2,
      finalizeTree (pipelineStagesHtml
          (selectScope (parseHtml "<main style=\"color:red\" onclick=\"f()\"><p style=\"x\">hi</p></main>"))
          "https://example.com/") =
        .elem "main" [("style", "color:red"), ("onclick", "f()")] ch2 ∧
      attrsCleanL ch2 = true :=
  ⟨by decide,
   c10_theorem "<main style=\"color:red\" onclick=\"f()\"><p style=\"x\">hi</p></main>"
     "https://example.com/" "main" [("style", "color:red"), ("onclick", "f()")]
     [.elem "p" [("style", "x")] [.text "hi"]] (by decide)⟩

/-! ## String-level lemmas for the C4 invariant -/

theorem tameL_append : ∀ a b : List Node, tameL (a ++ b) = (tameL a && tameL b)
  | [], b => by simp [tameL]
  | n :: l, b => by simp [tameL, tameL_append l b, Bool.and_assoc]

theorem urlsOkL_append (u : String) :
    ∀ a b : List Node, urlsOkL u (a ++ b) = (urlsOkL u a && urlsOkL u b)
  | [], b => by simp [urlsOkL]
  | n :: l, b => by simp [urlsOkL, urlsOkL_append u l b, Bool.and_assoc]

theorem textContentL_append :
    ∀ a b : List Node, textContentL (a ++ b) = textContentL a ++ textContentL b
  | [], b => by
    apply String.ext
    simp [textContentL]
  | n :: l, b => by
    apply String.ext
    have ih := congrArg String.data (textContentL_append l b)
    simp only [String.data_append] at ih
    simp [List.cons_append, textContentL, String.data_append, ih]

theorem removable_not_useful (t : String) (h : REMOVABLE_TAGS.contains t = true) :
    USEFUL_TAGS.contains t = false := by
  have hm : t ∈ REMOVABLE_TAGS := by simpa using h
  simp only [REMOVABLE_TAGS, List.mem_cons, List.not_mem_nil, or_false] at hm
  rcases hm with rfl | rfl | rfl | rfl | rfl | rfl <;> decide

theorem ampFree_of_subset (cs ds : List Char) (hsub : ∀ c ∈ ds, c ∈ cs)
    (h : ampFree cs = true) : ampFree ds = true := by
  simp only [ampFree, List.all_eq_true] at h ⊢
  exact fun c hc => h c (hsub c hc)

theorem ampFree_jsTrim (s : String) (h : ampFree s.data = true) :
    ampFree (jsTrim s).data = true := by
  apply ampFree_of_subset s.data _ _ h
  intro c hc
  simp only [jsTrim, dropWhileWs, List.mem_reverse] at hc
  have h1 := (List.dropWhile_sublist _).subset hc
  rw [List.mem_reverse] at h1
  exact (List.dropWhile_sublist _).subset h1

mutual
theorem tame_textContent : ∀ n : Node, tameNode n = true → ampFree (textContent n).data = true
  | .elem t a ch => by
    intro h
    simp only [tameNode, Bool.and_eq_true] at h
    simpa [textContent] using tame_textContentL ch h.2
  | .text s => by
    intro h
    simpa [textContent, tameNode] using h
  | .comment s => by
    intro _
    simp [textContent, ampFree]
theorem tame_textContentL : ∀ l : List Node, tameL l = true → ampFree (textContentL l).data = true
  | [] => by
    intro _
    simp [textContentL, ampFree]
  | n :: l => by
    intro h
    simp only [tameL, Bool.and_eq_true] at h
    have h1 := tame_textContent n h.1
    have h2 := tame_textContentL l h.2
    simp only [ampFree, textContentL, String.data_append, List.all_append, Bool.and_eq_true]
    exact ⟨by simpa [ampFree] using h1, by simpa [ampFree] using h2⟩
end

theorem nbspEntityToSpace_nbspHead (cs : List Char) :
    nbspEntityToSpace ('\u00A0' :: cs) = ' ' :: nbspEntityToSpace cs := rfl

theorem nbspEntityToSpace_cons_ne (c : Char) (cs : List Char) (h1 : ¬ c = '\u00A0')
    (h2 : ¬ c = '&') : nbspEntityToSpace (c :: cs) = c :: nbspEntityToSpace cs := by
  conv_lhs => unfold nbspEntityToSpace
  split
  · rename_i heq
    simp at heq
  · rename_i rest heq
    injection heq with hc _
    exact absurd hc h1
  · rename_i rest heq
    injection heq with hc _
    exact absurd hc h2
  · rename_i heq
    injection heq with hc hcs
    rw [← hc, ← hcs]

theorem allWs_nbsp : ∀ cs : List Char, ampFree cs = true → allWs (nbspEntityToSpace cs) = allWs cs := by
  intro cs
  induction cs with
  | nil => intro _; rfl
  | cons c rest ih =>
    intro h
    have hsplit : (!(c = '&') && ampFree rest) = true := by simpa [ampFree] using h
    simp only [Bool.and_eq_true] at hsplit
    have hc : ¬ c = '&' := by simpa using hsplit.1
    have ih2 := ih hsplit.2
    by_cases hn : c = '\u00A0'
    · subst hn
      rw [nbspEntityToSpace_nbspHead]
      simp only [allWs, List.all_cons] at ih2 ⊢
      rw [ih2, (by decide : jsWhitespace ' ' = true),
        (by decide : jsWhitespace '\u00A0' = true)]
    · rw [nbspEntityToSpace_cons_ne c rest hn hc]
      simp only [allWs, List.all_cons] at ih2 ⊢
      rw [ih2]

theorem ampFree_nbsp : ∀ cs : List Char, ampFree cs = true → ampFree (nbspEntityToSpace cs) = true := by
  intro cs
  induction cs with
  | nil => intro _; rfl
  | cons c rest ih =>
    intro h
    have hsplit : (!(c = '&') && ampFree rest) = true := by simpa [ampFree] using h
    simp only [Bool.and_eq_true] at hsplit
    have hc : ¬ c = '&' := by simpa using hsplit.1
    have ih2 := ih hsplit.2
    by_cases hn : c = '\u00A0'
    · subst hn
      rw [nbspEntityToSpace_nbspHead]
      simp only [ampFree, List.all_cons] at ih2 ⊢
      rw [ih2]
      decide
    · rw [nbspEntityToSpace_cons_ne c rest hn hc]
      simp only [ampFree, List.all_cons] at ih2 ⊢
      rw [ih2]
      simp [hc]

theorem isTabSp_ws (c : Char) (h : isTabSp c = true) : jsWhitespace c = true := by
  simp only [isTabSp, Bool.or_eq_true, decide_eq_true_eq] at h
  rcases h with rfl | rfl <;> decide

theorem newlineChar_ws (c : Char) (h : decide (c = '\n') = true) : jsWhitespace c = true := by
  have := of_decide_eq_true h
  subst this
  decide

theorem allWs_collapsePlus (p : Char → Bool) (r : Char)
    (hp : ∀ c, p c = true → jsWhitespace c = true) (hr : jsWhitespace r = true) :
    ∀ (b : Bool) (cs : List Char), allWs (collapseRunsPlus p r b cs) = allWs cs
  | b, [] => by cases b <;> rfl
  | true, c :: cs => by
    by_cases hc : p c = true
    · have ih1 := allWs_collapsePlus p r hp hr true cs
      simp only [allWs] at ih1 ⊢
      simp [collapseRunsPlus, hc, ih1, hp c hc]
    · have ih2 := allWs_collapsePlus p r hp hr false cs
      simp only [allWs] at ih2 ⊢
      simp [collapseRunsPlus, hc, ih2]
  | false, c :: cs => by
    by_cases hc : p c = true
    · have ih1 := allWs_collapsePlus p r hp hr true cs
      simp only [allWs] at ih1 ⊢
      simp [collapseRunsPlus, hc, ih1, hp c hc, hr]
    · have ih2 := allWs_collapsePlus p r hp hr false cs
      simp only [allWs] at ih2 ⊢
      simp [collapseRunsPlus, hc, ih2]

theorem ampFree_collapsePlus (p : Char → Bool) (r : Char) (hr : ¬ r = '&') :
    ∀ (b : Bool) (cs : List Char), ampFree cs = true → ampFree (collapseRunsPlus p r b cs) = true
  | b, [], _ => by cases b <;> rfl
  | true, c :: cs, h => by
    simp only [ampFree, List.all_cons, Bool.and_eq_true] at h
    by_cases hc : p c = true
    · have ih1 := ampFree_collapsePlus p r hr true cs (by simpa [ampFree] using h.2)
      simp only [ampFree] at ih1 ⊢
      simp [collapseRunsPlus, hc, ih1]
    · have ih2 := ampFree_collapsePlus p r hr false cs (by simpa [ampFree] using h.2)
      simp only [ampFree] at ih2 ⊢
      simp [collapseRunsPlus, hc, ih2, h.1]
  | false, c :: cs, h => by
    simp only [ampFree, List.all_cons, Bool.and_eq_true] at h
    by_cases hc : p c = true
    · have ih1 := ampFree_collapsePlus p r hr true cs (by simpa [ampFree] using h.2)
      simp only [ampFree] at ih1 ⊢
      simp [collapseRunsPlus, hc, ih1, hr]
    · have ih2 := ampFree_collapsePlus p r hr false cs (by simpa [ampFree] using h.2)
      simp only [ampFree] at ih2 ⊢
      simp [collapseRunsPlus, hc, ih2, h.1]

theorem allWs_collapse2 (p : Char → Bool) (r : Char)
    (hp : ∀ c, p c = true → jsWhitespace c = true) (hr : jsWhitespace r = true) :
    ∀ (b : Bool) (cs : List Char), allWs (collapseRuns2 p r b cs) = allWs cs
  | b, [] => by cases b <;> rfl
  | true, c :: cs => by
    by_cases hc : p c = true
    · have ih1 := allWs_collapse2 p r hp hr true cs
      simp only [allWs] at ih1 ⊢
      simp [collapseRuns2, hc, ih1, hp c hc]
    · have ih2 := allWs_collapse2 p r hp hr false cs
      simp only [allWs] at ih2 ⊢
      simp [collapseRuns2, hc, ih2]
  | false, c :: cs => by
    by_cases hc : p c = true
    · cases cs with
      | nil => simp [collapseRuns2, hc]
      | cons c2 cs2 =>
        by_cases hc2 : p c2 = true
        · have ih1 := allWs_collapse2 p r hp hr true cs2
          simp only [allWs] at ih1 ⊢
          simp [collapseRuns2, hc, hc2, ih1, hp c hc, hp c2 hc2, hr]
        · have ih2 := allWs_collapse2 p r hp hr false cs2
          simp only [allWs] at ih2 ⊢
          simp [collapseRuns2, hc, hc2, ih2]
    · have ih2 := allWs_collapse2 p r hp hr false cs
      simp only [allWs] at ih2 ⊢
      simp [collapseRuns2, hc, ih2]

theorem ampFree_collapse2 (p : Char → Bool) (r : Char) (hr : ¬ r = '&') :
    ∀ (b : Bool) (cs : List Char), ampFree cs = true → ampFree (collapseRuns2 p r b cs) = true
  | b, [], _ => by cases b <;> rfl
  | true, c :: cs, h => by
    simp only [ampFree, List.all_cons, Bool.and_eq_true] at h
    by_cases hc : p c = true
    · have ih1 := ampFree_collapse2 p r hr true cs (by simpa [ampFree] using h.2)
      simp only [ampFree] at ih1 ⊢
      simp [collapseRuns2, hc, ih1]
    · have ih2 := ampFree_collapse2 p r hr false cs (by simpa [ampFree] using h.2)
      simp only [ampFree] at ih2 ⊢
      simp [collapseRuns2, hc, ih2, h.1]
  | false, c :: cs, h => by
    simp only [ampFree, List.all_cons, Bool.and_eq_true] at h
    by_cases hc : p c = true
    · cases cs with
      | nil =>
        simp only [ampFree] at h ⊢
        simp [collapseRuns2, hc, h.1]
      | cons c2 cs2 =>
        have hamp : (!(c2 = '&') && ampFree cs2) = true := by simpa [ampFree] using h.2
        simp only [Bool.and_eq_true] at hamp
        by_cases hc2 : p c2 = true
        · have ih1 := ampFree_collapse2 p r hr true cs2 hamp.2
          simpa [collapseRuns2, hc, hc2, hr, ampFree] using ih1
        · have ih2 := ampFree_collapse2 p r hr false cs2 hamp.2
          have hb : ¬ c2 = '&' := by simpa using hamp.1
          have ha : ¬ c = '&' := by simpa using h.1
          simpa [collapseRuns2, hc, hc2, ha, hb, ampFree] using ih2
    · have ih2 := ampFree_collapse2 p r hr false cs (by simpa [ampFree] using h.2)
      simp only [ampFree] at ih2 ⊢
      simp [collapseRuns2, hc, ih2, h.1]

theorem jsTrim_eq_empty_iff (cs : List Char) : (jsTrim ⟨cs⟩ = "") ↔ allWs cs = true := by
  have hmk : ∀ l : List Char, ((⟨l⟩ : String) = "") ↔ l = [] := by
    intro l
    constructor
    · intro h
      have := congrArg String.data h
      simpa using this
    · intro h
      rw [h]
  have hdw : ∀ (l : List Char), (l.dropWhile (fun c => jsWhitespace c) = []) ↔ ∀ x ∈ l, jsWhitespace x :=
    fun l => List.dropWhile_eq_nil_iff
  constructor
  · intro h
    simp only [jsTrim, dropWhileWs] at h
    rw [hmk, List.reverse_eq_nil_iff, hdw] at h
    have h2 : ∀ x ∈ (⟨cs⟩ : String).data.dropWhile (fun c => jsWhitespace c), jsWhitespace x := by
      intro x hx
      exact h x (by rwa [List.mem_reverse])
    simp only [allWs, List.all_eq_true]
    intro x hx
    have hx' : x ∈ ((⟨cs⟩ : String).data.takeWhile (fun c => jsWhitespace c)) ++
        ((⟨cs⟩ : String).data.dropWhile (fun c => jsWhitespace c)) := by
      rw [List.takeWhile_append_dropWhile]
      exact hx
    rcases List.mem_append.1 hx' with h3 | h3
    · exact List.mem_takeWhile_imp h3
    · exact h2 x h3
  · intro h
    simp only [allWs, List.all_eq_true] at h
    simp only [jsTrim, dropWhileWs]
    rw [hmk, List.reverse_eq_nil_iff, hdw]
    intro x hx
    rw [List.mem_reverse] at hx
    exact h x ((List.dropWhile_sublist _).subset hx)

theorem collapsedTextEmpty_iff (s : String) (h : ampFree s.data = true) :
    collapsedTextEmpty s = true ↔ allWs s.data = true := by
  unfold collapsedTextEmpty
  rw [decide_eq_true_eq, jsTrim_eq_empty_iff,
    allWs_collapsePlus isTabSp ' ' isTabSp_ws (by decide), allWs_nbsp s.data h]

/-! ## Label-scanner and normalizeData lemmas -/

theorem allWs_labelColonAux (c0 : Char) (lab : List Char) (h0 : jsWhitespace c0 = false) :
    ∀ (f : Nat) (cs : List Char), allWs (labelColonAux (c0 :: lab) f cs) = allWs cs
  | f, [] => by cases f <;> rfl
  | 0, c :: rest => rfl
  | f + 1, c :: rest => by
    by_cases hm : headMatches (c0 :: lab) (c :: rest) = true
    · have hmc : c0 = c ∧ headMatches lab rest = true := by
        simpa only [headMatches, Bool.and_eq_true, decide_eq_true_eq] using hm
      have h0c : jsWhitespace c = false := hmc.1 ▸ h0
      cases hd : (c :: rest).drop (c0 :: lab).length with
      | nil =>
        simp only [labelColonAux]
        rw [if_pos hm, hd]
        dsimp only
        have ih := allWs_labelColonAux c0 lab h0 f rest
        simp only [allWs] at ih ⊢
        simp [ih]
      | cons colon rest2 =>
        by_cases hcol : (colon = '：' || colon = ':') = true
        · simp only [labelColonAux]
          rw [if_pos hm, hd]
          dsimp only
          rw [if_pos hcol]
          split
          · have ih := allWs_labelColonAux c0 lab h0 f rest
            simp only [allWs] at ih ⊢
            simp [ih]
          · simp [allWs, List.all_cons, List.all_append, h0, h0c]
        · simp only [labelColonAux]
          rw [if_pos hm, hd]
          dsimp only
          rw [if_neg hcol]
          have ih := allWs_labelColonAux c0 lab h0 f rest
          simp only [allWs] at ih ⊢
          simp [ih]
    · simp only [labelColonAux]
      rw [if_neg hm]
      have ih := allWs_labelColonAux c0 lab h0 f rest
      simp only [allWs] at ih ⊢
      simp [ih]

theorem allWs_labelPlainAux (c0 : Char) (lab : List Char) (h0 : jsWhitespace c0 = false) :
    ∀ (f : Nat) (cs : List Char), allWs (labelPlainAux (c0 :: lab) f cs) = allWs cs
  | f, [] => by cases f <;> rfl
  | 0, c :: rest => rfl
  | f + 1, c :: rest => by
    by_cases hm : headMatches (c0 :: lab) (c :: rest) = true
    · have hmc : c0 = c ∧ headMatches lab rest = true := by
        simpa only [headMatches, Bool.and_eq_true, decide_eq_true_eq] using hm
      have h0c : jsWhitespace c = false := hmc.1 ▸ h0
      cases hd : (c :: rest).drop (c0 :: lab).length with
      | nil =>
        simp only [labelPlainAux]
        rw [if_pos hm, hd]
        dsimp only
        simp [allWs, List.all_cons, List.all_append, h0, h0c]
      | cons x rest2 =>
        by_cases hx : (x = '\n' || x = '：' || x = ':') = true
        · simp only [labelPlainAux]
          rw [if_pos hm, hd]
          dsimp only
          rw [if_pos hx]
          have ih := allWs_labelPlainAux c0 lab h0 f rest
          simp only [allWs] at ih ⊢
          simp [ih]
        · simp only [labelPlainAux]
          rw [if_pos hm, hd]
          dsimp only
          rw [if_neg hx]
          simp [allWs, List.all_cons, List.all_append, h0, h0c]
    · simp only [labelPlainAux]
      rw [if_neg hm]
      have ih := allWs_labelPlainAux c0 lab h0 f rest
      simp only [allWs] at ih ⊢
      simp [ih]

theorem ampFree_labelColonAux (c0 : Char) (lab : List Char) (hl : ampFree (c0 :: lab) = true) :
    ∀ (f : Nat) (cs : List Char), ampFree cs = true → ampFree (labelColonAux (c0 :: lab) f cs) = true
  | f, [], _ => by cases f <;> rfl
  | 0, c :: rest, h => h
  | f + 1, c :: rest, h => by
    have hc : (!(c = '&') && ampFree rest) = true := by simpa [ampFree] using h
    simp only [Bool.and_eq_true] at hc
    by_cases hm : headMatches (c0 :: lab) (c :: rest) = true
    · cases hd : (c :: rest).drop (c0 :: lab).length with
      | nil =>
        simp only [labelColonAux]
        rw [if_pos hm, hd]
        dsimp only
        have ih := ampFree_labelColonAux c0 lab hl f rest hc.2
        simp only [ampFree] at ih ⊢
        simp [hc.1, ih]
      | cons colon rest2 =>
        have hsub : ampFree (colon :: rest2) = true := by
          apply ampFree_of_subset (c :: rest)
          · intro y hy
            have hsuf : List.IsSuffix (colon :: rest2) (c :: rest) := hd ▸ List.drop_suffix _ _
            exact hsuf.subset hy
          · exact h
        have hsplit2 : (!(colon = '&') && ampFree rest2) = true := by simpa [ampFree] using hsub
        simp only [Bool.and_eq_true] at hsplit2
        by_cases hcol : (colon = '：' || colon = ':') = true
        · simp only [labelColonAux]
          rw [if_pos hm, hd]
          dsimp only
          rw [if_pos hcol]
          split
          · have ih := ampFree_labelColonAux c0 lab hl f rest hc.2
            simp only [ampFree] at ih ⊢
            simp [hc.1, ih]
          · have ih := ampFree_labelColonAux c0 lab hl f rest2 hsplit2.2
            have hl2 : ¬c0 = '&' ∧ ∀ x ∈ lab, ¬x = '&' := by simpa [ampFree] using hl
            simp only [ampFree] at ih ⊢
            simp [List.all_append, ih, hsplit2.1, hl2.1]
            exact hl2.2
        · simp only [labelColonAux]
          rw [if_pos hm, hd]
          dsimp only
          rw [if_neg hcol]
          have ih := ampFree_labelColonAux c0 lab hl f rest hc.2
          simp only [ampFree] at ih ⊢
          simp [hc.1, ih]
    · simp only [labelColonAux]
      rw [if_neg hm]
      have ih := ampFree_labelColonAux c0 lab hl f rest hc.2
      simp only [ampFree] at ih ⊢
      simp [hc.1, ih]

theorem ampFree_labelPlainAux (c0 : Char) (lab : List Char) (hl : ampFree (c0 :: lab) = true) :
    ∀ (f : Nat) (cs : List Char), ampFree cs = true → ampFree (labelPlainAux (c0 :: lab) f cs) = true
  | f, [], _ => by cases f <;> rfl
  | 0, c :: rest, h => h
  | f + 1, c :: rest, h => by
    have hc : (!(c = '&') && ampFree rest) = true := by simpa [ampFree] using h
    simp only [Bool.and_eq_true] at hc
    by_cases hm : headMatches (c0 :: lab) (c :: rest) = true
    · cases hd : (c :: rest).drop (c0 :: lab).length with
      | nil =>
        simp only [labelPlainAux]
        rw [if_pos hm, hd]
        dsimp only
        have hl2 : ¬c0 = '&' ∧ ∀ x ∈ lab, ¬x = '&' := by simpa [ampFree] using hl
        simp [ampFree, List.all_append, hl2.1]
        exact hl2.2
      | cons x rest2 =>
        have hsub : ampFree (x :: rest2) = true := by
          apply ampFree_of_subset (c :: rest)
          · intro y hy
            have hsuf : List.IsSuffix (x :: rest2) (c :: rest) := hd ▸ List.drop_suffix _ _
            exact hsuf.subset hy
          · exact h
        by_cases hx : (x = '\n' || x = '：' || x = ':') = true
        · simp only [labelPlainAux]
          rw [if_pos hm, hd]
          dsimp only
          rw [if_pos hx]
          have ih := ampFree_labelPlainAux c0 lab hl f rest hc.2
          simp only [ampFree] at ih ⊢
          simp [hc.1, ih]
        · simp only [labelPlainAux]
          rw [if_pos hm, hd]
          dsimp only
          rw [if_neg hx]
          have ih := ampFree_labelPlainAux c0 lab hl f (x :: rest2) hsub
          have hl2 : ¬c0 = '&' ∧ ∀ x ∈ lab, ¬x = '&' := by simpa [ampFree] using hl
          simp only [ampFree] at ih ⊢
          simp [List.all_append, ih, hl2.1]
          exact hl2.2
    · simp only [labelPlainAux]
      rw [if_neg hm]
      have ih := ampFree_labelPlainAux c0 lab hl f rest hc.2
      simp only [ampFree] at ih ⊢
      simp [hc.1, ih]

theorem labelStep_props (acc : List Char) (lab : String)
    (hw : ∃ c0 t, lab.data = c0 :: t ∧ jsWhitespace c0 = false ∧ ampFree lab.data = true)
    (hacc : ampFree acc = true) :
    allWs (labelPlainAux lab.data acc.length (labelColonAux lab.data acc.length acc)) = allWs acc ∧
    ampFree (labelPlainAux lab.data acc.length (labelColonAux lab.data acc.length acc)) = true := by
  obtain ⟨c0, t, hdata, h0, hampl⟩ := hw
  rw [hdata] at hampl ⊢
  constructor
  · rw [allWs_labelPlainAux c0 t h0, allWs_labelColonAux c0 t h0]
  · exact ampFree_labelPlainAux c0 t hampl _ _ (ampFree_labelColonAux c0 t hampl _ _ hacc)

theorem labelFold_props :
    ∀ (ls : List String) (acc : List Char),
      (∀ lab ∈ ls, ∃ c0 t, lab.data = c0 :: t ∧ jsWhitespace c0 = false ∧ ampFree lab.data = true) →
      ampFree acc = true →
      allWs (ls.foldl (fun acc label =>
          labelPlainAux label.data acc.length (labelColonAux label.data acc.length acc)) acc) = allWs acc ∧
      ampFree (ls.foldl (fun acc label =>
          labelPlainAux label.data acc.length (labelColonAux label.data acc.length acc)) acc) = true
  | [], acc, _, hacc => ⟨rfl, hacc⟩
  | lab :: ls, acc, hl, hacc => by
    have hstep := labelStep_props acc lab (hl lab (by simp)) hacc
    have hrec := labelFold_props ls
      (labelPlainAux lab.data acc.length (labelColonAux lab.data acc.length acc))
      (fun l hm => hl l (by simp [hm])) hstep.2
    simp only [List.foldl_cons]
    exact ⟨hrec.1.trans hstep.1, hrec.2⟩

theorem labelWords_props :
    ∀ lab ∈ LABEL_WORDS, ∃ c0 t, lab.data = c0 :: t ∧ jsWhitespace c0 = false ∧ ampFree lab.data = true := by
  intro lab hm
  simp only [LABEL_WORDS, List.mem_cons, List.not_mem_nil, or_false] at hm
  rcases hm with rfl | rfl | rfl | rfl | rfl | rfl | rfl
  · exact ⟨'氏', "名".data, by decide, by decide, by decide⟩
  · exact ⟨'名', "前".data, by decide, by decide, by decide⟩
  · exact ⟨'専', "門".data, by decide, by decide, by decide⟩
  · exact ⟨'研', "究分野".data, by decide, by decide, by decide⟩
  · exact ⟨'R', "esearch field".data, by decide, by decide, by decide⟩
  · exact ⟨'F', "ield(s)".data, by decide, by decide, by decide⟩
  · exact ⟨'F', "ields".data, by decide, by decide, by decide⟩

theorem allWs_normalizeData (s : String) (h : ampFree s.data = true) :
    allWs (normalizeData s).data = allWs s.data := by
  have h1 := ampFree_nbsp s.data h
  have h2 := ampFree_collapse2 isTabSp ' ' (by decide) false (nbspEntityToSpace s.data) h1
  have h3 := ampFree_collapse2 (fun c => c = '\n') '\n' (by decide) false
    (collapseRuns2 isTabSp ' ' false (nbspEntityToSpace s.data)) h2
  have hf := labelFold_props LABEL_WORDS
    (collapseRuns2 (fun c => c = '\n') '\n' false
      (collapseRuns2 isTabSp ' ' false (nbspEntityToSpace s.data)))
    labelWords_props h3
  simp only [normalizeData]
  rw [hf.1, allWs_collapse2 (fun c => c = '\n') '\n' newlineChar_ws (by decide),
    allWs_collapse2 isTabSp ' ' isTabSp_ws (by decide), allWs_nbsp s.data h]

theorem ampFree_normalizeData (s : String) (h : ampFree s.data = true) :
    ampFree (normalizeData s).data = true := by
  have h1 := ampFree_nbsp s.data h
  have h2 := ampFree_collapse2 isTabSp ' ' (by decide) false (nbspEntityToSpace s.data) h1
  have h3 := ampFree_collapse2 (fun c => c = '\n') '\n' (by decide) false
    (collapseRuns2 isTabSp ' ' false (nbspEntityToSpace s.data)) h2
  have hf := labelFold_props LABEL_WORDS
    (collapseRuns2 (fun c => c = '\n') '\n' false
      (collapseRuns2 isTabSp ' ' false (nbspEntityToSpace s.data)))
    labelWords_props h3
  simp only [normalizeData]
  exact hf.2

/-! ## URL-shape lemmas: outputs of the resolver carry a scheme -/

theorem lowerChar_alpha (c : Char) (h : isAlphaChar c = true) : isAlphaChar (lowerChar c) = true := by
  unfold lowerChar
  by_cases hAZ : ('A' ≤ c && c ≤ 'Z') = true
  · rw [if_pos hAZ]
    simp only [Bool.and_eq_true, decide_eq_true_eq] at hAZ
    have hn1 : 65 ≤ c.toNat := hAZ.1
    have hn2 : c.toNat ≤ 90 := hAZ.2
    set n := c.toNat with hn
    interval_cases n <;> decide
  · rw [if_neg hAZ]
    exact h

theorem lowerChar_scheme (c : Char) (h : isSchemeChar c = true) : isSchemeChar (lowerChar c) = true := by
  unfold lowerChar
  by_cases hAZ : ('A' ≤ c && c ≤ 'Z') = true
  · rw [if_pos hAZ]
    simp only [Bool.and_eq_true, decide_eq_true_eq] at hAZ
    have hn1 : 65 ≤ c.toNat := hAZ.1
    have hn2 : c.toNat ≤ 90 := hAZ.2
    set n := c.toNat with hn
    interval_cases n <;> decide
  · rw [if_neg hAZ]
    exact h

theorem splitSchemeAux_all : ∀ (cs l r : List Char),
    splitSchemeAux cs = some (l, r) → l.all isSchemeChar = true
  | [], l, r => by
    intro h
    simp [splitSchemeAux] at h
  | c :: cs, l, r => by
    intro h
    by_cases hc : c = ':'
    · subst hc
      unfold splitSchemeAux at h
      rw [if_pos rfl] at h
      injection h with h2
      injection h2 with h3 h4
      rw [← h3]
      rfl
    · by_cases hs : isSchemeChar c = true
      · simp only [splitSchemeAux, if_neg hc, if_pos hs] at h
        cases hsp : splitSchemeAux cs with
        | none =>
          rw [hsp] at h
          simp at h
        | some pr =>
          rw [hsp] at h
          simp only [Option.some.injEq, Prod.mk.injEq] at h
          obtain ⟨h1, h2⟩ := h
          have ih := splitSchemeAux_all cs pr.1 pr.2 hsp
          simp [← h1, List.all_cons, hs, ih]
      · simp [splitSchemeAux, hc, hs] at h

theorem splitSchemeAux_mk : ∀ (l r : List Char),
    l.all isSchemeChar = true → splitSchemeAux (l ++ ':' :: r) = some (l, r)
  | [], r, _ => by simp [splitSchemeAux]
  | c :: l, r, h => by
    simp only [List.all_cons, Bool.and_eq_true] at h
    have hc : ¬ c = ':' := by
      intro he
      subst he
      exact absurd h.1 (by decide)
    simp [splitSchemeAux, hc, h.1, splitSchemeAux_mk l r h.2]

theorem schemeOkB_serialize (scheme host path : String) (h : schemeOkB scheme = true) :
    hasSchemeB (serializeUrl scheme host path) = true := by
  have hdata : (serializeUrl scheme host path).data
      = scheme.data ++ ':' :: '/' :: '/' :: (host.data ++ path.data) := by
    simp [serializeUrl, String.data_append]
  unfold hasSchemeB
  rw [hdata]
  unfold schemeOkB at h
  cases hs : scheme.data with
  | nil =>
    rw [hs] at h
    simp at h
  | cons c t =>
    rw [hs] at h
    simp only [Bool.and_eq_true] at h
    simp only [List.cons_append]
    unfold splitScheme
    dsimp only
    rw [if_pos h.1]
    rw [show c :: (t ++ ':' :: '/' :: '/' :: (host.data ++ path.data))
        = (c :: t) ++ ':' :: '/' :: '/' :: (host.data ++ path.data) from rfl]
    rw [splitSchemeAux_mk (c :: t) _ h.2]
    rfl

theorem schemeOk_lower_of_split (cs l r : List Char) (h : splitScheme cs = some (l, r)) :
    schemeOkB ⟨lowerList l⟩ = true := by
  unfold splitScheme at h
  cases cs with
  | nil => simp at h
  | cons c cs2 =>
    dsimp only at h
    by_cases ha : isAlphaChar c = true
    · rw [if_pos ha] at h
      have hall := splitSchemeAux_all (c :: cs2) l r h
      have hne : ¬ c = ':' := by
        intro he
        subst he
        exact absurd ha (by decide)
      have hs : isSchemeChar c = true := by simp [isSchemeChar, ha]
      unfold splitSchemeAux at h
      rw [if_neg hne, if_pos hs] at h
      cases hsp : splitSchemeAux cs2 with
      | none =>
        rw [hsp] at h
        simp at h
      | some pr =>
        rw [hsp] at h
        simp only [Option.some.injEq, Prod.mk.injEq] at h
        obtain ⟨h1, h2⟩ := h
        rw [← h1]
        have hall2 : (c :: pr.1).all isSchemeChar = true := by rw [h1]; exact hall
        simp only [List.all_cons, Bool.and_eq_true, List.all_eq_true] at hall2
        unfold schemeOkB lowerList
        simp only [List.map_cons]
        simp only [Bool.and_eq_true]
        constructor
        · exact lowerChar_alpha c ha
        · simp only [List.all_cons, List.all_eq_true, Bool.and_eq_true]
          constructor
          · exact lowerChar_scheme c hs
          · intro x hx
            rcases List.mem_map.1 hx with ⟨y, hy, rfl⟩
            exact lowerChar_scheme y (hall2.2 y hy)
    · rw [if_neg ha] at h
      simp at h

theorem parseUrlAbs_schemeOk (s : String) (b : UrlAbs) (h : parseUrlAbs s = some b) :
    schemeOkB b.scheme = true := by
  unfold parseUrlAbs at h
  cases hsp : splitScheme s.data with
  | none =>
    rw [hsp] at h
    simp at h
  | some r =>
    rw [hsp] at h
    dsimp only at h
    split at h <;>
      first
        | exact Option.noConfusion h
        | (split at h
           · exact Option.noConfusion h
           · simp only [Option.some.injEq] at h
             rw [← h]
             exact schemeOk_lower_of_split s.data r.1 r.2 (by rw [hsp]))

theorem urlResolve_hasScheme (v u out : String) (h : urlResolve v u = some out) :
    hasSchemeB out = true := by
  unfold urlResolve at h
  cases hb : parseUrlAbs u with
  | none =>
    rw [hb] at h
    simp at h
  | some b =>
    rw [hb] at h
    dsimp only at h
    have hbs : schemeOkB b.scheme = true := parseUrlAbs_schemeOk u b hb
    cases hsp : splitScheme (urlStrip v) with
    | some r =>
      rw [hsp] at h
      dsimp only at h
      split at h <;>
        first
          | exact Option.noConfusion h
          | (split at h
             · exact Option.noConfusion h
             · simp only [Option.some.injEq] at h
               rw [← h]
               exact schemeOkB_serialize _ _ _
                 (schemeOk_lower_of_split (urlStrip v) r.1 r.2 (by rw [hsp])))
          | (simp only [Option.some.injEq] at h
             rw [← h]
             show (splitScheme (urlStrip v)).isSome = true
             rw [hsp]
             rfl)
    | none =>
      rw [hsp] at h
      dsimp only at h
      split at h <;>
        first
          | exact Option.noConfusion h
          | (split at h
             · exact Option.noConfusion h
             · simp only [Option.some.injEq] at h
               rw [← h]
               exact schemeOkB_serialize _ _ _ hbs)
          | (simp only [Option.some.injEq] at h
             rw [← h]
             exact schemeOkB_serialize _ _ _ hbs)

theorem urlValOk_absolutizeUrl (u v : String) : urlValOk u (absolutizeUrl v u) = true := by
  unfold absolutizeUrl
  by_cases h0 : v = ""
  · rw [if_pos h0]
    simp [urlValOk, h0]
  · rw [if_neg h0]
    by_cases h1 : (isFragmentOnly v || isSpecialScheme v) = true
    · rw [if_pos h1]
      have h2 := h1
      rw [Bool.or_eq_true] at h2
      rcases h2 with h2 | h2 <;> simp [urlValOk, h2]
    · rw [if_neg h1]
      cases hr : urlResolve v u with
      | none => simp [urlValOk, hr]
      | some w => simp [urlValOk, urlResolve_hasScheme v u w hr]

/-! ## Attribute-list lemmas -/

theorem getAttr_setAttr : ∀ (a : List (String × String)) (k v : String),
    getAttr (setAttr a k v) k = some v
  | [], k, v => by simp [setAttr, getAttr, List.find?]
  | (n, w) :: rest, k, v => by
    by_cases hn : n = k
    · subst hn
      simp [setAttr, getAttr, List.find?]
    · simp only [setAttr, if_neg hn]
      have ih := getAttr_setAttr rest k v
      simp only [getAttr, List.find?] at ih ⊢
      simp [hn]
      exact ih

theorem getAttrD_blank (a : List (String × String)) (k : String) (h : getAttrD a k = "") :
    getAttr a k = none ∨ getAttr a k = some "" := by
  unfold getAttrD at h
  cases hg : getAttr a k with
  | none => exact Or.inl rfl
  | some w =>
    right
    rw [hg] at h
    simp only [Option.getD] at h
    rw [h]

theorem getAttr_filter_keepAttr : ∀ (a : List (String × String)) (k : String),
    keepAttr (k, "") = true → getAttr (a.filter keepAttr) k = getAttr a k
  | [], k, h => rfl
  | (n, w) :: rest, k, h => by
    have e1 : ∀ t : List (String × String), ¬ n = k → getAttr ((n, w) :: t) k = getAttr t k := by
      intro t hn
      simp [getAttr, List.find?, hn]
    by_cases hn : n = k
    · subst hn
      have hk : keepAttr (n, w) = true := h
      rw [List.filter_cons, if_pos hk]
      simp [getAttr, List.find?]
    · by_cases hk : keepAttr (n, w) = true
      · rw [List.filter_cons, if_pos hk, e1 _ hn, e1 _ hn]
        exact getAttr_filter_keepAttr rest k h
      · rw [List.filter_cons, if_neg hk, e1 _ hn]
        exact getAttr_filter_keepAttr rest k h

/-! ## Stage preservation: noise pass, forced-tag stripper, URL resolver -/

theorem isEmpty_true_eq_nil (l : List Node) (h : l.isEmpty = true) : l = [] := by
  cases l with
  | nil => rfl
  | cons x xs => simp [List.isEmpty] at h

theorem voidCond_of (t : String) (ch ch2 : List Node)
    (h : (!VOID_TAGS.contains t || ch.isEmpty) = true)
    (hnil : ch = [] → ch2 = []) : (!VOID_TAGS.contains t || ch2.isEmpty) = true := by
  rw [Bool.or_eq_true] at h ⊢
  rcases h with h | h
  · exact Or.inl h
  · right
    rw [hnil (isEmpty_true_eq_nil ch h)]
    rfl

mutual
theorem tame_noisePass (m : String → List (String × String) → Bool) :
    ∀ n : Node, tameNode n = true → tameL (noisePass m n) = true
  | .elem t a ch => by
    intro h
    simp only [tameNode, Bool.and_eq_true] at h
    simp only [noisePass]
    split
    · split
      · exact tame_noisePassL m ch h.2
      · rfl
    · have hvoid := voidCond_of t ch (noisePassL m ch) h.1 (fun he => by subst he; rfl)
      simp only [tameL, tameNode, Bool.and_true, Bool.and_eq_true]
      exact ⟨hvoid, tame_noisePassL m ch h.2⟩
  | .text s => by
    intro h
    simpa [noisePass, tameL, tameNode] using h
  | .comment s => by
    intro _
    simp [noisePass, tameL, tameNode]
theorem tame_noisePassL (m : String → List (String × String) → Bool) :
    ∀ l : List Node, tameL l = true → tameL (noisePassL m l) = true
  | [] => by intro h; exact h
  | n :: l => by
    intro h
    simp only [tameL, Bool.and_eq_true] at h
    simp [noisePassL, tameL_append, tame_noisePass m n h.1, tame_noisePassL m l h.2]
end

mutual
theorem removeForced_tame : ∀ n : Node, tameNode n = true →
    tameL (removeForcedNode n) = true ∧ noForcedL (removeForcedNode n) = true
  | .elem t a ch => by
    intro h
    simp only [tameNode, Bool.and_eq_true] at h
    by_cases hf : FORCE_REMOVE_TAGS.contains t = true
    · have hf2 : t ∈ FORCE_REMOVE_TAGS := by simpa using hf
      simp [removeForcedNode, hf2, tameL, noForcedL]
    · have ih := removeForcedL_tame ch h.2
      have hf2 : t ∉ FORCE_REMOVE_TAGS := by simpa using hf
      have hvoid := voidCond_of t ch (removeForcedL ch) h.1 (fun he => by subst he; rfl)
      constructor
      · simp only [removeForcedNode]
        rw [if_neg hf]
        simp only [tameL, tameNode, Bool.and_true, Bool.and_eq_true]
        exact ⟨hvoid, ih.1⟩
      · simp only [removeForcedNode]
        rw [if_neg hf]
        simp only [noForcedL, noForcedNode, Bool.and_true, Bool.and_eq_true]
        refine ⟨?_, ih.2⟩
        simpa using hf2
  | .text s => by
    intro h
    refine ⟨?_, by simp [removeForcedNode, noForcedL, noForcedNode]⟩
    simpa [removeForcedNode, tameL, tameNode] using h
  | .comment s => by
    intro _
    exact ⟨by simp [removeForcedNode, tameL, tameNode],
      by simp [removeForcedNode, noForcedL, noForcedNode]⟩
theorem removeForcedL_tame : ∀ l : List Node, tameL l = true →
    tameL (removeForcedL l) = true ∧ noForcedL (removeForcedL l) = true
  | [] => by intro _; exact ⟨rfl, rfl⟩
  | n :: l => by
    intro h
    simp only [tameL, Bool.and_eq_true] at h
    have ih1 := removeForced_tame n h.1
    have ih2 := removeForcedL_tame l h.2
    constructor
    · simp [removeForcedL, tameL_append, ih1.1, ih2.1]
    · simp [removeForcedL, noForcedL_append, ih1.2, ih2.2]
end

mutual
theorem absolutize_inv (u : String) : ∀ n : Node, tameNode n = true → noForcedNode n = true →
    tameNode (absolutizeNode u n) = true ∧ noForcedNode (absolutizeNode u n) = true ∧
    urlsOkNode u (absolutizeNode u n) = true
  | .elem t a ch => by
    intro ht hf
    simp only [tameNode, Bool.and_eq_true] at ht
    simp only [noForcedNode, Bool.and_eq_true] at hf
    have ihl := absolutizeL_inv u ch ht.2 hf.2
    have hvoid := voidCond_of t ch (absolutizeLinksAndImagesL u ch) ht.1 (fun he => by subst he; rfl)
    refine ⟨?_, ?_, ?_⟩
    · simp only [absolutizeNode, tameNode, Bool.and_eq_true]
      exact ⟨hvoid, ihl.1⟩
    · simp only [absolutizeNode, noForcedNode, Bool.and_eq_true]
      exact ⟨hf.1, ihl.2.1⟩
    · by_cases hta : t = "a"
      · subst hta
        cases hh : getAttr a "href" with
        | none => simp [absolutizeNode, urlsOkNode, hh, ihl.2.2]
        | some href =>
          by_cases hhe : href = ""
          · subst hhe
            simp [absolutizeNode, urlsOkNode, hh, urlValOk, ihl.2.2]
          · simp [absolutizeNode, urlsOkNode, hh, hhe, getAttr_setAttr,
              urlValOk_absolutizeUrl, ihl.2.2]
      · by_cases hti : t = "img"
        · subst hti
          have hsrc : (match getAttr (imgAttrs u a) "src" with
              | some v => urlValOk u v
              | none => true) = true := by
            unfold imgAttrs
            dsimp only
            by_cases hbl : (getAttrD a "src" = "" || jsTrim (getAttrD a "src") = "") = true
            · rw [if_pos hbl]
              by_cases hcand : lazyCandidate a ≠ ""
              · rw [if_pos hcand]
                dsimp only
                rw [if_pos hcand, getAttr_setAttr]
                simp [urlValOk_absolutizeUrl]
              · rw [if_neg hcand]
                dsimp only
                by_cases h2 : getAttrD a "src" ≠ ""
                · rw [if_pos h2, getAttr_setAttr]
                  simp [urlValOk_absolutizeUrl]
                · rw [if_neg h2]
                  rcases getAttrD_blank a "src" (not_not.mp h2) with hg | hg <;>
                    simp [hg, urlValOk]
            · rw [if_neg hbl]
              dsimp only
              have h2 : getAttrD a "src" ≠ "" := by
                intro he
                apply hbl
                simp [he]
              rw [if_pos h2, getAttr_setAttr]
              simp [urlValOk_absolutizeUrl]
          simp [absolutizeNode, urlsOkNode, hta, hsrc, ihl.2.2]
        · simp [absolutizeNode, urlsOkNode, hta, hti, ihl.2.2]
  | .text s => by
    intro ht hf
    exact ⟨by simpa [absolutizeNode, tameNode] using ht,
      by simp [absolutizeNode, noForcedNode], by simp [absolutizeNode, urlsOkNode]⟩
  | .comment s => by
    intro ht hf
    exact ⟨by simp [absolutizeNode, tameNode],
      by simp [absolutizeNode, noForcedNode], by simp [absolutizeNode, urlsOkNode]⟩
theorem absolutizeL_inv (u : String) : ∀ l : List Node, tameL l = true → noForcedL l = true →
    tameL (absolutizeLinksAndImagesL u l) = true ∧ noForcedL (absolutizeLinksAndImagesL u l) = true ∧
    urlsOkL u (absolutizeLinksAndImagesL u l) = true
  | [] => by intro _ _; exact ⟨rfl, rfl, rfl⟩
  | n :: l => by
    intro ht hf
    simp only [tameL, Bool.and_eq_true] at ht
    simp only [noForcedL, Bool.and_eq_true] at hf
    have ih1 := absolutize_inv u n ht.1 hf.1
    have ih2 := absolutizeL_inv u l ht.2 hf.2
    refine ⟨?_, ?_, ?_⟩ <;>
      simp [absolutizeLinksAndImagesL, tameL, noForcedL, urlsOkL,
        ih1.1, ih1.2.1, ih1.2.2, ih2.1, ih2.2.1, ih2.2.2]
end

/-! ## Stage preservation: form-control simplifier -/

mutual
theorem replaceOptions_inv3 (u : String) : ∀ n : Node, tameNode n = true → noForcedNode n = true →
    urlsOkNode u n = true →
    tameL (replaceOptionsNode n) = true ∧ noForcedL (replaceOptionsNode n) = true ∧
    urlsOkL u (replaceOptionsNode n) = true
  | .elem t a ch => by
    intro ht hf hu
    simp only [tameNode, Bool.and_eq_true] at ht
    simp only [noForcedNode, Bool.and_eq_true] at hf
    simp only [urlsOkNode, Bool.and_eq_true] at hu
    by_cases hopt : t = "option"
    · subst hopt
      simp only [replaceOptionsNode, if_pos rfl]
      by_cases he : jsTrim (textContentL ch) = ""
      · rw [if_pos he]
        exact ⟨rfl, rfl, rfl⟩
      · rw [if_neg he]
        refine ⟨?_, by simp [noForcedL, noForcedNode], by simp [urlsOkL, urlsOkNode]⟩
        simp only [tameL, tameNode, Bool.and_true]
        exact ampFree_jsTrim _ (tame_textContentL ch ht.2)
    · simp only [replaceOptionsNode, if_neg hopt]
      have ihl := replaceOptionsL_inv3 u ch ht.2 hf.2 hu.2.2
      have hvoid := voidCond_of t ch (replaceOptionsL ch) ht.1 (fun he => by subst he; rfl)
      refine ⟨?_, ?_, ?_⟩
      · simp only [tameL, tameNode, Bool.and_true, Bool.and_eq_true]
        exact ⟨hvoid, ihl.1⟩
      · simp only [noForcedL, noForcedNode, Bool.and_true, Bool.and_eq_true]
        exact ⟨hf.1, ihl.2.1⟩
      · simp only [urlsOkL, urlsOkNode, Bool.and_true, Bool.and_eq_true]
        exact ⟨hu.1, hu.2.1, ihl.2.2⟩
  | .text s => by
    intro ht _ _
    exact ⟨by simpa [replaceOptionsNode, tameL, tameNode] using ht,
      by simp [replaceOptionsNode, noForcedL, noForcedNode],
      by simp [replaceOptionsNode, urlsOkL, urlsOkNode]⟩
  | .comment s => by
    intro _ _ _
    exact ⟨by simp [replaceOptionsNode, tameL, tameNode],
      by simp [replaceOptionsNode, noForcedL, noForcedNode],
      by simp [replaceOptionsNode, urlsOkL, urlsOkNode]⟩
theorem replaceOptionsL_inv3 (u : String) : ∀ l : List Node, tameL l = true → noForcedL l = true →
    urlsOkL u l = true →
    tameL (replaceOptionsL l) = true ∧ noForcedL (replaceOptionsL l) = true ∧
    urlsOkL u (replaceOptionsL l) = true
  | [] => by intro _ _ _; exact ⟨rfl, rfl, rfl⟩
  | n :: l => by
    intro ht hf hu
    simp only [tameL, Bool.and_eq_true] at ht
    simp only [noForcedL, Bool.and_eq_true] at hf
    simp only [urlsOkL, Bool.and_eq_true] at hu
    have ih1 := replaceOptions_inv3 u n ht.1 hf.1 hu.1
    have ih2 := replaceOptionsL_inv3 u l ht.2 hf.2 hu.2
    refine ⟨?_, ?_, ?_⟩ <;>
      simp [replaceOptionsL, tameL_append, noForcedL_append, urlsOkL_append,
        ih1.1, ih1.2.1, ih1.2.2, ih2.1, ih2.2.1, ih2.2.2]
end

mutual
theorem unwrapSelLike_inv3 (u : String) : ∀ n : Node, tameNode n = true → noForcedNode n = true →
    urlsOkNode u n = true →
    tameL (unwrapSelLikeNode n) = true ∧ noForcedL (unwrapSelLikeNode n) = true ∧
    urlsOkL u (unwrapSelLikeNode n) = true
  | .elem t a ch => by
    intro ht hf hu
    simp only [tameNode, Bool.and_eq_true] at ht
    simp only [noForcedNode, Bool.and_eq_true] at hf
    simp only [urlsOkNode, Bool.and_eq_true] at hu
    have ihl := unwrapSelLikeL_inv3 u ch ht.2 hf.2 hu.2.2
    by_cases hsel : isSelLike t = true
    · simp only [unwrapSelLikeNode, if_pos hsel]
      exact ihl
    · simp only [unwrapSelLikeNode, if_neg hsel]
      have hvoid := voidCond_of t ch (unwrapSelLikeL ch) ht.1 (fun he => by subst he; rfl)
      refine ⟨?_, ?_, ?_⟩
      · simp only [tameL, tameNode, Bool.and_true, Bool.and_eq_true]
        exact ⟨hvoid, ihl.1⟩
      · simp only [noForcedL, noForcedNode, Bool.and_true, Bool.and_eq_true]
        exact ⟨hf.1, ihl.2.1⟩
      · simp only [urlsOkL, urlsOkNode, Bool.and_true, Bool.and_eq_true]
        exact ⟨hu.1, hu.2.1, ihl.2.2⟩
  | .text s => by
    intro ht _ _
    exact ⟨by simpa [unwrapSelLikeNode, tameL, tameNode] using ht,
      by simp [unwrapSelLikeNode, noForcedL, noForcedNode],
      by simp [unwrapSelLikeNode, urlsOkL, urlsOkNode]⟩
  | .comment s => by
    intro _ _ _
    exact ⟨by simp [unwrapSelLikeNode, tameL, tameNode],
      by simp [unwrapSelLikeNode, noForcedL, noForcedNode],
      by simp [unwrapSelLikeNode, urlsOkL, urlsOkNode]⟩
theorem unwrapSelLikeL_inv3 (u : String) : ∀ l : List Node, tameL l = true → noForcedL l = true →
    urlsOkL u l = true →
    tameL (unwrapSelLikeL l) = true ∧ noForcedL (unwrapSelLikeL l) = true ∧
    urlsOkL u (unwrapSelLikeL l) = true
  | [] => by intro _ _ _; exact ⟨rfl, rfl, rfl⟩
  | n :: l => by
    intro ht hf hu
    simp only [tameL, Bool.and_eq_true] at ht
    simp only [noForcedL, Bool.and_eq_true] at hf
    simp only [urlsOkL, Bool.and_eq_true] at hu
    have ih1 := unwrapSelLike_inv3 u n ht.1 hf.1 hu.1
    have ih2 := unwrapSelLikeL_inv3 u l ht.2 hf.2 hu.2
    refine ⟨?_, ?_, ?_⟩ <;>
      simp [unwrapSelLikeL, tameL_append, noForcedL_append, urlsOkL_append,
        ih1.1, ih1.2.1, ih1.2.2, ih2.1, ih2.2.1, ih2.2.2]
end

mutual
theorem selectPass_inv3 (u : String) : ∀ n : Node, tameNode n = true → noForcedNode n = true →
    urlsOkNode u n = true →
    tameL (selectPassNode n) = true ∧ noForcedL (selectPassNode n) = true ∧
    urlsOkL u (selectPassNode n) = true
  | .elem t a ch => by
    intro ht hf hu
    simp only [tameNode, Bool.and_eq_true] at ht
    simp only [noForcedNode, Bool.and_eq_true] at hf
    simp only [urlsOkNode, Bool.and_eq_true] at hu
    by_cases hsel : isSelLike t = true
    · simp only [selectPassNode, if_pos hsel]
      by_cases hbig : (20 ≤ countOptionsL ch || 200 ≤ optionsTextLenL ch) = true
      · rw [if_pos hbig]
        exact ⟨rfl, rfl, rfl⟩
      · rw [if_neg hbig]
        have h1 := replaceOptionsL_inv3 u ch ht.2 hf.2 hu.2.2
        exact unwrapSelLikeL_inv3 u _ h1.1 h1.2.1 h1.2.2
    · simp only [selectPassNode, if_neg hsel]
      have ihl := selectPassL_inv3 u ch ht.2 hf.2 hu.2.2
      have hvoid := voidCond_of t ch (selectPassL ch) ht.1 (fun he => by subst he; rfl)
      refine ⟨?_, ?_, ?_⟩
      · simp only [tameL, tameNode, Bool.and_true, Bool.and_eq_true]
        exact ⟨hvoid, ihl.1⟩
      · simp only [noForcedL, noForcedNode, Bool.and_true, Bool.and_eq_true]
        exact ⟨hf.1, ihl.2.1⟩
      · simp only [urlsOkL, urlsOkNode, Bool.and_true, Bool.and_eq_true]
        exact ⟨hu.1, hu.2.1, ihl.2.2⟩
  | .text s => by
    intro ht _ _
    exact ⟨by simpa [selectPassNode, tameL, tameNode] using ht,
      by simp [selectPassNode, noForcedL, noForcedNode],
      by simp [selectPassNode, urlsOkL, urlsOkNode]⟩
  | .comment s => by
    intro _ _ _
    exact ⟨by simp [selectPassNode, tameL, tameNode],
      by simp [selectPassNode, noForcedL, noForcedNode],
      by simp [selectPassNode, urlsOkL, urlsOkNode]⟩
theorem selectPassL_inv3 (u : String) : ∀ l : List Node, tameL l = true → noForcedL l = true →
    urlsOkL u l = true →
    tameL (selectPassL l) = true ∧ noForcedL (selectPassL l) = true ∧
    urlsOkL u (selectPassL l) = true
  | [] => by intro _ _ _; exact ⟨rfl, rfl, rfl⟩
  | n :: l => by
    intro ht hf hu
    simp only [tameL, Bool.and_eq_true] at ht
    simp only [noForcedL, Bool.and_eq_true] at hf
    simp only [urlsOkL, Bool.and_eq_true] at hu
    have ih1 := selectPass_inv3 u n ht.1 hf.1 hu.1
    have ih2 := selectPassL_inv3 u l ht.2 hf.2 hu.2
    refine ⟨?_, ?_, ?_⟩ <;>
      simp [selectPassL, tameL_append, noForcedL_append, urlsOkL_append,
        ih1.1, ih1.2.1, ih1.2.2, ih2.1, ih2.2.1, ih2.2.2]
end

mutual
theorem controlsPass_inv3 (u : String) : ∀ n : Node, tameNode n = true → noForcedNode n = true →
    urlsOkNode u n = true →
    tameL (controlsPassNode n) = true ∧ noForcedL (controlsPassNode n) = true ∧
    urlsOkL u (controlsPassNode n) = true
  | .elem t a ch => by
    intro ht hf hu
    simp only [tameNode, Bool.and_eq_true] at ht
    simp only [noForcedNode, Bool.and_eq_true] at hf
    simp only [urlsOkNode, Bool.and_eq_true] at hu
    have ihl := controlsPassL_inv3 u ch ht.2 hf.2 hu.2.2
    have hvoid := voidCond_of t ch (controlsPassL ch) ht.1 (fun he => by subst he; rfl)
    have hkeep : tameL [Node.elem t a (controlsPassL ch)] = true ∧
        noForcedL [Node.elem t a (controlsPassL ch)] = true ∧
        urlsOkL u [Node.elem t a (controlsPassL ch)] = true := by
      refine ⟨?_, ?_, ?_⟩
      · simp only [tameL, tameNode, Bool.and_true, Bool.and_eq_true]
        exact ⟨hvoid, ihl.1⟩
      · simp only [noForcedL, noForcedNode, Bool.and_true, Bool.and_eq_true]
        exact ⟨hf.1, ihl.2.1⟩
      · simp only [urlsOkL, urlsOkNode, Bool.and_true, Bool.and_eq_true]
        exact ⟨hu.1, hu.2.1, ihl.2.2⟩
    by_cases hctl : isCtlTag t = true
    · simp only [controlsPassNode, if_pos hctl]
      by_cases he : jsTrim (jsOrStr (textContentL ch) (getAttrD a "value")) = ""
      · rw [if_pos he]
        exact ⟨rfl, rfl, rfl⟩
      · rw [if_neg he]
        exact hkeep
    · simp only [controlsPassNode, if_neg hctl]
      exact hkeep
  | .text s => by
    intro ht _ _
    exact ⟨by simpa [controlsPassNode, tameL, tameNode] using ht,
      by simp [controlsPassNode, noForcedL, noForcedNode],
      by simp [controlsPassNode, urlsOkL, urlsOkNode]⟩
  | .comment s => by
    intro _ _ _
    exact ⟨by simp [controlsPassNode, tameL, tameNode],
      by simp [controlsPassNode, noForcedL, noForcedNode],
      by simp [controlsPassNode, urlsOkL, urlsOkNode]⟩
theorem controlsPassL_inv3 (u : String) : ∀ l : List Node, tameL l = true → noForcedL l = true →
    urlsOkL u l = true →
    tameL (controlsPassL l) = true ∧ noForcedL (controlsPassL l) = true ∧
    urlsOkL u (controlsPassL l) = true
  | [] => by intro _ _ _; exact ⟨rfl, rfl, rfl⟩
  | n :: l => by
    intro ht hf hu
    simp only [tameL, Bool.and_eq_true] at ht
    simp only [noForcedL, Bool.and_eq_true] at hf
    simp only [urlsOkL, Bool.and_eq_true] at hu
    have ih1 := controlsPass_inv3 u n ht.1 hf.1 hu.1
    have ih2 := controlsPassL_inv3 u l ht.2 hf.2 hu.2
    refine ⟨?_, ?_, ?_⟩ <;>
      simp [controlsPassL, tameL_append, noForcedL_append, urlsOkL_append,
        ih1.1, ih1.2.1, ih1.2.2, ih2.1, ih2.2.1, ih2.2.2]
end

/-! ## Stage preservation: attribute sanitizer, empty-block pruner, finalization stages -/

mutual
theorem cleanAttributes_inv3 (u : String) : ∀ n : Node, tameNode n = true → noForcedNode n = true →
    urlsOkNode u n = true →
    tameNode (cleanAttributesNode n) = true ∧ noForcedNode (cleanAttributesNode n) = true ∧
    urlsOkNode u (cleanAttributesNode n) = true
  | .elem t a ch => by
    intro ht hf hu
    simp only [tameNode, Bool.and_eq_true] at ht
    simp only [noForcedNode, Bool.and_eq_true] at hf
    simp only [urlsOkNode, Bool.and_eq_true] at hu
    have ihl := cleanAttributesL_inv3 u ch ht.2 hf.2 hu.2.2
    have hvoid := voidCond_of t ch (cleanAttributesL ch) ht.1 (fun he => by subst he; rfl)
    refine ⟨?_, ?_, ?_⟩
    · simp only [cleanAttributesNode, tameNode, Bool.and_eq_true]
      exact ⟨hvoid, ihl.1⟩
    · simp only [cleanAttributesNode, noForcedNode, Bool.and_eq_true]
      exact ⟨hf.1, ihl.2.1⟩
    · simp only [cleanAttributesNode, urlsOkNode, Bool.and_eq_true]
      refine ⟨?_, ?_, ihl.2.2⟩
      · by_cases hta : t = "a"
        · have hA := hu.1
          rw [if_pos hta] at hA ⊢
          rw [getAttr_filter_keepAttr a "href" (by decide)]
          exact hA
        · rw [if_neg hta]
      · by_cases hti : t = "img"
        · have hB := hu.2.1
          rw [if_pos hti] at hB ⊢
          rw [getAttr_filter_keepAttr a "src" (by decide)]
          exact hB
        · rw [if_neg hti]
  | .text s => by
    intro ht _ _
    exact ⟨by simpa [cleanAttributesNode, tameNode] using ht,
      by simp [cleanAttributesNode, noForcedNode],
      by simp [cleanAttributesNode, urlsOkNode]⟩
  | .comment s => by
    intro _ _ _
    exact ⟨by simp [cleanAttributesNode, tameNode],
      by simp [cleanAttributesNode, noForcedNode],
      by simp [cleanAttributesNode, urlsOkNode]⟩
theorem cleanAttributesL_inv3 (u : String) : ∀ l : List Node, tameL l = true → noForcedL l = true →
    urlsOkL u l = true →
    tameL (cleanAttributesL l) = true ∧ noForcedL (cleanAttributesL l) = true ∧
    urlsOkL u (cleanAttributesL l) = true
  | [] => by intro _ _ _; exact ⟨rfl, rfl, rfl⟩
  | n :: l => by
    intro ht hf hu
    simp only [tameL, Bool.and_eq_true] at ht
    simp only [noForcedL, Bool.and_eq_true] at hf
    simp only [urlsOkL, Bool.and_eq_true] at hu
    have ih1 := cleanAttributes_inv3 u n ht.1 hf.1 hu.1
    have ih2 := cleanAttributesL_inv3 u l ht.2 hf.2 hu.2
    refine ⟨?_, ?_, ?_⟩ <;>
      simp [cleanAttributesL, tameL, noForcedL, urlsOkL,
        ih1.1, ih1.2.1, ih1.2.2, ih2.1, ih2.2.1, ih2.2.2]
end

mutual
theorem removeEmptyBlocks_inv3 (u : String) : ∀ n : Node, tameNode n = true → noForcedNode n = true →
    urlsOkNode u n = true →
    tameL (removeEmptyBlocksNode n) = true ∧ noForcedL (removeEmptyBlocksNode n) = true ∧
    urlsOkL u (removeEmptyBlocksNode n) = true
  | .elem t a ch => by
    intro ht hf hu
    simp only [tameNode, Bool.and_eq_true] at ht
    simp only [noForcedNode, Bool.and_eq_true] at hf
    simp only [urlsOkNode, Bool.and_eq_true] at hu
    by_cases hrm : (REMOVABLE_TAGS.contains t && !hasUsefulL ch &&
        collapsedTextEmpty (textContentL ch)) = true
    · simp only [removeEmptyBlocksNode]
      rw [if_pos hrm]
      exact ⟨rfl, rfl, rfl⟩
    · simp only [removeEmptyBlocksNode]
      rw [if_neg hrm]
      have ihl := removeEmptyBlocksL_inv3 u ch ht.2 hf.2 hu.2.2
      have hvoid := voidCond_of t ch (removeEmptyBlocksL ch) ht.1 (fun he => by subst he; rfl)
      refine ⟨?_, ?_, ?_⟩
      · simp only [tameL, tameNode, Bool.and_true, Bool.and_eq_true]
        exact ⟨hvoid, ihl.1⟩
      · simp only [noForcedL, noForcedNode, Bool.and_true, Bool.and_eq_true]
        exact ⟨hf.1, ihl.2.1⟩
      · simp only [urlsOkL, urlsOkNode, Bool.and_true, Bool.and_eq_true]
        exact ⟨hu.1, hu.2.1, ihl.2.2⟩
  | .text s => by
    intro ht _ _
    exact ⟨by simpa [removeEmptyBlocksNode, tameL, tameNode] using ht,
      by simp [removeEmptyBlocksNode, noForcedL, noForcedNode],
      by simp [removeEmptyBlocksNode, urlsOkL, urlsOkNode]⟩
  | .comment s => by
    intro _ _ _
    exact ⟨by simp [removeEmptyBlocksNode, tameL, tameNode],
      by simp [removeEmptyBlocksNode, noForcedL, noForcedNode],
      by simp [removeEmptyBlocksNode, urlsOkL, urlsOkNode]⟩
theorem removeEmptyBlocksL_inv3 (u : String) : ∀ l : List Node, tameL l = true → noForcedL l = true →
    urlsOkL u l = true →
    tameL (removeEmptyBlocksL l) = true ∧ noForcedL (removeEmptyBlocksL l) = true ∧
    urlsOkL u (removeEmptyBlocksL l) = true
  | [] => by intro _ _ _; exact ⟨rfl, rfl, rfl⟩
  | n :: l => by
    intro ht hf hu
    simp only [tameL, Bool.and_eq_true] at ht
    simp only [noForcedL, Bool.and_eq_true] at hf
    simp only [urlsOkL, Bool.and_eq_true] at hu
    have ih1 := removeEmptyBlocks_inv3 u n ht.1 hf.1 hu.1
    have ih2 := removeEmptyBlocksL_inv3 u l ht.2 hf.2 hu.2
    refine ⟨?_, ?_, ?_⟩ <;>
      simp [removeEmptyBlocksL, tameL_append, noForcedL_append, urlsOkL_append,
        ih1.1, ih1.2.1, ih1.2.2, ih2.1, ih2.2.1, ih2.2.2]
end

mutual
theorem compressBr_inv3 (u : String) : ∀ n : Node, tameNode n = true → noForcedNode n = true →
    urlsOkNode u n = true →
    tameNode (compressBrNode n) = true ∧ noForcedNode (compressBrNode n) = true ∧
    urlsOkNode u (compressBrNode n) = true
  | .elem t a ch => by
    intro ht hf hu
    simp only [tameNode, Bool.and_eq_true] at ht
    simp only [noForcedNode, Bool.and_eq_true] at hf
    simp only [urlsOkNode, Bool.and_eq_true] at hu
    have ihl := compressBrL_inv3 u false ch ht.2 hf.2 hu.2.2
    have hvoid := voidCond_of t ch (compressBrL false ch) ht.1 (fun he => by subst he; rfl)
    refine ⟨?_, ?_, ?_⟩
    · simp only [compressBrNode, tameNode, Bool.and_eq_true]
      exact ⟨hvoid, ihl.1⟩
    · simp only [compressBrNode, noForcedNode, Bool.and_eq_true]
      exact ⟨hf.1, ihl.2.1⟩
    · simp only [compressBrNode, urlsOkNode, Bool.and_eq_true]
      exact ⟨hu.1, hu.2.1, ihl.2.2⟩
  | .text s => by
    intro ht _ _
    exact ⟨by simpa [compressBrNode, tameNode] using ht,
      by simp [compressBrNode, noForcedNode],
      by simp [compressBrNode, urlsOkNode]⟩
  | .comment s => by
    intro _ _ _
    exact ⟨by simp [compressBrNode, tameNode],
      by simp [compressBrNode, noForcedNode],
      by simp [compressBrNode, urlsOkNode]⟩
theorem compressBrL_inv3 (u : String) : ∀ (b : Bool) (l : List Node),
    tameL l = true → noForcedL l = true → urlsOkL u l = true →
    tameL (compressBrL b l) = true ∧ noForcedL (compressBrL b l) = true ∧
    urlsOkL u (compressBrL b l) = true
  | b, [] => by intro _ _ _; cases b <;> exact ⟨rfl, rfl, rfl⟩
  | b, n :: l => by
    intro ht hf hu
    simp only [tameL, Bool.and_eq_true] at ht
    simp only [noForcedL, Bool.and_eq_true] at hf
    simp only [urlsOkL, Bool.and_eq_true] at hu
    have ih1 := compressBr_inv3 u n ht.1 hf.1 hu.1
    by_cases hbr : isBrElem n = true
    · cases b with
      | true =>
        simp only [compressBrL]
        rw [if_pos hbr]
        simp only [if_pos]
        exact compressBrL_inv3 u true l ht.2 hf.2 hu.2
      | false =>
        simp only [compressBrL]
        rw [if_pos hbr]
        have ih2 := compressBrL_inv3 u true l ht.2 hf.2 hu.2
        refine ⟨?_, ?_, ?_⟩ <;>
          simp [tameL, noForcedL, urlsOkL, ih1.1, ih1.2.1, ih1.2.2, ih2.1, ih2.2.1, ih2.2.2]
    · simp only [compressBrL]
      rw [if_neg hbr]
      have ih2 := compressBrL_inv3 u false l ht.2 hf.2 hu.2
      refine ⟨?_, ?_, ?_⟩ <;>
        simp [tameL, noForcedL, urlsOkL, ih1.1, ih1.2.1, ih1.2.2, ih2.1, ih2.2.1, ih2.2.2]
end

mutual
theorem normalizeText_inv3 (u : String) : ∀ n : Node, tameNode n = true → noForcedNode n = true →
    urlsOkNode u n = true →
    tameNode (normalizeTextNode n) = true ∧ noForcedNode (normalizeTextNode n) = true ∧
    urlsOkNode u (normalizeTextNode n) = true
  | .elem t a ch => by
    intro ht hf hu
    simp only [tameNode, Bool.and_eq_true] at ht
    simp only [noForcedNode, Bool.and_eq_true] at hf
    simp only [urlsOkNode, Bool.and_eq_true] at hu
    have ihl := normalizeTextL_inv3 u ch ht.2 hf.2 hu.2.2
    have hvoid := voidCond_of t ch (normalizeTextL ch) ht.1 (fun he => by subst he; rfl)
    refine ⟨?_, ?_, ?_⟩
    · simp only [normalizeTextNode, tameNode, Bool.and_eq_true]
      exact ⟨hvoid, ihl.1⟩
    · simp only [normalizeTextNode, noForcedNode, Bool.and_eq_true]
      exact ⟨hf.1, ihl.2.1⟩
    · simp only [normalizeTextNode, urlsOkNode, Bool.and_eq_true]
      exact ⟨hu.1, hu.2.1, ihl.2.2⟩
  | .text s => by
    intro ht _ _
    refine ⟨?_, by simp [normalizeTextNode, noForcedNode],
      by simp [normalizeTextNode, urlsOkNode]⟩
    simp only [normalizeTextNode, tameNode]
    exact ampFree_normalizeData s (by simpa [tameNode] using ht)
  | .comment s => by
    intro _ _ _
    exact ⟨by simp [normalizeTextNode, tameNode],
      by simp [normalizeTextNode, noForcedNode],
      by simp [normalizeTextNode, urlsOkNode]⟩
theorem normalizeTextL_inv3 (u : String) : ∀ l : List Node, tameL l = true → noForcedL l = true →
    urlsOkL u l = true →
    tameL (normalizeTextL l) = true ∧ noForcedL (normalizeTextL l) = true ∧
    urlsOkL u (normalizeTextL l) = true
  | [] => by intro _ _ _; exact ⟨rfl, rfl, rfl⟩
  | n :: l => by
    intro ht hf hu
    simp only [tameL, Bool.and_eq_true] at ht
    simp only [noForcedL, Bool.and_eq_true] at hf
    simp only [urlsOkL, Bool.and_eq_true] at hu
    have ih1 := normalizeText_inv3 u n ht.1 hf.1 hu.1
    have ih2 := normalizeTextL_inv3 u l ht.2 hf.2 hu.2
    refine ⟨?_, ?_, ?_⟩ <;>
      simp [normalizeTextL, tameL, noForcedL, urlsOkL,
        ih1.1, ih1.2.1, ih1.2.2, ih2.1, ih2.2.1, ih2.2.2]
end

mutual
theorem removeComments_inv3 (u : String) : ∀ n : Node, tameNode n = true → noForcedNode n = true →
    urlsOkNode u n = true →
    tameL (removeCommentsNode n) = true ∧ noForcedL (removeCommentsNode n) = true ∧
    urlsOkL u (removeCommentsNode n) = true
  | .elem t a ch => by
    intro ht hf hu
    simp only [tameNode, Bool.and_eq_true] at ht
    simp only [noForcedNode, Bool.and_eq_true] at hf
    simp only [urlsOkNode, Bool.and_eq_true] at hu
    have ihl := removeCommentsL_inv3 u ch ht.2 hf.2 hu.2.2
    have hvoid := voidCond_of t ch (removeCommentsL ch) ht.1 (fun he => by subst he; rfl)
    refine ⟨?_, ?_, ?_⟩
    · simp only [removeCommentsNode, tameL, tameNode, Bool.and_true, Bool.and_eq_true]
      exact ⟨hvoid, ihl.1⟩
    · simp only [removeCommentsNode, noForcedL, noForcedNode, Bool.and_true, Bool.and_eq_true]
      exact ⟨hf.1, ihl.2.1⟩
    · simp only [removeCommentsNode, urlsOkL, urlsOkNode, Bool.and_true, Bool.and_eq_true]
      exact ⟨hu.1, hu.2.1, ihl.2.2⟩
  | .text s => by
    intro ht _ _
    exact ⟨by simpa [removeCommentsNode, tameL, tameNode] using ht,
      by simp [removeCommentsNode, noForcedL, noForcedNode],
      by simp [removeCommentsNode, urlsOkL, urlsOkNode]⟩
  | .comment s => by
    intro _ _ _
    exact ⟨rfl, rfl, rfl⟩
theorem removeCommentsL_inv3 (u : String) : ∀ l : List Node, tameL l = true → noForcedL l = true →
    urlsOkL u l = true →
    tameL (removeCommentsL l) = true ∧ noForcedL (removeCommentsL l) = true ∧
    urlsOkL u (removeCommentsL l) = true
  | [] => by intro _ _ _; exact ⟨rfl, rfl, rfl⟩
  | n :: l => by
    intro ht hf hu
    simp only [tameL, Bool.and_eq_true] at ht
    simp only [noForcedL, Bool.and_eq_true] at hf
    simp only [urlsOkL, Bool.and_eq_true] at hu
    have ih1 := removeComments_inv3 u n ht.1 hf.1 hu.1
    have ih2 := removeCommentsL_inv3 u l ht.2 hf.2 hu.2
    refine ⟨?_, ?_, ?_⟩ <;>
      simp [removeCommentsL, tameL_append, noForcedL_append, urlsOkL_append,
        ih1.1, ih1.2.1, ih1.2.2, ih2.1, ih2.2.1, ih2.2.2]
end

/-! ## The empty-container invariant -/

theorem append_empty_str (s : String) : s ++ "" = s := by
  apply String.ext
  simp [String.data_append]

theorem hasUsefulL_append : ∀ a b : List Node, hasUsefulL (a ++ b) = (hasUsefulL a || hasUsefulL b)
  | [], b => by simp [hasUsefulL]
  | n :: l, b => by simp [hasUsefulL, hasUsefulL_append l b, Bool.or_assoc]

theorem noEmptyBlocksL_append : ∀ a b : List Node,
    noEmptyBlocksL (a ++ b) = (noEmptyBlocksL a && noEmptyBlocksL b)
  | [], b => by simp [noEmptyBlocksL]
  | n :: l, b => by simp [noEmptyBlocksL, noEmptyBlocksL_append l b, Bool.and_assoc]

mutual
theorem hasUseful_removeEmpty : ∀ n : Node, hasUsefulNode n = true →
    hasUsefulL (removeEmptyBlocksNode n) = true
  | .elem t a ch => by
    intro h
    simp only [hasUsefulNode] at h
    by_cases hrm : (REMOVABLE_TAGS.contains t && !hasUsefulL ch &&
        collapsedTextEmpty (textContentL ch)) = true
    · exfalso
      simp only [Bool.and_eq_true] at hrm
      have hnu : USEFUL_TAGS.contains t = false := removable_not_useful t hrm.1.1
      rw [Bool.or_eq_true] at h
      rcases h with h | h
      · rw [hnu] at h
        exact Bool.noConfusion h
      · have h2 := hrm.1.2
        rw [h] at h2
        simp at h2
    · simp only [removeEmptyBlocksNode]
      rw [if_neg hrm]
      rw [Bool.or_eq_true] at h
      rcases h with h | h
      · simp [hasUsefulL, hasUsefulNode]
        exact Or.inl (by simpa using h)
      · simp [hasUsefulL, hasUsefulNode, hasUsefulL_removeEmpty ch h]
  | .text s => by
    intro h
    simp [hasUsefulNode] at h
  | .comment s => by
    intro h
    simp [hasUsefulNode] at h
theorem hasUsefulL_removeEmpty : ∀ l : List Node, hasUsefulL l = true →
    hasUsefulL (removeEmptyBlocksL l) = true
  | [] => by intro h; exact h
  | n :: l => by
    intro h
    simp only [hasUsefulL, Bool.or_eq_true] at h
    rcases h with h | h
    · simp [removeEmptyBlocksL, hasUsefulL_append, hasUseful_removeEmpty n h]
    · simp [removeEmptyBlocksL, hasUsefulL_append, hasUsefulL_removeEmpty l h]
end

mutual
theorem allWs_removeEmpty_node : ∀ n : Node, tameNode n = true →
    allWs (textContentL (removeEmptyBlocksNode n)).data = true →
    allWs (textContent n).data = true
  | .elem t a ch => by
    intro ht h
    simp only [tameNode, Bool.and_eq_true] at ht
    by_cases hrm : (REMOVABLE_TAGS.contains t && !hasUsefulL ch &&
        collapsedTextEmpty (textContentL ch)) = true
    · simp only [Bool.and_eq_true] at hrm
      have hamp := tame_textContentL ch ht.2
      have hall := (collapsedTextEmpty_iff (textContentL ch) hamp).1 hrm.2
      simpa [textContent] using hall
    · simp only [removeEmptyBlocksNode] at h
      rw [if_neg hrm] at h
      simp only [textContentL, append_empty_str] at h
      simpa [textContent] using allWs_removeEmpty_list ch ht.2 h
  | .text s => by
    intro _ h
    simpa [textContentL, textContent, append_empty_str, removeEmptyBlocksNode] using h
  | .comment s => by
    intro _ _
    simp [textContent, allWs]
theorem allWs_removeEmpty_list : ∀ l : List Node, tameL l = true →
    allWs (textContentL (removeEmptyBlocksL l)).data = true →
    allWs (textContentL l).data = true
  | [] => by intro _ h; exact h
  | n :: l => by
    intro ht h
    simp only [tameL, Bool.and_eq_true] at ht
    rw [show removeEmptyBlocksL (n :: l) = removeEmptyBlocksNode n ++ removeEmptyBlocksL l from rfl,
      textContentL_append] at h
    simp only [String.data_append, allWs, List.all_append, Bool.and_eq_true] at h
    have h1 := allWs_removeEmpty_node n ht.1 (by simpa [allWs] using h.1)
    have h2 := allWs_removeEmpty_list l ht.2 (by simpa [allWs] using h.2)
    simp only [textContentL, String.data_append, allWs, List.all_append, Bool.and_eq_true]
    exact ⟨by simpa [allWs] using h1, by simpa [allWs] using h2⟩
end

mutual
theorem noEmpty_removeEmpty_node (u : String) : ∀ n : Node,
    tameNode n = true → noForcedNode n = true → urlsOkNode u n = true →
    noEmptyBlocksL (removeEmptyBlocksNode n) = true
  | .elem t a ch => by
    intro ht hf hu
    simp only [tameNode, Bool.and_eq_true] at ht
    simp only [noForcedNode, Bool.and_eq_true] at hf
    simp only [urlsOkNode, Bool.and_eq_true] at hu
    by_cases hrm : (REMOVABLE_TAGS.contains t && !hasUsefulL ch &&
        collapsedTextEmpty (textContentL ch)) = true
    · simp only [removeEmptyBlocksNode]
      rw [if_pos hrm]
      rfl
    · simp only [removeEmptyBlocksNode]
      rw [if_neg hrm]
      have ihl := noEmpty_removeEmpty_list u ch ht.2 hf.2 hu.2.2
      have hroot : ¬(REMOVABLE_TAGS.contains t && !hasUsefulL (removeEmptyBlocksL ch) &&
          collapsedTextEmpty (textContentL (removeEmptyBlocksL ch))) = true := by
        intro hcon
        apply hrm
        simp only [Bool.and_eq_true] at hcon ⊢
        refine ⟨⟨hcon.1.1, ?_⟩, ?_⟩
        · by_cases hus : hasUsefulL ch = true
          · exfalso
            have h2 := hcon.1.2
            rw [hasUsefulL_removeEmpty ch hus] at h2
            simp at h2
          · rw [Bool.not_eq_true] at hus
            simp [hus]
        · have htame_out : tameL (removeEmptyBlocksL ch) = true :=
            (removeEmptyBlocksL_inv3 u ch ht.2 hf.2 hu.2.2).1
          have hampout := tame_textContentL _ htame_out
          have hallout := (collapsedTextEmpty_iff _ hampout).1 hcon.2
          have hallin := allWs_removeEmpty_list ch ht.2 hallout
          exact (collapsedTextEmpty_iff _ (tame_textContentL ch ht.2)).2 hallin
      simp only [noEmptyBlocksL, noEmptyBlocksNode, Bool.and_true, Bool.and_eq_true]
      refine ⟨?_, ihl⟩
      cases hcond : (REMOVABLE_TAGS.contains t && !hasUsefulL (removeEmptyBlocksL ch) &&
          collapsedTextEmpty (textContentL (removeEmptyBlocksL ch))) with
      | true => exact absurd hcond hroot
      | false => rfl
  | .text s => by
    intro _ _ _
    rfl
  | .comment s => by
    intro _ _ _
    rfl
theorem noEmpty_removeEmpty_list (u : String) : ∀ l : List Node,
    tameL l = true → noForcedL l = true → urlsOkL u l = true →
    noEmptyBlocksL (removeEmptyBlocksL l) = true
  | [] => by intro _ _ _; rfl
  | n :: l => by
    intro ht hf hu
    simp only [tameL, Bool.and_eq_true] at ht
    simp only [noForcedL, Bool.and_eq_true] at hf
    simp only [urlsOkL, Bool.and_eq_true] at hu
    simp [removeEmptyBlocksL, noEmptyBlocksL_append,
      noEmpty_removeEmpty_node u n ht.1 hf.1 hu.1,
      noEmpty_removeEmpty_list u l ht.2 hf.2 hu.2]
end

mutual
theorem compressBr_keep : ∀ n : Node, tameNode n = true →
    textContent (compressBrNode n) = textContent n ∧
    hasUsefulNode (compressBrNode n) = hasUsefulNode n ∧
    (noEmptyBlocksNode n = true → noEmptyBlocksNode (compressBrNode n) = true)
  | .elem t a ch => by
    intro ht
    simp only [tameNode, Bool.and_eq_true] at ht
    have ihl := compressBrL_keep false ch ht.2
    refine ⟨?_, ?_, ?_⟩
    · simp only [compressBrNode, textContent]
      exact ihl.1
    · simp only [compressBrNode, hasUsefulNode, ihl.2.1]
    · intro hne
      simp only [noEmptyBlocksNode, Bool.and_eq_true] at hne
      simp only [compressBrNode, noEmptyBlocksNode, Bool.and_eq_true]
      refine ⟨?_, ihl.2.2 hne.2⟩
      rw [ihl.2.1, ihl.1]
      exact hne.1
  | .text s => by
    intro _
    exact ⟨rfl, rfl, fun h => h⟩
  | .comment s => by
    intro _
    exact ⟨rfl, rfl, fun h => h⟩
theorem compressBrL_keep : ∀ (b : Bool) (l : List Node), tameL l = true →
    textContentL (compressBrL b l) = textContentL l ∧
    hasUsefulL (compressBrL b l) = hasUsefulL l ∧
    (noEmptyBlocksL l = true → noEmptyBlocksL (compressBrL b l) = true)
  | b, [] => by
    intro _
    cases b <;> exact ⟨rfl, rfl, fun h => h⟩
  | b, n :: l => by
    intro ht
    simp only [tameL, Bool.and_eq_true] at ht
    have ihn := compressBr_keep n ht.1
    by_cases hbr : isBrElem n = true
    · have hch : textContent n = "" ∧ hasUsefulNode n = false := by
        cases n with
        | elem t a ch =>
          have htag : t = "br" := by simpa [isBrElem] using hbr
          subst htag
          have h1 := ht.1
          simp only [tameNode, Bool.and_eq_true] at h1
          have hv := h1.1
          rw [Bool.or_eq_true] at hv
          rcases hv with hv | hv
          · exact absurd hv (by decide)
          · have hnil := isEmpty_true_eq_nil ch hv
            subst hnil
            refine ⟨rfl, ?_⟩
            simp only [hasUsefulNode, hasUsefulL, Bool.or_false]
            decide
        | text s => simp [isBrElem] at hbr
        | comment s => simp [isBrElem] at hbr
      cases b with
      | true =>
        simp only [compressBrL]
        rw [if_pos hbr]
        simp only [if_pos]
        have ihl := compressBrL_keep true l ht.2
        refine ⟨?_, ?_, ?_⟩
        · rw [ihl.1]
          apply String.ext
          simp [textContentL, hch.1, String.data_append]
        · rw [ihl.2.1]
          simp [hasUsefulL, hch.2]
        · intro hne
          simp only [noEmptyBlocksL, Bool.and_eq_true] at hne
          exact ihl.2.2 hne.2
      | false =>
        simp only [compressBrL]
        rw [if_pos hbr]
        have ihl := compressBrL_keep true l ht.2
        refine ⟨?_, ?_, ?_⟩
        · simp only [textContentL]
          rw [ihl.1, ihn.1]
        · simp only [hasUsefulL]
          rw [ihl.2.1, ihn.2.1]
        · intro hne
          simp only [noEmptyBlocksL, Bool.and_eq_true] at hne
          simp only [noEmptyBlocksL, Bool.and_eq_true]
          exact ⟨ihn.2.2 hne.1, ihl.2.2 hne.2⟩
    · simp only [compressBrL]
      rw [if_neg hbr]
      have ihl := compressBrL_keep false l ht.2
      refine ⟨?_, ?_, ?_⟩
      · simp only [textContentL]
        rw [ihl.1, ihn.1]
      · simp only [hasUsefulL]
        rw [ihl.2.1, ihn.2.1]
      · intro hne
        simp only [noEmptyBlocksL, Bool.and_eq_true] at hne
        simp only [noEmptyBlocksL, Bool.and_eq_true]
        exact ⟨ihn.2.2 hne.1, ihl.2.2 hne.2⟩
end

set_option maxHeartbeats 1600000

mutual
theorem normalizeText_keep (u : String) : ∀ n : Node,
    tameNode n = true → noForcedNode n = true → urlsOkNode u n = true →
    hasUsefulNode (normalizeTextNode n) = hasUsefulNode n ∧
    allWs (textContent (normalizeTextNode n)).data = allWs (textContent n).data ∧
    (noEmptyBlocksNode n = true → noEmptyBlocksNode (normalizeTextNode n) = true)
  | .elem t a ch => by
    intro ht hf hu
    simp only [tameNode, Bool.and_eq_true] at ht
    simp only [noForcedNode, Bool.and_eq_true] at hf
    simp only [urlsOkNode, Bool.and_eq_true] at hu
    have ihl := normalizeTextL_keep u ch ht.2 hf.2 hu.2.2
    refine ⟨?_, ?_, ?_⟩
    · simp only [normalizeTextNode, hasUsefulNode, ihl.1]
    · simp only [normalizeTextNode, textContent]
      exact ihl.2.1
    · intro hne
      simp only [noEmptyBlocksNode, Bool.and_eq_true] at hne
      simp only [normalizeTextNode, noEmptyBlocksNode, Bool.and_eq_true]
      refine ⟨?_, ihl.2.2 hne.2⟩
      rw [ihl.1]
      have hin_amp := tame_textContentL ch ht.2
      have hout_amp := tame_textContentL _ (normalizeTextL_inv3 u ch ht.2 hf.2 hu.2.2).1
      cases hcoll : collapsedTextEmpty (textContentL (normalizeTextL ch)) with
      | false => simp
      | true =>
        have hallout := (collapsedTextEmpty_iff _ hout_amp).1 hcoll
        have hallin : allWs (textContentL ch).data = true := by
          rw [← ihl.2.1]
          exact hallout
        have hcollin := (collapsedTextEmpty_iff _ hin_amp).2 hallin
        have h1 := hne.1
        rw [hcollin] at h1
        exact h1
  | .text s => by
    intro ht _ _
    refine ⟨rfl, ?_, fun _ => rfl⟩
    simp only [normalizeTextNode, textContent]
    exact allWs_normalizeData s (by simpa [tameNode] using ht)
  | .comment s => by
    intro _ _ _
    exact ⟨rfl, rfl, fun _ => rfl⟩
theorem normalizeTextL_keep (u : String) : ∀ l : List Node,
    tameL l = true → noForcedL l = true → urlsOkL u l = true →
    hasUsefulL (normalizeTextL l) = hasUsefulL l ∧
    allWs (textContentL (normalizeTextL l)).data = allWs (textContentL l).data ∧
    (noEmptyBlocksL l = true → noEmptyBlocksL (normalizeTextL l) = true)
  | [] => by intro _ _ _; exact ⟨rfl, rfl, fun h => h⟩
  | n :: l => by
    intro ht hf hu
    simp only [tameL, Bool.and_eq_true] at ht
    simp only [noForcedL, Bool.and_eq_true] at hf
    simp only [urlsOkL, Bool.and_eq_true] at hu
    have ihn := normalizeText_keep u n ht.1 hf.1 hu.1
    have ihl := normalizeTextL_keep u l ht.2 hf.2 hu.2
    refine ⟨?_, ?_, ?_⟩
    · simp only [normalizeTextL, hasUsefulL, ihn.1, ihl.1]
    · have e1 : (textContent (normalizeTextNode n)).data.all jsWhitespace
          = (textContent n).data.all jsWhitespace := by simpa [allWs] using ihn.2.1
      have e2 : (textContentL (normalizeTextL l)).data.all jsWhitespace
          = (textContentL l).data.all jsWhitespace := by simpa [allWs] using ihl.2.1
      simp only [normalizeTextL, textContentL, String.data_append, allWs, List.all_append, e1, e2]
    · intro hne
      simp only [noEmptyBlocksL, Bool.and_eq_true] at hne
      simp only [normalizeTextL, noEmptyBlocksL, Bool.and_eq_true]
      exact ⟨ihn.2.2 hne.1, ihl.2.2 hne.2⟩
end

mutual
theorem removeComments_keep : ∀ n : Node,
    textContentL (removeCommentsNode n) = textContent n ∧
    hasUsefulL (removeCommentsNode n) = hasUsefulNode n ∧
    (noEmptyBlocksNode n = true → noEmptyBlocksL (removeCommentsNode n) = true)
  | .elem t a ch => by
    have ihl := removeCommentsL_keep ch
    refine ⟨?_, ?_, ?_⟩
    · simp only [removeCommentsNode, textContentL, textContent, append_empty_str]
      exact ihl.1
    · simp only [removeCommentsNode, hasUsefulL, hasUsefulNode, Bool.or_false, ihl.2.1]
    · intro hne
      simp only [noEmptyBlocksNode, Bool.and_eq_true] at hne
      simp only [removeCommentsNode, noEmptyBlocksL, noEmptyBlocksNode, Bool.and_true,
        Bool.and_eq_true]
      refine ⟨?_, ihl.2.2 hne.2⟩
      rw [ihl.2.1, ihl.1]
      exact hne.1
  | .text s =>
    ⟨by simp [removeCommentsNode, textContentL, textContent, append_empty_str],
     by simp [removeCommentsNode, hasUsefulL, hasUsefulNode],
     fun _ => rfl⟩
  | .comment s => ⟨rfl, rfl, fun _ => rfl⟩
theorem removeCommentsL_keep : ∀ l : List Node,
    textContentL (removeCommentsL l) = textContentL l ∧
    hasUsefulL (removeCommentsL l) = hasUsefulL l ∧
    (noEmptyBlocksL l = true → noEmptyBlocksL (removeCommentsL l) = true)
  | [] => ⟨rfl, rfl, fun h => h⟩
  | n :: l => by
    have ihn := removeComments_keep n
    have ihl := removeCommentsL_keep l
    refine ⟨?_, ?_, ?_⟩
    · simp only [removeCommentsL, textContentL_append, textContentL, ihn.1, ihl.1]
    · simp only [removeCommentsL, hasUsefulL_append, hasUsefulL, ihn.2.1, ihl.2.1]
    · intro hne
      simp only [noEmptyBlocksL, Bool.and_eq_true] at hne
      simp only [removeCommentsL, noEmptyBlocksL_append, Bool.and_eq_true]
      exact ⟨ihn.2.2 hne.1, ihl.2.2 hne.2⟩
end

/-! ## Scope shape and the C4 claim -/

mutual
theorem findTagNode_shape (tag : String) : ∀ (n : Node) (x : Node),
    findTagNode tag n = some x → ∃ a ch, x = Node.elem tag a ch
  | .elem t a ch, x => by
    intro h
    simp only [findTagNode] at h
    by_cases ht : t = tag
    · rw [if_pos ht] at h
      simp only [Option.some.injEq] at h
      exact ⟨a, ch, by rw [← h, ht]⟩
    · rw [if_neg ht] at h
      exact findTagL_shape tag ch x h
  | .text s, x => by
    intro h
    simp [findTagNode] at h
  | .comment s, x => by
    intro h
    simp [findTagNode] at h
theorem findTagL_shape (tag : String) : ∀ (l : List Node) (x : Node),
    findTagL tag l = some x → ∃ a ch, x = Node.elem tag a ch
  | [], x => by
    intro h
    simp [findTagL] at h
  | n :: l, x => by
    intro h
    simp only [findTagL] at h
    cases hn : findTagNode tag n with
    | some y =>
      rw [hn] at h
      simp only [Option.some.injEq] at h
      exact h ▸ findTagNode_shape tag n y hn
    | none =>
      rw [hn] at h
      exact findTagL_shape tag l x h
end

theorem headMatches_append : ∀ (pat x v : List Char),
    headMatches pat x = true → headMatches pat (x ++ v) = true
  | [], _, _, _ => rfl
  | p :: ps, [], v, h => by simp [headMatches] at h
  | p :: ps, c :: cs, v, h => by
    simp only [List.cons_append, headMatches, Bool.and_eq_true] at h ⊢
    exact ⟨h.1, headMatches_append ps cs v h.2⟩

theorem listContains_nil_pat : ∀ x : List Char, listContains x [] = true
  | [] => rfl
  | c :: cs => by simp [listContains, headMatches, listContains_nil_pat cs]

theorem listContains_append_right : ∀ (x v pat : List Char),
    listContains x pat = true → listContains (x ++ v) pat = true
  | [], v, pat, h => by
    cases pat with
    | nil => simpa using listContains_nil_pat v
    | cons q qs => simp [listContains, headMatches] at h
  | c :: cs, v, pat, h => by
    simp only [listContains, Bool.or_eq_true] at h
    simp only [List.cons_append, listContains, Bool.or_eq_true]
    rcases h with h | h
    · exact Or.inl (headMatches_append pat (c :: cs) v h)
    · exact Or.inr (listContains_append_right cs v pat h)

theorem listContains_append_left : ∀ (u x pat : List Char),
    listContains x pat = true → listContains (u ++ x) pat = true
  | [], _, _, h => h
  | c :: u, x, pat, h => by
    simp only [List.cons_append, listContains, Bool.or_eq_true]
    exact Or.inr (listContains_append_left u x pat h)

theorem scanAny_of_head (p : List Char → Bool) (x : List Char) (h : p x = true) :
    scanAny p x = true := by
  cases x with
  | nil => simpa [scanAny] using h
  | cons c cs => simp [scanAny, h]

theorem scanAny_append_left (p : List Char → Bool) :
    ∀ (u x : List Char), scanAny p x = true → scanAny p (u ++ x) = true
  | [], _, h => h
  | c :: u, x, h => by
    simp only [List.cons_append, scanAny, Bool.or_eq_true]
    exact Or.inr (scanAny_append_left p u x h)

theorem scanAny_append_right (p : List Char → Bool)
    (hmono : ∀ xs v, p xs = true → p (xs ++ v) = true) :
    ∀ (x v : List Char), scanAny p x = true → scanAny p (x ++ v) = true
  | [], v, h => by
    have h2 : p v = true := by simpa using hmono [] v (by simpa [scanAny] using h)
    simpa using scanAny_of_head p v h2
  | c :: cs, v, h => by
    simp only [scanAny, Bool.or_eq_true] at h
    simp only [List.cons_append, scanAny, Bool.or_eq_true]
    rcases h with h | h
    · exact Or.inl (by simpa using hmono (c :: cs) v h)
    · exact Or.inr (scanAny_append_right p hmono cs v h)

theorem spanRun_append (p : Char → Bool) : ∀ (xs v : List Char) (k : Nat) (c : Char)
    (rest : List Char), spanRun p xs = (k, c :: rest) →
    spanRun p (xs ++ v) = (k, c :: (rest ++ v))
  | [], v, k, c, rest => by
    intro h
    simp [spanRun] at h
  | x :: xs, v, k, c, rest => by
    intro h
    simp only [spanRun, List.cons_append, List.append_eq] at h ⊢
    by_cases hp : p x = true
    · rw [if_pos hp] at h ⊢
      cases hs : spanRun p xs with
      | mk k2 t2 =>
        rw [hs] at h
        simp only [Prod.mk.injEq] at h
        obtain ⟨h1, h2⟩ := h
        rw [spanRun_append p xs v k2 c rest (by rw [hs, h2])]
        simp [h1]
    · rw [if_neg hp] at h ⊢
      simp only [Prod.mk.injEq] at h
      obtain ⟨h1, h2⟩ := h
      injection h2 with hx hxs
      subst h1
      subst hx
      subst hxs
      rfl

theorem kanjiNameAt_append (xs v : List Char) (h : kanjiNameAt xs = true) :
    kanjiNameAt (xs ++ v) = true := by
  unfold kanjiNameAt at h ⊢
  cases hr1 : spanRun isHan xs with
  | mk k1 t1 =>
    rw [hr1] at h
    dsimp only at h
    by_cases h1 : k1 < 2
    · rw [if_pos h1] at h
      simp at h
    · rw [if_neg h1] at h
      cases hr2 : spanRun jsWhitespace t1 with
      | mk k2 t2 =>
        rw [hr2] at h
        dsimp only at h
        by_cases h2 : k2 < 1
        · rw [if_pos h2] at h
          simp at h
        · rw [if_neg h2] at h
          cases t2 with
          | nil => simp at h
          | cons d rest2 =>
            cases t1 with
            | nil =>
              rw [show spanRun jsWhitespace ([] : List Char) = (0, []) from rfl] at hr2
              injection hr2 with e1 e2
              exact absurd (by omega : k2 < 1) h2
            | cons c1 r1t =>
              rw [spanRun_append isHan xs v k1 c1 r1t (by rw [hr1])]
              dsimp only
              rw [if_neg h1]
              have e2 := spanRun_append jsWhitespace (c1 :: r1t) v k2 d rest2 (by rw [hr2])
              rw [List.cons_append] at e2
              rw [e2]
              dsimp only
              rw [if_neg h2]
              exact h

theorem kataNameAt_append (xs v : List Char) (h : kataNameAt xs = true) :
    kataNameAt (xs ++ v) = true := by
  cases xs with
  | nil => simp [kataNameAt] at h
  | cons c1 rest =>
    cases rest with
    | nil => simp [kataNameAt] at h
    | cons c2 rest2 => simpa [kataNameAt] using h

theorem nameRoleHit_append_right (x v : String) (h : nameRoleHit x = true) :
    nameRoleHit (x ++ v) = true := by
  simp only [nameRoleHit, Bool.or_eq_true, List.any_eq_true] at h ⊢
  rcases h with (h | h) | ⟨w, hw, hc⟩
  · refine Or.inl (Or.inl ?_)
    rw [String.data_append]
    exact scanAny_append_right kanjiNameAt kanjiNameAt_append x.data v.data h
  · refine Or.inl (Or.inr ?_)
    rw [String.data_append]
    exact scanAny_append_right kataNameAt kataNameAt_append x.data v.data h
  · refine Or.inr ⟨w, hw, ?_⟩
    simp only [strContainsCI, lowerList, String.data_append, List.map_append]
    exact listContains_append_right _ _ _ (by simpa [strContainsCI, lowerList] using hc)

theorem nameRoleHit_append_left (u x : String) (h : nameRoleHit x = true) :
    nameRoleHit (u ++ x) = true := by
  simp only [nameRoleHit, Bool.or_eq_true, List.any_eq_true] at h ⊢
  rcases h with (h | h) | ⟨w, hw, hc⟩
  · refine Or.inl (Or.inl ?_)
    rw [String.data_append]
    exact scanAny_append_left kanjiNameAt u.data x.data h
  · refine Or.inl (Or.inr ?_)
    rw [String.data_append]
    exact scanAny_append_left kataNameAt u.data x.data h
  · refine Or.inr ⟨w, hw, ?_⟩
    simp only [strContainsCI, lowerList, String.data_append, List.map_append]
    exact listContains_append_left _ _ _ (by simpa [strContainsCI, lowerList] using hc)

mutual
theorem nameHit_of_hasNameText : ∀ n : Node, hasNameTextNode n = true →
    nameRoleHit (textContent n) = true
  | .elem t a ch => by
    intro h
    simp only [hasNameTextNode] at h
    simpa [textContent] using nameHit_of_hasNameTextL ch h
  | .text s => by
    intro h
    simpa [hasNameTextNode, textContent] using h
  | .comment s => by
    intro h
    simp [hasNameTextNode] at h
theorem nameHit_of_hasNameTextL : ∀ l : List Node, hasNameTextL l = true →
    nameRoleHit (textContentL l) = true
  | [] => by intro h; simp [hasNameTextL] at h
  | n :: l => by
    intro h
    simp only [hasNameTextL, Bool.or_eq_true] at h
    simp only [textContentL]
    rcases h with h | h
    · exact nameRoleHit_append_right (textContent n) (textContentL l)
        (nameHit_of_hasNameText n h)
    · exact nameRoleHit_append_left (textContent n) (textContentL l)
        (nameHit_of_hasNameTextL l h)
end

mutual
theorem anchorProf_of_safeHint : ∀ n : Node, hasSafeHintAnchorNode n = true →
    anchorProfNode n = true
  | .elem t a ch => by
    intro h
    simp only [hasSafeHintAnchorNode, Bool.or_eq_true, Bool.and_eq_true] at h
    simp only [anchorProfNode, Bool.or_eq_true, Bool.and_eq_true]
    rcases h with ⟨⟨ha, hh⟩, _⟩ | h
    · exact Or.inl ⟨ha, by simp [hh]⟩
    · exact Or.inr (anchorProfL_of_safeHint ch h)
  | .text s => by intro h; simp [hasSafeHintAnchorNode] at h
  | .comment s => by intro h; simp [hasSafeHintAnchorNode] at h
theorem anchorProfL_of_safeHint : ∀ l : List Node, hasSafeHintAnchorL l = true →
    anchorProfL l = true
  | [] => by intro h; exact h
  | n :: l => by
    intro h
    simp only [hasSafeHintAnchorL, Bool.or_eq_true] at h
    simp only [anchorProfL, Bool.or_eq_true]
    rcases h with h | h
    · exact Or.inl (anchorProf_of_safeHint n h)
    · exact Or.inr (anchorProfL_of_safeHint l h)
end

theorem noisePassL_append (m : String → List (String × String) → Bool) :
    ∀ a b : List Node, noisePassL m (a ++ b) = noisePassL m a ++ noisePassL m b
  | [], _ => rfl
  | n :: l, b => by
    simp [noisePassL, noisePassL_append m l b]

theorem hasNameTextL_append : ∀ a b : List Node,
    hasNameTextL (a ++ b) = (hasNameTextL a || hasNameTextL b)
  | [], _ => rfl
  | n :: l, b => by
    simp [hasNameTextL, hasNameTextL_append l b, Bool.or_assoc]

theorem hasSafeHintAnchorL_append : ∀ a b : List Node,
    hasSafeHintAnchorL (a ++ b) = (hasSafeHintAnchorL a || hasSafeHintAnchorL b)
  | [], _ => rfl
  | n :: l, b => by
    simp [hasSafeHintAnchorL, hasSafeHintAnchorL_append l b, Bool.or_assoc]

mutual
theorem nameText_noisePass (m : String → List (String × String) → Bool) :
    ∀ n : Node, hasNameTextNode n = true → hasNameTextL (noisePass m n) = true
  | .elem t a ch => by
    intro h
    simp only [hasNameTextNode] at h
    simp only [noisePass]
    split
    · split
      · exact nameTextL_noisePass m ch h
      · rename_i hg
        exfalso
        apply hg
        simp only [noiseKeepGuard, Bool.or_eq_true]
        right
        have h2 := nameHit_of_hasNameTextL ch h
        simp only [nameRoleHit] at h2
        simpa [hasNameOrRoleClues, textContent] using h2
    · simp only [hasNameTextL, hasNameTextNode, Bool.or_false]
      exact nameTextL_noisePass m ch h
  | .text s => by
    intro h
    simpa [noisePass, hasNameTextL, hasNameTextNode] using h
  | .comment s => by
    intro h
    simp [hasNameTextNode] at h
theorem nameTextL_noisePass (m : String → List (String × String) → Bool) :
    ∀ l : List Node, hasNameTextL l = true → hasNameTextL (noisePassL m l) = true
  | [] => by intro h; exact h
  | n :: l => by
    intro h
    simp only [hasNameTextL, Bool.or_eq_true] at h
    simp only [noisePassL, hasNameTextL_append, Bool.or_eq_true]
    rcases h with h | h
    · exact Or.inl (nameText_noisePass m n h)
    · exact Or.inr (nameTextL_noisePass m l h)
end

mutual
theorem safeAnchor_noisePass (m : String → List (String × String) → Bool)
    (hm : ∀ t a, m t a = true →
      (matchesNoiseSelector t a || matchesClassSubstr t a || matchesIdSubstr t a) = true) :
    ∀ n : Node, hasSafeHintAnchorNode n = true → hasSafeHintAnchorL (noisePass m n) = true
  | .elem t a ch => by
    intro h
    simp only [hasSafeHintAnchorNode, Bool.or_eq_true] at h
    rcases h with hself | hch
    · have hm2 : ¬ m t a = true := by
        intro hmt
        have h3 := hm t a hmt
        simp only [Bool.and_eq_true] at hself
        have h4 := hself.2
        rw [h3] at h4
        simp at h4
      simp only [noisePass]
      rw [if_neg hm2]
      simp only [hasSafeHintAnchorL, hasSafeHintAnchorNode, Bool.or_false, Bool.or_eq_true]
      exact Or.inl hself
    · by_cases hmt : m t a = true
      · have hguard : noiseKeepGuard (.elem t a ch) = true := by
          simp only [noiseKeepGuard, Bool.or_eq_true]
          left
          simpa [hasDescendantAnchorWithProfile] using anchorProfL_of_safeHint ch hch
        simp only [noisePass]
        rw [if_pos hmt, if_pos hguard]
        exact safeAnchorL_noisePass m hm ch hch
      · simp only [noisePass]
        rw [if_neg hmt]
        simp only [hasSafeHintAnchorL, hasSafeHintAnchorNode, Bool.or_false, Bool.or_eq_true]
        exact Or.inr (safeAnchorL_noisePass m hm ch hch)
  | .text s => by intro h; simp [hasSafeHintAnchorNode] at h
  | .comment s => by intro h; simp [hasSafeHintAnchorNode] at h
theorem safeAnchorL_noisePass (m : String → List (String × String) → Bool)
    (hm : ∀ t a, m t a = true →
      (matchesNoiseSelector t a || matchesClassSubstr t a || matchesIdSubstr t a) = true) :
    ∀ l : List Node, hasSafeHintAnchorL l = true →
      hasSafeHintAnchorL (noisePassL m l) = true
  | [] => by intro h; exact h
  | n :: l => by
    intro h
    simp only [hasSafeHintAnchorL, Bool.or_eq_true] at h
    simp only [noisePassL, hasSafeHintAnchorL_append, Bool.or_eq_true]
    rcases h with h | h
    · exact Or.inl (safeAnchor_noisePass m hm n h)
    · exact Or.inr (safeAnchorL_noisePass m hm l h)
end

/-- C3 counterexample: the banner div is matched and its profile anchor
makes the keep guard true, so the div is unwrapped -- but the very same
pass then matches the anchor itself (class "search" is a noise selector
class), and the anchor's own guard is false (the guard looks only at
strict-descendant anchors and at the subtree text "Profile", which has no
name or role hit), so the guarding anchor is removed with its subtree:
the spec's promise that the guarding anchor survives in the output fails. -/
theorem c3_counterexample :
    matchesNoiseSelector "div" [("class", "banner")] = true ∧
    noiseKeepGuard (.elem "div" [("class", "banner")]
      [.elem "a" [("class", "search"), ("href", "/people/x")] [.text "Profile"]]) = true ∧
    removeOrUnwrapNoise c3Doc = .elem "main" [] [] := by
  refine ⟨by decide, by decide, ?_⟩
  decide

/-- C3 (corrected): one pass of the noise stage treats a matched element
exactly as claimed -- unwrap (children stay in place, processed by the
same pass) when the keep guard holds, removal of the whole subtree
otherwise; the stage is the composition of the selector, class-substring
and id-substring passes; and two survival guarantees that do hold: a text
node carrying a name/role hit within its own data always survives, and an
anchor with a person-link href that is matched by none of the three noise
predicates always survives.  (The spec's stronger survival claim -- that
the guarding anchor of a matched element itself survives -- is refuted by
the counterexample: a later candidate of the same pass can match the
guarding anchor and remove it.) -/
theorem c3_theorem :
    (∀ (m : String → List (String × String) → Bool) (t : String)
        (a : List (String × String)) (ch : List Node) (l1 l2 : List Node),
      m t a = true →
      noisePassL m (l1 ++ Node.elem t a ch :: l2) =
        (if noiseKeepGuard (.elem t a ch) = true then
          noisePassL m l1 ++ noisePassL m ch ++ noisePassL m l2
        else noisePassL m l1 ++ noisePassL m l2)) ∧
    (∀ l : List Node, removeOrUnwrapNoiseL l =
      noisePassL matchesIdSubstr (noisePassL matchesClassSubstr
        (noisePassL matchesNoiseSelector l))) ∧
    (∀ l : List Node, hasNameTextL l = true →
      hasNameTextL (removeOrUnwrapNoiseL l) = true) ∧
    (∀ l : List Node, hasSafeHintAnchorL l = true →
      hasSafeHintAnchorL (removeOrUnwrapNoiseL l) = true) := by
  refine ⟨?_, fun _ => rfl, ?_, ?_⟩
  · intro m t a ch l1 l2 hmt
    rw [noisePassL_append]
    simp only [noisePassL, noisePass]
    rw [if_pos hmt]
    split
    · simp [List.append_assoc]
    · simp
  · intro l h
    unfold removeOrUnwrapNoiseL
    exact nameTextL_noisePass _ _ (nameTextL_noisePass _ _ (nameTextL_noisePass _ _ h))
  · intro l h
    unfold removeOrUnwrapNoiseL
    have hm1 : ∀ t a, matchesNoiseSelector t a = true →
        (matchesNoiseSelector t a || matchesClassSubstr t a || matchesIdSubstr t a) = true :=
      fun t a hx => by simp [hx]
    have hm2 : ∀ t a, matchesClassSubstr t a = true →
        (matchesNoiseSelector t a || matchesClassSubstr t a || matchesIdSubstr t a) = true :=
      fun t a hx => by simp [hx]
    have hm3 : ∀ t a, matchesIdSubstr t a = true →
        (matchesNoiseSelector t a || matchesClassSubstr t a || matchesIdSubstr t a) = true :=
      fun t a hx => by simp [hx]
    exact safeAnchorL_noisePass _ hm3 _
      (safeAnchorL_noisePass _ hm2 _ (safeAnchorL_noisePass _ hm1 _ h))

/-- Witness for C3: a cookie-consent div holding a role-word text node
and, separately, a clean profile anchor exercise the matched-element
splice rule and both survival clauses at concrete inputs. -/
theorem c3_witness :
    matchesClassSubstr "div" [("class", "cookie")] = true ∧
    noisePassL matchesClassSubstr
      ([] ++ Node.elem "div" [("class", "cookie")] [.text "教授"] :: []) =
      (if noiseKeepGuard (.elem "div" [("class", "cookie")] [.text "教授"]) = true then
        noisePassL matchesClassSubstr [] ++ noisePassL matchesClassSubstr [.text "教授"] ++
          noisePassL matchesClassSubstr []
      else noisePassL matchesClassSubstr [] ++ noisePassL matchesClassSubstr []) ∧
    hasNameTextL [Node.elem "div" [("class", "cookie")] [.text "教授"]] = true ∧
    hasNameTextL (removeOrUnwrapNoiseL
      [Node.elem "div" [("class", "cookie")] [.text "教授"]]) = true ∧
    hasSafeHintAnchorL [Node.elem "a" [("href", "/people/x")] [.text "x"]] = true ∧
    hasSafeHintAnchorL (removeOrUnwrapNoiseL
      [Node.elem "a" [("href", "/people/x")] [.text "x"]]) = true :=
  ⟨by decide,
   c3_theorem.1 matchesClassSubstr "div" [("class", "cookie")] [.text "教授"] [] []
     (by decide),
   by decide,
   c3_theorem.2.2.1 [Node.elem "div" [("class", "cookie")] [.text "教授"]] (by decide),
   by decide,
   c3_theorem.2.2.2 [Node.elem "a" [("href", "/people/x")] [.text "x"]] (by decide)⟩



/-! ## C2: the size bounder on the 33000-letter paragraph -/

theorem c2Input_data : c2Input.data = c2Chars 33000 := by
  show ("<main><p>" ++ c2Body ++ "</p></main>").data = _
  rw [String.data_append, String.data_append, List.append_assoc]
  rw [show "</p></main>".data = ('<' :: '/' :: 'p' :: '>' :: '<' :: '/' :: 'm' :: 'a' :: 'i' :: 'n' :: '>' ::[]) from rfl]
  rw [show "<main><p>".data = ('<' :: 'm' :: 'a' :: 'i' :: 'n' :: '>' :: '<' :: 'p' :: '>' ::[]) from rfl]
  rw [show c2Body.data = List.replicate 33000 'b' from rfl]
  simp only [List.cons_append, List.nil_append, c2Chars]

theorem c2Chars_length (k : Nat) : (c2Chars k).length = k + 20 := by
  simp [c2Chars]

theorem replicate_b_no_amp (k : Nat) : ∀ c ∈ List.replicate k 'b', ¬ c = '&' := by
  intro c hc
  rw [List.eq_of_mem_replicate hc]
  decide

theorem entDecodeAux_no_amp : ∀ (f : Nat) (cs : List Char), (∀ c ∈ cs, ¬ c = '&') →
    entDecodeAux f cs = cs
  | 0, [], _ => rfl
  | _ + 1, [], _ => rfl
  | 0, _ :: _, _ => rfl
  | f + 1, c :: cs, h => by
    simp only [entDecodeAux]
    rw [if_neg (h c (by simp))]
    rw [entDecodeAux_no_amp f cs (fun x hx => h x (by simp [hx]))]

theorem entDecode_bs (k : Nat) : entDecode (List.replicate k 'b') = List.replicate k 'b' :=
  entDecodeAux_no_amp _ _ (replicate_b_no_amp k)

theorem takeWhile_bs (r : List Char) :
    ∀ m, List.takeWhile (fun c => decide (c ≠ '<')) (List.replicate m 'b' ++ '<' :: r) =
      List.replicate m 'b'
  | 0 => by simp
  | m + 1 => by
    rw [List.replicate_succ, List.cons_append, List.takeWhile_cons]
    simp [takeWhile_bs r m]

theorem tokenizeAux_nil : ∀ g, tokenizeAux g [] = []
  | 0 => rfl
  | _ + 1 => rfl

theorem tok_step_text (g m : Nat) (r : List Char) :
    tokenizeAux (g + 1) (List.replicate (m + 1) 'b' ++ '<' :: r) =
      Tok.textTok ⟨List.replicate (m + 1) 'b'⟩ :: tokenizeAux g ('<' :: r) := by
  rw [List.replicate_succ, List.cons_append]
  simp only [tokenizeAux]
  rw [show ('b' :: (List.replicate m 'b' ++ '<' :: r)) =
        (List.replicate (m + 1) 'b' ++ '<' :: r) from by
      rw [List.replicate_succ, List.cons_append]]
  rw [takeWhile_bs r (m + 1)]
  rw [show (List.replicate (m + 1) 'b').length = (List.replicate (m + 1) 'b').length from rfl]
  rw [List.drop_left]
  rw [entDecode_bs]
  rw [List.replicate_succ]

theorem tokenizeAux_c2 (m f : Nat) :
    tokenizeAux (f + 5) (c2Chars (m + 1)) =
      [Tok.openTag "main" [], Tok.openTag "p" [],
       Tok.textTok ⟨List.replicate (m + 1) 'b'⟩, Tok.closeTag "p", Tok.closeTag "main"] := by
  show tokenizeAux ((f + 4) + 1) ('<' :: 'm' :: 'a' :: 'i' :: 'n' :: '>' ::_) = _
  rw [show ∀ rest, tokenizeAux ((f + 4) + 1) ('<' :: 'm' :: 'a' :: 'i' :: 'n' :: '>' ::rest) =
        Tok.openTag "main" [] :: tokenizeAux (f + 4) rest from fun _ => rfl]
  rw [show ∀ rest, tokenizeAux ((f + 3) + 1) ('<' :: 'p' :: '>' ::rest) =
        Tok.openTag "p" [] :: tokenizeAux (f + 3) rest from fun _ => rfl]
  rw [tok_step_text (f + 2) m]
  rw [show ∀ rest, tokenizeAux ((f + 1) + 1) ('<' :: '/' :: 'p' :: '>' ::rest) =
        Tok.closeTag "p" :: tokenizeAux (f + 1) rest from fun _ => rfl]
  rw [show ∀ rest, tokenizeAux (f + 1) ('<' :: '/' :: 'm' :: 'a' :: 'i' :: 'n' :: '>' ::rest) =
        Tok.closeTag "main" :: tokenizeAux f rest from fun _ => rfl]
  rw [tokenizeAux_nil]

theorem buildTokens_c2 (s : String) :
    buildTokens [Tok.openTag "main" [], Tok.openTag "p" [], Tok.textTok s,
      Tok.closeTag "p", Tok.closeTag "main"] [] [] =
      [Node.elem "main" [] [Node.elem "p" [] [Node.text s]]] := rfl

theorem parseHtml_c2 (k : Nat) (hk : k ≠ 0) (s : String) (hs : s.data = c2Chars k) :
    parseHtml s = [c2Tree k] := by
  cases k with
  | zero => exact absurd rfl hk
  | succ m =>
    unfold parseHtml
    rw [hs, c2Chars_length]
    rw [show m + 1 + 20 + 1 = (m + 17) + 5 from by omega]
    rw [tokenizeAux_c2 m (m + 17)]
    exact buildTokens_c2 _

-- ## batch 2: pipeline stages on c2Tree

theorem selectScope_c2 (k : Nat) : selectScope [c2Tree k] = c2Tree k := rfl

theorem noise_c2 (k : Nat) : removeOrUnwrapNoise (c2Tree k) = c2Tree k := rfl

theorem forced_c2 (k : Nat) : removeForcedTags (c2Tree k) = c2Tree k := rfl

theorem absolutize_c2 (k : Nat) (u : String) :
    absolutizeLinksAndImages (c2Tree k) u = c2Tree k := rfl

theorem simplify_c2 (k : Nat) : simplifyFormControls (c2Tree k) = c2Tree k := rfl

theorem prune_c2 (k : Nat) : pruneEventAndStyle (c2Tree k) = c2Tree k := rfl

-- whitespace chain on the b-run
theorem nbsp_bs : ∀ k, nbspEntityToSpace (List.replicate k 'b') = List.replicate k 'b'
  | 0 => rfl
  | k + 1 => by
    rw [List.replicate_succ]
    rw [show ∀ rest, nbspEntityToSpace ('b' :: rest) = 'b' :: nbspEntityToSpace rest
        from fun _ => rfl]
    rw [nbsp_bs k]

theorem collapsePlus_bs (p : Char → Bool) (r : Char) (hb : p 'b' = false) :
    ∀ k, collapseRunsPlus p r false (List.replicate k 'b') = List.replicate k 'b'
  | 0 => rfl
  | k + 1 => by
    rw [List.replicate_succ]
    simp only [collapseRunsPlus]
    rw [if_neg (by simp [hb])]
    rw [collapsePlus_bs p r hb k]

theorem collapse2_bs (p : Char → Bool) (r : Char) (hb : p 'b' = false) :
    ∀ k, collapseRuns2 p r false (List.replicate k 'b') = List.replicate k 'b'
  | 0 => rfl
  | k + 1 => by
    rw [List.replicate_succ]
    simp only [collapseRuns2]
    rw [if_neg (by simp [hb])]
    rw [collapse2_bs p r hb k]

theorem dropWhileWs_bs (k : Nat) :
    dropWhileWs (List.replicate (k + 1) 'b') = List.replicate (k + 1) 'b' := by
  rw [List.replicate_succ]
  rfl

theorem jsTrim_bs (k : Nat) :
    jsTrim ⟨List.replicate (k + 1) 'b'⟩ = ⟨List.replicate (k + 1) 'b'⟩ := by
  simp only [jsTrim]
  rw [dropWhileWs_bs, List.reverse_replicate, dropWhileWs_bs, List.reverse_replicate]

theorem jsTrimEnd_bs : ∀ k, jsTrimEnd ⟨List.replicate k 'b'⟩ = ⟨List.replicate k 'b'⟩
  | 0 => rfl
  | k + 1 => by
    simp only [jsTrimEnd]
    rw [List.reverse_replicate, dropWhileWs_bs, List.reverse_replicate]

theorem mk_replicate_ne_empty (k : Nat) :
    ¬ (⟨List.replicate (k + 1) 'b'⟩ : String) = "" := by
  intro h
  have h2 : List.replicate (k + 1) 'b' = [] := congrArg String.data h
  rw [List.replicate_succ] at h2
  exact List.noConfusion h2

theorem collapsedTextEmpty_bs (k : Nat) :
    collapsedTextEmpty ((⟨List.replicate (k + 1) 'b'⟩ : String) ++ "") = false := by
  simp only [collapsedTextEmpty]
  rw [show ((⟨List.replicate (k + 1) 'b'⟩ : String) ++ "").data
      = List.replicate (k + 1) 'b' ++ [] from rfl]
  rw [List.append_nil, nbsp_bs, collapsePlus_bs isTabSp ' ' (by decide), jsTrim_bs]
  simp [mk_replicate_ne_empty k]

theorem removeEmpty_c2 (k : Nat) (hk : k ≠ 0) : removeEmptyBlocks (c2Tree k) = c2Tree k := by
  cases k with
  | zero => exact absurd rfl hk
  | succ k =>
    simp only [c2Tree, removeEmptyBlocks, removeEmptyBlocksL, removeEmptyBlocksNode]
    rw [show textContentL [Node.text ⟨List.replicate (k + 1) 'b'⟩]
        = (⟨List.replicate (k + 1) 'b'⟩ : String) ++ "" from rfl]
    rw [collapsedTextEmpty_bs k]
    simp [removeEmptyBlocksL]

theorem compressBr_c2 (k : Nat) : compressBrRuns (c2Tree k) = c2Tree k := rfl

-- label scans on the b-run
theorem labelColonAux_bs (lbl : List Char)
    (hhm : ∀ rest, headMatches lbl ('b' :: rest) = false) :
    ∀ (f k : Nat), labelColonAux lbl f (List.replicate k 'b') = List.replicate k 'b'
  | 0, 0 => rfl
  | _ + 1, 0 => rfl
  | 0, _ + 1 => by rw [List.replicate_succ]; exact rfl
  | f + 1, k + 1 => by
    rw [List.replicate_succ]
    simp only [labelColonAux]
    rw [if_neg (by simp [hhm])]
    rw [labelColonAux_bs lbl hhm f k]

theorem labelPlainAux_bs (lbl : List Char)
    (hhm : ∀ rest, headMatches lbl ('b' :: rest) = false) :
    ∀ (f k : Nat), labelPlainAux lbl f (List.replicate k 'b') = List.replicate k 'b'
  | 0, 0 => rfl
  | _ + 1, 0 => rfl
  | 0, _ + 1 => by rw [List.replicate_succ]; exact rfl
  | f + 1, k + 1 => by
    rw [List.replicate_succ]
    simp only [labelPlainAux]
    rw [if_neg (by simp [hhm])]
    rw [labelPlainAux_bs lbl hhm f k]

theorem normalizeData_bs (k : Nat) :
    normalizeData ⟨List.replicate k 'b'⟩ = ⟨List.replicate k 'b'⟩ := by
  simp only [normalizeData]
  rw [nbsp_bs, collapse2_bs isTabSp ' ' (by decide),
    collapse2_bs (fun c => c = '\n') '\n' (by decide)]
  simp only [LABEL_WORDS, List.foldl]
  rw [
    labelColonAux_bs "氏名".data (fun _ => rfl), labelPlainAux_bs "氏名".data (fun _ => rfl),
    labelColonAux_bs "名前".data (fun _ => rfl), labelPlainAux_bs "名前".data (fun _ => rfl),
    labelColonAux_bs "専門".data (fun _ => rfl), labelPlainAux_bs "専門".data (fun _ => rfl),
    labelColonAux_bs "研究分野".data (fun _ => rfl), labelPlainAux_bs "研究分野".data (fun _ => rfl),
    labelColonAux_bs "Research field".data (fun _ => rfl), labelPlainAux_bs "Research field".data (fun _ => rfl),
    labelColonAux_bs "Field(s)".data (fun _ => rfl), labelPlainAux_bs "Field(s)".data (fun _ => rfl),
    labelColonAux_bs "Fields".data (fun _ => rfl), labelPlainAux_bs "Fields".data (fun _ => rfl)]

theorem normalizeText_c2 (k : Nat) :
    normalizeTextWhitespace (c2Tree k) = c2Tree k := by
  simp only [c2Tree, normalizeTextWhitespace, normalizeTextL, normalizeTextNode]
  rw [normalizeData_bs]

theorem removeComments_c2 (k : Nat) : removeCommentsDeep (c2Tree k) = c2Tree k := rfl

theorem pipeline_c2 (k : Nat) (hk : k ≠ 0) (u : String) :
    pipelineStagesHtml (c2Tree k) u = c2Tree k := by
  rw [pipelineStagesHtml, noise_c2, forced_c2, absolutize_c2, simplify_c2, prune_c2,
    removeEmpty_c2 k hk]

theorem finalizeTree_c2 (k : Nat) : finalizeTree (c2Tree k) = c2Tree k := by
  rw [finalizeTree, compressBr_c2, normalizeText_c2, removeComments_c2]

-- ## batch 3: serializer and ensure on c2

theorem escape_bs : ∀ k, escapeTextData (List.replicate k 'b') = List.replicate k 'b'
  | 0 => rfl
  | k + 1 => by
    rw [List.replicate_succ]
    rw [show ∀ rest, escapeTextData ('b' ::rest) = 'b' :: escapeTextData rest from fun _ => rfl]
    rw [escape_bs k]

theorem serialize_c2 (k : Nat) : (serializeNode (c2Tree k)).data = c2Chars k := by
  simp only [c2Tree, serializeNode, serializeL, serializeAttrs]
  rw [if_neg (show ¬ VOID_TAGS.contains "main" = true from by decide)]
  rw [if_neg (show ¬ VOID_TAGS.contains "p" = true from by decide)]
  rw [escape_bs]
  simp only [String.data_append]
  simp only [c2Chars, List.cons_append, List.nil_append, List.append_nil, List.append_assoc]

theorem serializeLen_c2 (k : Nat) : (serializeNode (c2Tree k)).length = k + 20 := by
  rw [show (serializeNode (c2Tree k)).length = (serializeNode (c2Tree k)).data.length from rfl]
  rw [serialize_c2, c2Chars_length]

theorem tryCloseBlock_b (rest : List Char) : tryCloseBlock ('b' :: rest) = none := rfl

theorem ensureAux_cons_none (f : Nat) (c : Char) (rest : List Char)
    (h : tryCloseBlock (c :: rest) = none) :
    ensureAux (f + 1) (c :: rest) = c :: ensureAux f rest := by
  simp only [ensureAux, h]

theorem ensureAux_bs (rest : List Char) : ∀ k f,
    ensureAux ((k + f) + 1) (List.replicate k 'b' ++ rest) =
      List.replicate k 'b' ++ ensureAux (f + 1) rest
  | 0, f => by simp
  | k + 1, f => by
    rw [List.replicate_succ, List.cons_append]
    rw [show (k + 1 + f) + 1 = ((k + f) + 1) + 1 from by omega]
    rw [ensureAux_cons_none ((k + f) + 1) 'b' _ (tryCloseBlock_b _)]
    rw [ensureAux_bs rest k f]
    rw [← List.cons_append, ← List.replicate_succ]

theorem ensureAux_c2head (k : Nat) (X : List Char) :
    ensureAux ((k + 9) + 1) ('<' :: 'm' :: 'a' :: 'i' :: 'n' :: '>' :: '<' :: 'p' :: '>' ::X) =
      '<' :: 'm' :: 'a' :: 'i' :: 'n' :: '>' :: '<' :: 'p' :: '>' :: ensureAux (k + 1) X := by
  rw [ensureAux_cons_none (k + 9) '<' ('m' :: 'a' :: 'i' :: 'n' :: '>' :: '<' :: 'p' :: '>' ::X) rfl]
  rw [ensureAux_cons_none (k + 8) 'm' ('a' :: 'i' :: 'n' :: '>' :: '<' :: 'p' :: '>' ::X) rfl]
  rw [ensureAux_cons_none (k + 7) 'a' ('i' :: 'n' :: '>' :: '<' :: 'p' :: '>' ::X) rfl]
  rw [ensureAux_cons_none (k + 6) 'i' ('n' :: '>' :: '<' :: 'p' :: '>' ::X) rfl]
  rw [ensureAux_cons_none (k + 5) 'n' ('>' :: '<' :: 'p' :: '>' ::X) rfl]
  rw [ensureAux_cons_none (k + 4) '>' ('<' :: 'p' :: '>' ::X) rfl]
  rw [ensureAux_cons_none (k + 3) '<' ('p' :: '>' ::X) rfl]
  rw [ensureAux_cons_none (k + 2) 'p' ('>' ::X) rfl]
  rw [ensureAux_cons_none (k + 1) '>' X rfl]

theorem ensure_c2 (k : Nat) (s : String) (hs : s.data = c2Chars k) :
    ensureNewlinesBetweenBlocks s = s := by
  have key : ensureAux s.data.length s.data = s.data := by
    rw [hs, c2Chars_length]
    simp only [c2Chars]
    rw [show k + 20 = ((k + 10) + 9) + 1 from by omega]
    rw [ensureAux_c2head (k + 10)]
    rw [show (k + 10) + 1 = (k + 10) + 1 from rfl]
    rw [ensureAux_bs _ k 10]
    rw [show ensureAux (10 + 1) ('<' :: '/' :: 'p' :: '>' :: '<' :: '/' :: 'm' :: 'a' :: 'i' :: 'n' :: '>' ::[]) =
        ('<' :: '/' :: 'p' :: '>' :: '<' :: '/' :: 'm' :: 'a' :: 'i' :: 'n' :: '>' ::[]) from by decide]
  show (⟨ensureAux s.data.length s.data⟩ : String) = s
  rw [key]

-- ## batch 4: clipping on c2

theorem countTexts_c2 (k : Nat) : countTextsNode (c2Tree k) = 1 := rfl

theorem mk_replicate_length (k : Nat) :
    (⟨List.replicate k 'b'⟩ : String).length = k := by
  show (List.replicate k 'b').length = k
  simp

theorem clipNode_c2 (K need : Nat) (h0 : ¬ need = 0) (hK : K ≠ 0) :
    clipNode (c2Tree K) need =
      (c2Tree (K - min K (max 16 ((need + 1) / 2))),
       need - min K (max 16 ((need + 1) / 2))) := by
  cases K with
  | zero => exact absurd rfl hK
  | succ K =>
    simp only [c2Tree, clipNode, clipList]
    rw [if_neg h0, if_neg (mk_replicate_ne_empty K)]
    rw [mk_replicate_length]
    rw [List.take_replicate]
    rw [show min ((K + 1) - min (K + 1) (max 16 ((need + 1) / 2))) (K + 1)
        = (K + 1) - min (K + 1) (max 16 ((need + 1) / 2)) from by omega]
    rw [jsTrimEnd_bs]

theorem clipLoop_step_c2 (f K limit K2 : Nat) (hgt : limit < K + 20) (hK : K ≠ 0)
    (hneed : ¬ (K + 20 - limit) = 0)
    (hK2 : K2 = K - min K (max 16 ((K + 20 - limit + 1) / 2))) :
    clipLoop (f + 1) (c2Tree K) limit = clipLoop f (c2Tree K2) limit := by
  simp only [clipLoop]
  rw [serializeLen_c2]
  rw [if_neg (by omega)]
  rw [clipNode_c2 K _ hneed hK]
  rw [← hK2]

theorem ranOut_step_c2 (f K limit K2 : Nat) (hgt : limit < K + 20) (hK : K ≠ 0)
    (hneed : ¬ (K + 20 - limit) = 0)
    (hK2 : K2 = K - min K (max 16 ((K + 20 - limit + 1) / 2))) :
    clipLoopRanOut (f + 1) (c2Tree K) limit = clipLoopRanOut f (c2Tree K2) limit := by
  simp only [clipLoopRanOut]
  rw [serializeLen_c2]
  rw [if_neg (by omega)]
  rw [clipNode_c2 K _ hneed hK]
  rw [← hK2]

theorem clipLoop_c2 : clipLoop 6 (c2Tree 33000) 30000 = c2Tree 30027 := by
  rw [show (6 : Nat) = 5 + 1 from rfl,
    clipLoop_step_c2 5 33000 30000 31490 (by norm_num) (by norm_num) (by norm_num) (by norm_num)]
  rw [show (5 : Nat) = 4 + 1 from rfl,
    clipLoop_step_c2 4 31490 30000 30735 (by norm_num) (by norm_num) (by norm_num) (by norm_num)]
  rw [show (4 : Nat) = 3 + 1 from rfl,
    clipLoop_step_c2 3 30735 30000 30357 (by norm_num) (by norm_num) (by norm_num) (by norm_num)]
  rw [show (3 : Nat) = 2 + 1 from rfl,
    clipLoop_step_c2 2 30357 30000 30168 (by norm_num) (by norm_num) (by norm_num) (by norm_num)]
  rw [show (2 : Nat) = 1 + 1 from rfl,
    clipLoop_step_c2 1 30168 30000 30074 (by norm_num) (by norm_num) (by norm_num) (by norm_num)]
  rw [show (1 : Nat) = 0 + 1 from rfl,
    clipLoop_step_c2 0 30074 30000 30027 (by norm_num) (by norm_num) (by norm_num) (by norm_num)]
  rfl

theorem ranOut_c2 : clipLoopRanOut 6 (c2Tree 33000) 30000 = true := by
  rw [show (6 : Nat) = 5 + 1 from rfl,
    ranOut_step_c2 5 33000 30000 31490 (by norm_num) (by norm_num) (by norm_num) (by norm_num)]
  rw [show (5 : Nat) = 4 + 1 from rfl,
    ranOut_step_c2 4 31490 30000 30735 (by norm_num) (by norm_num) (by norm_num) (by norm_num)]
  rw [show (4 : Nat) = 3 + 1 from rfl,
    ranOut_step_c2 3 30735 30000 30357 (by norm_num) (by norm_num) (by norm_num) (by norm_num)]
  rw [show (3 : Nat) = 2 + 1 from rfl,
    ranOut_step_c2 2 30357 30000 30168 (by norm_num) (by norm_num) (by norm_num) (by norm_num)]
  rw [show (2 : Nat) = 1 + 1 from rfl,
    ranOut_step_c2 1 30168 30000 30074 (by norm_num) (by norm_num) (by norm_num) (by norm_num)]
  rw [show (1 : Nat) = 0 + 1 from rfl,
    ranOut_step_c2 0 30074 30000 30027 (by norm_num) (by norm_num) (by norm_num) (by norm_num)]
  simp only [clipLoopRanOut]
  rw [serializeLen_c2]
  decide

-- ## batch 5: shape preservation, loop bound, assembly


mutual
theorem shape_clipNode : ∀ (n : Node) (need : Nat), shapeNode (clipNode n need).1 = shapeNode n
  | .elem t a ch, need => by
    simp only [clipNode, shapeNode]
    rw [shape_clipList ch need]
  | .text s, need => by
    simp only [clipNode]
    by_cases h0 : need = 0
    · rw [if_pos h0]
    · rw [if_neg h0]
      by_cases hs : s = ""
      · rw [if_pos hs]
      · rw [if_neg hs]
        rfl
  | .comment s, need => rfl
theorem shape_clipList : ∀ (l : List Node) (need : Nat), shapeL (clipList l need).1 = shapeL l
  | [], _ => rfl
  | n :: l, need => by
    simp only [clipList, shapeL]
    rw [shape_clipNode, shape_clipList]
end

theorem shape_clipLoop : ∀ (f : Nat) (t : Node) (limit : Nat),
    shapeNode (clipLoop f t limit) = shapeNode t
  | 0, _, _ => rfl
  | f + 1, t, limit => by
    simp only [clipLoop]
    by_cases hle : (serializeNode t).length ≤ limit
    · rw [if_pos hle]
    · rw [if_neg hle]
      rw [shape_clipLoop f _ limit, shape_clipNode]

theorem clipLoop_le : ∀ (f : Nat) (t : Node) (limit : Nat),
    clipLoopRanOut f t limit = false → (serializeNode (clipLoop f t limit)).length ≤ limit
  | 0, t, limit => by
    intro h
    simp only [clipLoopRanOut] at h
    simp only [clipLoop]
    simp at h
    omega
  | f + 1, t, limit => by
    intro h
    simp only [clipLoopRanOut] at h
    simp only [clipLoop]
    by_cases hle : (serializeNode t).length ≤ limit
    · rw [if_pos hle]
      exact hle
    · rw [if_neg hle] at h ⊢
      exact clipLoop_le f _ limit h

theorem c2_out : cleanFacultyHtml c2Input c2Url = serializeNode (c2Tree 30027) := by
  unfold cleanFacultyHtml
  rw [parseHtml_c2 33000 (by norm_num) c2Input c2Input_data]
  dsimp only
  rw [selectScope_c2, pipeline_c2 33000 (by norm_num)]
  rw [show finalizeFormatting (c2Tree 33000)
      = ensureNewlinesBetweenBlocks (serializeNode (finalizeTree (c2Tree 33000))) from rfl]
  rw [finalizeTree_c2]
  rw [ensure_c2 33000 _ (serialize_c2 33000)]
  rw [serializeLen_c2]
  rw [if_pos (by norm_num : (30000:Nat) < 33000 + 20)]
  rw [parseHtml_c2 33000 (by norm_num) _ (serialize_c2 33000)]
  rw [selectScope_c2]
  rw [show clipToLimit (c2Tree 33000) 30000 = clipLoop 6 (c2Tree 33000) 30000 from rfl]
  rw [clipLoop_c2]
  rw [ensure_c2 30027 _ (serialize_c2 30027)]

theorem c2_len : (cleanFacultyHtml c2Input c2Url).length = 30047 := by
  rw [c2_out, serializeLen_c2]

/-- C2 counterexample: on a 33000-letter paragraph the markup-mode
output is 30047 units long, exceeding the 30000-unit budget, although the
scope has a text node to trim (so the acknowledged markup-only soft
failure does not cover it): the trimming loop halves the overage each
iteration and its iteration cap (text-node count plus five) runs out
first, which the clipBudgetMissed mirror records. -/
theorem c2_counterexample :
    0 < countTextsNode (selectScope (parseHtml c2Input)) ∧
    clipBudgetMissed
      (selectScope (parseHtml (finalizeFormatting
        (pipelineStagesHtml (selectScope (parseHtml c2Input)) c2Url)))) 30000 = true ∧
    (cleanFacultyHtml c2Input c2Url).length = 30047 := by
  refine ⟨?_, ?_, c2_len⟩
  · rw [parseHtml_c2 33000 (by norm_num) c2Input c2Input_data, selectScope_c2, countTexts_c2]
    omega
  · rw [parseHtml_c2 33000 (by norm_num) c2Input c2Input_data, selectScope_c2,
      pipeline_c2 33000 (by norm_num)]
    rw [show finalizeFormatting (c2Tree 33000)
        = ensureNewlinesBetweenBlocks (serializeNode (finalizeTree (c2Tree 33000))) from rfl]
    rw [finalizeTree_c2]
    rw [ensure_c2 33000 _ (serialize_c2 33000)]
    rw [parseHtml_c2 33000 (by norm_num) _ (serialize_c2 33000), selectScope_c2]
    rw [show clipBudgetMissed (c2Tree 33000) 30000
        = clipLoopRanOut 6 (c2Tree 33000) 30000 from rfl]
    exact ranOut_c2

/-- C2 (corrected): clipping preserves the tag-and-attribute skeleton
(only text-node content is trimmed, so the markup stays balanced), and
for every input the final output either is the under-budget markup-mode
result, or is the re-serialized clipped tree, in which case the
serialization meets the 30000-unit budget unless the trimming loop's
iteration cap ran out (clipBudgetMissed) -- an over-budget outcome that,
by the counterexample, arises even for inputs with text nodes to trim. -/
theorem c2_theorem :
    (∀ (t : Node) (limit : Nat), shapeNode (clipToLimit t limit) = shapeNode t) ∧
    (∀ html u : String,
      ((finalizeFormatting (pipelineStagesHtml (selectScope (parseHtml html)) u)).length ≤ 30000 ∧
        cleanFacultyHtml html u =
          finalizeFormatting (pipelineStagesHtml (selectScope (parseHtml html)) u)) ∨
      (30000 < (finalizeFormatting (pipelineStagesHtml (selectScope (parseHtml html)) u)).length ∧
        cleanFacultyHtml html u =
          ensureNewlinesBetweenBlocks (serializeNode (clipToLimit
            (selectScope (parseHtml (finalizeFormatting (pipelineStagesHtml
              (selectScope (parseHtml html)) u)))) 30000)) ∧
        (clipBudgetMissed (selectScope (parseHtml (finalizeFormatting (pipelineStagesHtml
            (selectScope (parseHtml html)) u)))) 30000 = true ∨
          (serializeNode (clipToLimit (selectScope (parseHtml (finalizeFormatting
            (pipelineStagesHtml (selectScope (parseHtml html)) u)))) 30000)).length ≤ 30000))) := by
  constructor
  · intro t limit
    unfold clipToLimit
    exact shape_clipLoop _ _ _
  · intro html u
    by_cases hle :
        (finalizeFormatting (pipelineStagesHtml (selectScope (parseHtml html)) u)).length ≤ 30000
    · left
      refine ⟨hle, ?_⟩
      unfold cleanFacultyHtml
      dsimp only
      rw [if_neg (by omega)]
    · right
      refine ⟨by omega, ?_, ?_⟩
      · unfold cleanFacultyHtml
        dsimp only
        rw [if_pos (by omega)]
      · by_cases hb : clipBudgetMissed (selectScope (parseHtml (finalizeFormatting
            (pipelineStagesHtml (selectScope (parseHtml html)) u)))) 30000 = true
        · exact Or.inl hb
        · right
          have hb2 : clipLoopRanOut
              (countTextsNode (selectScope (parseHtml (finalizeFormatting
                (pipelineStagesHtml (selectScope (parseHtml html)) u)))) + 5)
              (selectScope (parseHtml (finalizeFormatting
                (pipelineStagesHtml (selectScope (parseHtml html)) u)))) 30000 = false := by
            cases hx : clipLoopRanOut
                (countTextsNode (selectScope (parseHtml (finalizeFormatting
                  (pipelineStagesHtml (selectScope (parseHtml html)) u)))) + 5)
                (selectScope (parseHtml (finalizeFormatting
                  (pipelineStagesHtml (selectScope (parseHtml html)) u)))) 30000 with
            | false => rfl
            | true => exact absurd hx hb
          unfold clipToLimit
          exact clipLoop_le _ _ _ hb2

end FacultyCleaner
